import Mathlib

/-!
# QVZ: quantizer design and the compression driver

A shallow embedding of `src/quantizer.c`, `src/qv_compressor.c` and the line macros of
`include/codebook.h`.

Conventions of the embedding.

* C arrays of `symbol_t` / `uint32_t` are lists of naturals; `a[i]` is `a.getD i 0` and
  `a[i] = v` is `a.set i v`.
* `symbol_t` is declared in a header that is not part of the sources at hand; its number of
  values is the parameter `M` (256 for an 8-bit symbol) and every store into a `symbol_t`
  object is reduced modulo `M`.
* The C type `double` is kept abstract: the designer is written over an arbitrary carrier `V`
  with the operations listed in `double_ops`.  Statements about the control flow of the designer
  and about the costs that it computes hold for every such carrier.  The instance
  `binary64_ops` is the arithmetic of the program on finite values: every sum and every product
  is rounded to binary64 (to nearest, ties to even).  The instance `exact_ops` is the
  idealisation without rounding; it is used where a statement is said to hold in exact
  arithmetic.
* The `double` variable `distortion` of the encoder is computed with the binary64 operations.
* `get_probability` and `get_distortion` are defined in files that are not part of the sources at
  hand; they enter as the functions `p : Nat → V` and `d : Nat → Nat → V`.
* `QUANTIZER_MAX_ITER` is defined in a header that is not part of the sources at hand; it enters
  as the parameter `max_iter`.
-/

namespace QVZ

/-! ## Definitions: quantizer.c -/

/-- The operations on the C type `double` that the sources use: the constant `0.0`, `+`, `*`,
the comparison `<` and the constant `DBL_MAX`. -/
structure double_ops (V : Type) where
  zero : V
  add : V → V → V
  mul : V → V → V
  lt : V → V → Bool
  DBL_MAX : V

/-- The largest finite IEEE-754 binary64 value, as a rational number. -/
def DBL_MAX_exact : ℚ := 2 ^ 1024 - 2 ^ 971

/-- Exact (rounding-free) arithmetic: the idealisation of `double` by the rationals.  It is not
the arithmetic of the program, which rounds every sum and product (`binary64_ops`). -/
def exact_ops : double_ops ℚ where
  zero := 0
  add := fun a b => a + b
  mul := fun a b => a * b
  lt := fun a b => decide (a < b)
  DBL_MAX := DBL_MAX_exact

/-- The integer nearest to `n / d`, the even one of the two when `n / d` lies half way. -/
def round_half_even (n d : Nat) : Nat :=
  if 2 * (n % d) < d then n / d
  else if d < 2 * (n % d) then n / d + 1
  else if (n / d) % 2 = 0 then n / d else n / d + 1

/-- The position `⌊log2 n⌋` of the leading bit of `n ≥ 1`, found by halving; the first argument
bounds the number of halvings. -/
def leading_bit : Nat → Nat → Nat
  | 0, _ => 0
  | fuel + 1, n => if 2 ≤ n then leading_bit fuel (n / 2) + 1 else 0

/-- The exponent `⌊log2 (n / d)⌋` of the positive quotient `n / d`. -/
def binary_exponent (n d : Nat) : Int :=
  let s : Int := (leading_bit n n : Int) - (leading_bit d d : Int)
  if (0 ≤ s ∧ d * 2 ^ s.toNat ≤ n) ∨ (s < 0 ∧ d ≤ n * 2 ^ (-s).toNat) then s else s - 1

/-- The binary64 value nearest to `n / d` (ties to even): 53 significant bits, 52 of them after
the binary point of the significand, and never more than 1074 bits after the binary point of the
value (the subnormal numbers). -/
def round_binary64_quotient (n d : Nat) : ℚ :=
  if n = 0 then 0
  else
    let t : Int := min (52 - binary_exponent n d) 1074
    if 0 ≤ t then (round_half_even (n * 2 ^ t.toNat) d : ℚ) / (2 : ℚ) ^ t.toNat
    else (round_half_even n (d * 2 ^ (-t).toNat) : ℚ) * (2 : ℚ) ^ (-t).toNat

/-- Rounding of a real result to binary64 in the default rounding mode of IEEE 754 (to nearest,
ties to even).  A result beyond `DBL_MAX`, which binary64 turns into an infinity, is kept as a
finite number. -/
def round_binary64 (x : ℚ) : ℚ :=
  if 0 ≤ x then round_binary64_quotient x.num.natAbs x.den
  else - round_binary64_quotient x.num.natAbs x.den

/-- The arithmetic of `double` on finite values: each sum and each product is rounded to
binary64. -/
def binary64_ops : double_ops ℚ where
  zero := 0
  add := fun a b => round_binary64 (a + b)
  mul := fun a b => round_binary64 (a * b)
  lt := fun a b => decide (a < b)
  DBL_MAX := DBL_MAX_exact

/-- The quotient of two values of `double`, rounded to binary64 (for a divisor that is not
zero). -/
def binary64_div (a b : ℚ) : ℚ := round_binary64 (a / b)

/-- Struct `alphabet_t`: the number of symbols and the ordered list of symbol codes. -/
structure alphabet_t where
  size : Nat
  symbols : List Nat
deriving DecidableEq, Repr

/-- Struct `quantizer_t`: the input alphabet, the map `q` and the pointer to the output
alphabet (`none` is the null pointer). -/
structure quantizer_t where
  alphabet : alphabet_t
  q : List Nat
  output_alphabet : Option alphabet_t
deriving DecidableEq, Repr

/-- Function `alloc_quantizer`: both allocations are `calloc`, so the map is all zero and the
output-alphabet pointer is null. -/
def alloc_quantizer (alphabet : alphabet_t) : quantizer_t where
  alphabet := alphabet
  q := List.replicate alphabet.size 0
  output_alphabet := none

/-- The loop `for (i = lo; i < hi; ++i) body`, for a body that changes neither `lo` nor `hi`. -/
def for_range {σ : Type} (lo hi : Nat) (body : Nat → σ → σ) (init : σ) : σ :=
  (List.range' lo (hi - lo)).foldl (fun st i => body i st) init

/-- Lines 68-71 of `generate_quantizer`: the distortion of the region `[lo, hi)` when `r` is
used as its reconstruction point. -/
def region_mse {V : Type} (A : double_ops V) (p : Nat → V) (d : Nat → Nat → V)
    (lo hi r : Nat) : V :=
  for_range lo hi (fun i mse => A.add mse (A.mul (p i) (d i r))) A.zero

/-- Lines 62-78 of `generate_quantizer`: the search for `(min_r, min_mse)` over the candidate
reconstruction points of the region `[lo, hi)`. -/
def min_search {V : Type} (A : double_ops V) (p : Nat → V) (d : Nat → Nat → V)
    (lo hi : Nat) : Nat × V :=
  for_range lo hi
    (fun r m =>
      let mse := region_mse A p d lo hi r
      if A.lt mse m.2 then (r, mse) else m)
    (lo, A.DBL_MAX)

/-- The local variables of `generate_quantizer` that the design loop updates. -/
structure design_state where
  bounds : List Nat
  reconstruction : List Nat
  changed : Bool
deriving DecidableEq, Repr

/-- Lines 60-85: body of the loop over the regions, for region `j`. -/
def reconstruction_body {V : Type} (A : double_ops V) (p : Nat → V) (d : Nat → Nat → V)
    (M : Nat) (j : Nat) (st : design_state) : design_state :=
  let min_r := (min_search A p d (st.bounds.getD j 0) (st.bounds.getD (j + 1) 0)).1
  if min_r ≠ st.reconstruction.getD j 0 then
    { st with changed := true, reconstruction := st.reconstruction.set j (min_r % M) }
  else st

/-- Lines 59-85: adjust the reconstruction points for fixed bounds. -/
def adjust_reconstruction {V : Type} (A : double_ops V) (p : Nat → V) (d : Nat → Nat → V)
    (M states : Nat) (st : design_state) : design_state :=
  for_range 0 states (reconstruction_body A p d M) st

/-- Lines 92-105: the loop `for (j = 1; j < size-1 && r < states-1; ++j)`, started at `(j, r)`
with `n` bounding the number of iterations still to run, for `size ≥ 1` and `states ≥ 1` (the
differences `size-1` and `states-1` do not wrap). -/
def adjust_bounds_loop {V : Type} (A : double_ops V) (d : Nat → Nat → V) (M size states : Nat)
    (reconstruction : List Nat) : Nat → Nat → Nat → List Nat → List Nat
  | 0, _, _, bounds => bounds
  | n + 1, j, r, bounds =>
    if j < size - 1 ∧ r < states - 1 then
      let mse := d j (reconstruction.getD r 0)
      let next_mse := d j (reconstruction.getD (r + 1) 0)
      if A.lt next_mse mse then
        adjust_bounds_loop A d M size states reconstruction n (j + 1) (r + 1)
          (bounds.set (r + 1) (j % M))
      else
        adjust_bounds_loop A d M size states reconstruction n (j + 1) r bounds
    else bounds

/-- Lines 87-105: adjust the bounds for fixed reconstruction points. -/
def adjust_bounds {V : Type} (A : double_ops V) (d : Nat → Nat → V) (M size states : Nat)
    (st : design_state) : design_state :=
  { st with bounds := adjust_bounds_loop A d M size states st.reconstruction size 1 0 st.bounds }

/-- Lines 56-105: one pass of the body of the design loop. -/
def design_iteration {V : Type} (A : double_ops V) (p : Nat → V) (d : Nat → Nat → V)
    (M size states : Nat) (st : design_state) : design_state :=
  adjust_bounds A d M size states
    (adjust_reconstruction A p d M states { st with changed := false })

/-- Lines 55-106: the loop `while (changed && iter < QUANTIZER_MAX_ITER)`; the first argument is
`QUANTIZER_MAX_ITER - iter`, the number of passes still allowed. -/
def design_loop {V : Type} (A : double_ops V) (p : Nat → V) (d : Nat → Nat → V)
    (M size states : Nat) : Nat → design_state → design_state
  | 0, st => st
  | k + 1, st =>
    if st.changed then design_loop A p d M size states k (design_iteration A p d M size states st)
    else st

/-- Lines 43-47: the initial bounds; the product `j * size` is computed in `uint32_t`. -/
def initial_bounds (M size states : Nat) : List Nat :=
  for_range 1 states (fun j b => b.set j (((j * size) % 4294967296 / states) % M))
    (((List.replicate (states + 1) 0).set 0 0).set states (size % M))

/-- Lines 48-50: the initial reconstruction points; the sum is computed in `int` and the
quotient of `-1` by `2` is `0`, which is what truncated subtraction gives. -/
def initial_reconstruction (M states : Nat) (bounds : List Nat) : List Nat :=
  for_range 0 states (fun j rc => rc.set j (((bounds.getD j 0 + bounds.getD (j + 1) 0 - 1) / 2) % M))
    (List.replicate states 0)

/-- Lines 34-50: the state at the entry of the design loop. -/
def initial_state (M size states : Nat) : design_state where
  bounds := initial_bounds M size states
  reconstruction := initial_reconstruction M states (initial_bounds M size states)
  changed := true

/-- Lines 110-114: the mapping from input symbol to reconstruction point. -/
def quantizer_mapping (states : Nat) (bounds reconstruction q : List Nat) : List Nat :=
  for_range 0 states
    (fun j q =>
      for_range (bounds.getD j 0) (bounds.getD (j + 1) 0)
        (fun i q => q.set i (reconstruction.getD j 0)) q)
    q

/-- Lines 122-128: the value stored through `dist_out`. -/
def final_distortion {V : Type} (A : double_ops V) (p : Nat → V) (d : Nat → Nat → V)
    (states : Nat) (bounds reconstruction : List Nat) : V :=
  for_range 0 states
    (fun j mse =>
      for_range (bounds.getD j 0) (bounds.getD (j + 1) 0)
        (fun i mse => A.add mse (A.mul (d i (reconstruction.getD j 0)) (p i))) mse)
    A.zero

/-- The state of the designer when the design loop has ended. -/
def designed_state {V : Type} (A : double_ops V) (p : Nat → V) (d : Nat → Nat → V)
    (M max_iter : Nat) (alphabet : alphabet_t) (states : Nat) : design_state :=
  design_loop A p d M alphabet.size states max_iter (initial_state M alphabet.size states)

/-- Function `generate_quantizer`: the returned quantizer and the value written to `dist_out`.
Nothing is assigned to the output alphabet of the quantizer (line 116-117 is a `TODO`). -/
def generate_quantizer {V : Type} (A : double_ops V) (p : Nat → V) (d : Nat → Nat → V)
    (M max_iter : Nat) (alphabet : alphabet_t) (states : Nat) : quantizer_t × V :=
  let q := alloc_quantizer alphabet
  let st := designed_state A p d M max_iter alphabet states
  ({ q with q := quantizer_mapping states st.bounds st.reconstruction q.q },
   final_distortion A p d states st.bounds st.reconstruction)

/-- Struct `pmf_t`: the alphabet, the weights and the flag `pmf_ready`. -/
structure pmf_t (V : Type) where
  alphabet : alphabet_t
  pmf : List V
  pmf_ready : Bool

/-- Function `apply_quantizer`: the object `*output` after the call.  Line 146 clears the weights
`output->pmf`.  The statement of the loop, line 150, is `output[q->q[i]] += ...`: its target is
not an element of `output->pmf`, so the loop leaves the weights as line 146 set them.  Line 152
sets the flag. -/
def apply_quantizer {V : Type} (A : double_ops V) (_q : quantizer_t) (pmf output : pmf_t V) :
    pmf_t V :=
  let output1 := { output with pmf := List.replicate output.alphabet.size A.zero }
  let output2 := for_range 0 pmf.alphabet.size (fun _ out => out) output1
  { output2 with pmf_ready := true }

/-! ## Definitions: qv_compressor.c -/

/-- Struct `line_t`: the cluster of the line and its symbols, already offset-corrected. -/
structure line_t where
  cluster : Nat
  data : List Nat
deriving DecidableEq, Repr

/-- Modelled from the spec: the function `get_symbol_index` (its file is not part of the sources
at hand) is the inverse index of an alphabet, the position of a symbol in the ordered list of
symbol codes. -/
def get_symbol_index (a : alphabet_t) (v : Nat) : Nat := a.symbols.indexOf v

/-- The part of `arithStream` that the driver uses: the frequency models `stats`, the model of
the cluster ids and the coded stream.  A frequency model is a value of the type `F`. -/
structure arith_stream (F : Type) where
  stats : Nat → Nat → Nat → F
  cluster_stats : F
  os : List (F × Nat)

/-- Modelled from the spec: the arithmetic coder (its file is not part of the sources at hand)
is a lossless black box.  The coded stream is the sequence of coded symbols, each with the
frequency model it was coded under; the encoder step appends to it. -/
def arithmetic_encoder_step {F : Type} (m : F) (x : Nat) (os : List (F × Nat)) : List (F × Nat) :=
  os ++ [(m, x)]

/-- Modelled from the spec: the decoder step returns the symbol that the encoder step coded,
provided it is given the frequency model of the encoder step.  Nothing is known about its
result otherwise, or when no coded symbol is left: the result is then `junk m os`, for an
arbitrary function `junk`. -/
def arithmetic_decoder_step {F : Type} [DecidableEq F] (junk : F → List (F × Nat) → Nat)
    (m : F) (os : List (F × Nat)) : Nat × List (F × Nat) :=
  match os with
  | [] => (junk m [], [])
  | (m1, x) :: rest => if m1 = m then (x, rest) else (junk m os, rest)

/-- Modelled from the spec: `decoder_last_step` returns the next symbol, under the same
proviso, without reading further input. -/
def decoder_last_step {F : Type} [DecidableEq F] (junk : F → List (F × Nat) → Nat)
    (m : F) (os : List (F × Nat)) : Nat :=
  match os with
  | [] => junk m []
  | (m1, x) :: _ => if m1 = m then x else junk m os

/-- The assignment `stats[cluster][column][idx] = m`. -/
def set_stats {F : Type} (stats : Nat → Nat → Nat → F) (cluster column idx : Nat) (m : F) :
    Nat → Nat → Nat → F :=
  fun c s i => if c = cluster ∧ s = column ∧ i = idx then m else stats c s i

/-- Function `compress_qv`; `update_stats` is the parameter `upd`. -/
def compress_qv {F : Type} (upd : F → Nat → F) (as : arith_stream F)
    (x cluster column idx : Nat) : arith_stream F :=
  { as with
    os := arithmetic_encoder_step (as.stats cluster column idx) x as.os
    stats := set_stats as.stats cluster column idx (upd (as.stats cluster column idx) x) }

/-- Function `qv_write_cluster`. -/
def qv_write_cluster {F : Type} (upd : F → Nat → F) (as : arith_stream F) (cluster : Nat) :
    arith_stream F :=
  { as with
    os := arithmetic_encoder_step as.cluster_stats cluster as.os
    cluster_stats := upd as.cluster_stats cluster }

/-- Function `decompress_qv`. -/
def decompress_qv {F : Type} [DecidableEq F] (junk : F → List (F × Nat) → Nat)
    (upd : F → Nat → F) (as : arith_stream F) (cluster column idx : Nat) :
    Nat × arith_stream F :=
  let r := arithmetic_decoder_step junk (as.stats cluster column idx) as.os
  (r.1, { as with
    os := r.2
    stats := set_stats as.stats cluster column idx (upd (as.stats cluster column idx) r.1) })

/-- Function `qv_read_cluster`; the result is cast to `uint8_t`. -/
def qv_read_cluster {F : Type} [DecidableEq F] (junk : F → List (F × Nat) → Nat)
    (upd : F → Nat → F) (as : arith_stream F) : Nat × arith_stream F :=
  let r := arithmetic_decoder_step junk as.cluster_stats as.os
  (r.1 % 256, { as with os := r.2, cluster_stats := upd as.cluster_stats r.1 })

/-- The loop `for (; s < hi; ++s) body`, started at `s`, for a body that can fail; the result
carries the value of `s` at the exit.  The first argument bounds the number of tests of the
loop condition. -/
def for_from {σ : Type} (body : Nat → σ → Option σ) (hi : Nat) : Nat → Nat → σ → Option (Nat × σ)
  | 0, s, st => some (s, st)
  | n + 1, s, st =>
    if s < hi then
      match body s st with
      | none => none
      | some st1 => for_from body hi n (s + 1) st1
    else some (s, st)

/-- The variables of `start_qv_compression` that persist from line to line, with the log
`calls` of the `(column, context)` arguments of the calls of `choose_quantizer`.  The variable
`distortion` is a `double`: its values are the rationals that binary64 represents. -/
structure encoder_state (W F : Type) where
  well : W
  as : arith_stream F
  distortion : ℚ
  calls : List (Nat × Nat)

/-- Lines 91-97 and 108-116: choose the quantizer of column `s` with left context `prev_qv`,
quantize the symbol `x` and code its state.  `choose_quantizer` (its file is not part of the
sources at hand) is the parameter `choose`: it returns the quantizer, the index `idx` and the
new state of the generator.  A null output alphabet is a failure (`none`). -/
def encode_symbol {QL W F : Type} (choose : QL → W → Nat → Nat → quantizer_t × Nat × W)
    (upd : F → Nat → F) (qlist : QL) (cluster_id s prev_qv x : Nat)
    (st : encoder_state W F) : Option (Nat × encoder_state W F) :=
  let r := choose qlist st.well s prev_qv
  let qv := r.1.q.getD x 0 % 256
  match r.1.output_alphabet with
  | none => none
  | some a =>
    some (qv, { st with
      well := r.2.2
      as := compress_qv upd st.as (get_symbol_index a qv) cluster_id s r.2.1
      calls := st.calls ++ [(s, prev_qv)] })

/-- The square `(x - qv)*(x - qv)` as stored in the `uint32_t` variable `error`. -/
def squared_difference (x qv : Nat) : Nat :=
  (Int.natAbs ((x : ℤ) - (qv : ℤ))) ^ 2 % 4294967296

/-- Lines 107-119: body of the loop over the columns `s ≥ 1`, on `(prev_qv, error, state)`. -/
def encode_column {QL W F : Type} (choose : QL → W → Nat → Nat → quantizer_t × Nat × W)
    (upd : F → Nat → F) (qlist : QL) (cluster_id : Nat) (data : List Nat) (s : Nat)
    (v : Nat × Nat × encoder_state W F) : Option (Nat × Nat × encoder_state W F) :=
  match encode_symbol choose upd qlist cluster_id s v.1 (data.getD s 0) v.2.2 with
  | none => none
  | some (qv, st1) =>
    some (qv, (v.2.1 + squared_difference (data.getD s 0) qv) % 4294967296, st1)

/-- Lines 79-125: one pass of the body of the loop over the lines.  In line 125,
`distortion += error / ((double) columns)`, the conversions of the `uint32_t` values `error` and
`columns` to `double` are exact; the quotient and the sum are rounded to binary64. -/
def encode_line {QL W F : Type} (choose : QL → W → Nat → Nat → quantizer_t × Nat × W)
    (upd : F → Nat → F) (clusters : Nat → QL) (columns : Nat) (st : encoder_state W F)
    (line : line_t) : Option (encoder_state W F) :=
  let cluster_id := line.cluster % 256
  let qlist := clusters cluster_id
  let st1 := { st with as := qv_write_cluster upd st.as cluster_id }
  match encode_symbol choose upd qlist cluster_id 0 0 (line.data.getD 0 0) st1 with
  | none => none
  | some (qv, st2) =>
    match for_from (encode_column choose upd qlist cluster_id line.data) columns columns 1
        (qv, squared_difference (line.data.getD 0 0) qv, st2) with
    | none => none
    | some (_, _, error, st3) =>
      some { st3 with distortion :=
        binary64_ops.add st3.distortion (binary64_div (error : ℚ) (columns : ℚ)) }

/-- Lines 78-133: the loop over the lines; the blocks of the file are taken as one sequence of
lines. -/
def encode_lines {QL W F : Type} (choose : QL → W → Nat → Nat → quantizer_t × Nat × W)
    (upd : F → Nat → F) (clusters : Nat → QL) (columns : Nat) :
    List line_t → encoder_state W F → Option (encoder_state W F)
  | [], st => some st
  | line :: rest, st =>
    match encode_line choose upd clusters columns st line with
    | none => none
    | some st1 => encode_lines choose upd clusters columns rest st1

/-- Function `start_qv_compression` on a file of at least one line: the final state of the
encoder (its field `as.os` is the coded stream) and the value stored through `dis`.
`initialize_qv_compressor` provides the frequency models `stats` and `cluster_stats` and an
empty stream; `encoder_last_step` adds no symbol.  In line 138,
`*dis = distortion / ((double) info->lines)`, the conversion of the number of lines and the
quotient are rounded to binary64. -/
def start_qv_compression {QL W F : Type} (choose : QL → W → Nat → Nat → quantizer_t × Nat × W)
    (upd : F → Nat → F) (clusters : Nat → QL) (columns : Nat) (well : W)
    (stats : Nat → Nat → Nat → F) (cluster_stats : F) (lines : List line_t) :
    Option (encoder_state W F × ℚ) :=
  match lines with
  | [] => none
  | _ :: _ =>
    match encode_lines choose upd clusters columns lines
        ⟨well, ⟨stats, cluster_stats, []⟩, 0, []⟩ with
    | none => none
    | some st => some (st, binary64_div st.distortion (round_binary64 (lines.length : ℚ)))

/-- The variables of `start_qv_decompression` that persist from line to line, with the lines
written to `fout`, the log `calls` of the `(column, context)` arguments of the calls of
`choose_quantizer` and the log `steps` of the decoded quality values: whether
`decoder_last_step` was used, and the cluster, column and index of the frequency model. -/
structure decoder_state (W F : Type) where
  well : W
  as : arith_stream F
  fout : List (List Nat)
  calls : List (Nat × Nat)
  steps : List (Bool × Nat × Nat × Nat)

/-- Lines 173-178 and 183-185: choose the quantizer of column `s` with left context `prev_qv`,
decode a state and return the byte stored in `line[s]`.  A null output alphabet is a failure
(`none`). -/
def decode_symbol {QL W F : Type} [DecidableEq F]
    (choose : QL → W → Nat → Nat → quantizer_t × Nat × W)
    (junk : F → List (F × Nat) → Nat) (upd : F → Nat → F) (qlist : QL)
    (cluster_id s prev_qv : Nat) (st : decoder_state W F) :
    Option (Nat × decoder_state W F) :=
  let r := choose qlist st.well s prev_qv
  let x := decompress_qv junk upd st.as cluster_id s r.2.1
  match r.1.output_alphabet with
  | none => none
  | some a =>
    some ((a.symbols.getD x.1 0 + 33) % 256, { st with
      well := r.2.2
      as := x.2
      calls := st.calls ++ [(s, prev_qv)]
      steps := st.steps ++ [(false, cluster_id, s, r.2.1)] })

/-- Lines 181-187: body of the loop over the columns `s ≥ 1`, on `(prev_qv, line, state)`;
`prev_qv = line[s] - 33` is a `uint8_t`. -/
def decode_column {QL W F : Type} [DecidableEq F]
    (choose : QL → W → Nat → Nat → quantizer_t × Nat × W)
    (junk : F → List (F × Nat) → Nat) (upd : F → Nat → F) (qlist : QL) (cluster_id : Nat)
    (s : Nat) (v : Nat × List Nat × decoder_state W F) :
    Option (Nat × List Nat × decoder_state W F) :=
  match decode_symbol choose junk upd qlist cluster_id s v.1 v.2.2 with
  | none => none
  | some (b, st1) => some ((b + 256 - 33) % 256, v.2.1.set s b, st1)

/-- Lines 166-190: one pass of the loop over the lines but the last, on `(line, state)`.  The
assertion on the cluster id is a failure when it does not hold. -/
def decode_line {QL W F : Type} [DecidableEq F]
    (choose : QL → W → Nat → Nat → quantizer_t × Nat × W)
    (junk : F → List (F × Nat) → Nat) (upd : F → Nat → F) (clusters : Nat → QL)
    (columns cluster_count : Nat) (v : List Nat × decoder_state W F) :
    Option (List Nat × decoder_state W F) :=
  let c := qv_read_cluster junk upd v.2.as
  if c.1 < cluster_count then
    match decode_symbol choose junk upd (clusters c.1) c.1 0 0 { v.2 with as := c.2 } with
    | none => none
    | some (b, st1) =>
      match for_from (decode_column choose junk upd (clusters c.1) c.1) columns
          columns 1 ((b + 256 - 33) % 256, v.1.set 0 b, st1) with
      | none => none
      | some (_, _, line, st2) =>
        some (line, { st2 with fout := st2.fout ++ [line.take (columns + 1)] })
  else none

/-- Lines 162-191: the loop `while (lineCtr < lines - 1)`, with `n` passes to run. -/
def decode_lines {QL W F : Type} [DecidableEq F]
    (choose : QL → W → Nat → Nat → quantizer_t × Nat × W)
    (junk : F → List (F × Nat) → Nat) (upd : F → Nat → F) (clusters : Nat → QL)
    (columns cluster_count : Nat) :
    Nat → List Nat × decoder_state W F → Option (List Nat × decoder_state W F)
  | 0, v => some v
  | n + 1, v =>
    match decode_line choose junk upd clusters columns cluster_count v with
    | none => none
    | some v1 => decode_lines choose junk upd clusters columns cluster_count n v1

/-- Lines 193-226: the last line. -/
def decode_last_line {QL W F : Type} [DecidableEq F]
    (choose : QL → W → Nat → Nat → quantizer_t × Nat × W)
    (junk : F → List (F × Nat) → Nat) (upd : F → Nat → F) (clusters : Nat → QL)
    (columns cluster_count : Nat) (v : List Nat × decoder_state W F) :
    Option (List Nat × decoder_state W F) :=
  let c := qv_read_cluster junk upd v.2.as
  if c.1 < cluster_count then
    match decode_symbol choose junk upd (clusters c.1) c.1 0 0 { v.2 with as := c.2 } with
    | none => none
    | some (b, st1) =>
      match for_from (decode_column choose junk upd (clusters c.1) c.1)
          (columns - 1) (columns - 1) 1 ((b + 256 - 33) % 256, v.1.set 0 b, st1) with
      | none => none
      | some (s, prev_qv, line, st2) =>
        let r := choose (clusters c.1) st2.well s prev_qv
        let q_state := decoder_last_step junk (st2.as.stats c.1 s r.2.1) st2.as.os
        match r.1.output_alphabet with
        | none => none
        | some a =>
          let line1 := line.set s ((a.symbols.getD q_state 0 + 33) % 256)
          some (line1, { st2 with
            well := r.2.2
            calls := st2.calls ++ [(s, prev_qv)]
            steps := st2.steps ++ [(true, c.1, s, r.2.1)]
            fout := st2.fout ++ [line1.take (columns + 1)] })
  else none

/-- Function `start_qv_decompression` for `lines ≥ 1` and `columns ≥ 1` (the differences
`lines - 1` and `columns - 1` do not wrap): the final state of the decoder; its field `fout` is
the sequence of the lines written.  `initialize_qv_compressor` provides the frequency models
`stats` and `cluster_stats`; `os` is the coded stream. -/
def start_qv_decompression {QL W F : Type} [DecidableEq F]
    (choose : QL → W → Nat → Nat → quantizer_t × Nat × W)
    (junk : F → List (F × Nat) → Nat) (upd : F → Nat → F) (clusters : Nat → QL)
    (lines columns cluster_count : Nat) (well : W)
    (stats : Nat → Nat → Nat → F) (cluster_stats : F) (os : List (F × Nat)) :
    Option (decoder_state W F) :=
  let line := ((List.replicate (columns + 2) 0).set columns 10).set (columns + 1) 0
  match decode_lines choose junk upd clusters columns cluster_count (lines - 1)
      (line, ⟨well, ⟨stats, cluster_stats, os⟩, [], [], []⟩) with
  | none => none
  | some v =>
    match decode_last_line choose junk upd clusters columns cluster_count v with
    | none => none
    | some v1 => some v1.2

/-- The reconstructions of the symbols `data` of a line from column `s` on, with left context
`prev` and generator state `w`: for each symbol `x` the value `q[x]` of the quantizer chosen for
its column; the second component is the generator state after the line. -/
def reconstruct_symbols {QL W : Type} (choose : QL → W → Nat → Nat → quantizer_t × Nat × W)
    (qlist : QL) : List Nat → Nat → Nat → W → List Nat × W
  | [], _, _, w => ([], w)
  | x :: xs, s, prev, w =>
    let r := choose qlist w s prev
    let v := r.1.q.getD x 0
    let rest := reconstruct_symbols choose qlist xs (s + 1) v r.2.2
    (v :: rest.1, rest.2)

/-- The text of the reconstructed file: for each line the bytes `q[x] + 33` of its
reconstructions, followed by the newline. -/
def reconstructed_text {QL W : Type} (choose : QL → W → Nat → Nat → quantizer_t × Nat × W)
    (clusters : Nat → QL) : List line_t → W → List (List Nat)
  | [], _ => []
  | line :: rest, w =>
    let r := reconstruct_symbols choose (clusters (line.cluster % 256)) line.data 0 0 w
    (r.1.map (fun v => v + 33) ++ [10]) :: reconstructed_text choose clusters rest r.2

/-- The output alphabet of `q` is the duplicate-free list of the values that the map takes on
the symbols below `size`. -/
def output_alphabet_consistent (size : Nat) (q : quantizer_t) : Prop :=
  ∃ a, q.output_alphabet = some a ∧ a.symbols.Nodup ∧
    ∀ v, v ∈ a.symbols ↔ ∃ x, x < size ∧ q.q.getD x 0 = v

/-! ## Definitions: codebook.h -/

/-- Macro `COPY_Q_TO_LINE(line, q, i, size)`: `line` is an array of `char`, so the byte stored
in `line[i]` is `q[i] + 33` modulo 256. -/
def COPY_Q_TO_LINE (line q : List Nat) (size : Nat) : List Nat :=
  for_range 0 size (fun i line => line.set i ((q.getD i 0 + 33) % 256)) line

/-- Macro `COPY_Q_FROM_LINE(line, q, i, size)`: `q` is an array of `symbol_t`, so the value
stored in `q[i]` is the difference `line[i] - 33`, computed in `int`, modulo `M` (written with
the multiple `33 * M` of `M` added, which keeps the difference in the naturals). -/
def COPY_Q_FROM_LINE (M : Nat) (line q : List Nat) (size : Nat) : List Nat :=
  for_range 0 size (fun i q => q.set i ((line.getD i 0 + 33 * M - 33) % M)) q

/-- Modelled from the spec: the function `find_state_encoding` (declared in `codebook.h`, its
file is not part of the sources at hand) returns the position of `value` in the output alphabet
of the quantizer and fails with `NotInOutputAlphabet` (here `none`) if it is absent. -/
def find_state_encoding (codebook : quantizer_t) (value : Nat) : Option Nat :=
  match codebook.output_alphabet with
  | none => none
  | some a => if value ∈ a.symbols then some (get_symbol_index a value) else none

/-! ## Predicates used in the statements -/

/-- Symbol `i` lies in region `j`: `bounds[j] ≤ i < bounds[j+1]`. -/
def in_region (bounds : List Nat) (j i : Nat) : Prop :=
  bounds.getD j 0 ≤ i ∧ i < bounds.getD (j + 1) 0

/-- The ranges that keep every array access of the designer inside its array. -/
def range_ok (size states : Nat) (st : design_state) : Prop :=
  st.bounds.length = states + 1 ∧ st.reconstruction.length = states ∧
  st.bounds.getD 0 0 = 0 ∧ st.bounds.getD states 0 = size ∧
  (∀ j, j < states → st.bounds.getD j 0 < size) ∧
  (∀ j, j < states → st.reconstruction.getD j 0 < size)

/-- Every array index that the designer forms in state `st` is inside its array. -/
def access_ok (size states : Nat) (st : design_state) : Prop :=
  st.bounds.getD 0 0 = 0 ∧ st.bounds.getD states 0 = size ∧
  (∀ j, j ≤ states → st.bounds.getD j 0 ≤ size) ∧
  (∀ j, j < states → st.reconstruction.getD j 0 < size) ∧
  (∀ j i, j < states → in_region st.bounds j i → i < size)

/-- The state in which region `j` is the single symbol `j` and is reproduced as `j`. -/
def identity_state (size : Nat) (st : design_state) : Prop :=
  st.bounds.length = size + 1 ∧ st.reconstruction.length = size ∧
  (∀ j, j ≤ size → st.bounds.getD j 0 = j) ∧
  (∀ j, j < size → st.reconstruction.getD j 0 = j)

/-- Expected distortion of the symbols `lo ≤ i < hi` when each is reproduced as `r`. -/
def region_cost (p : Nat → ℚ) (d : Nat → Nat → ℚ) (lo hi r : Nat) : ℚ :=
  ∑ i in Finset.Ico lo hi, p i * d i r

/-- The encoder state and the decoder state agree on the generator, on every frequency model
and on the log of the calls of `choose_quantizer`. -/
def in_step {W F : Type} (e : encoder_state W F) (d : decoder_state W F) : Prop :=
  d.well = e.well ∧ d.as.stats = e.as.stats ∧ d.as.cluster_stats = e.as.cluster_stats ∧
  d.calls = e.calls

/-- Every region of `st` is non-empty and holds its own reconstruction point:
`bounds[j] ≤ reconstruction[j] < bounds[j+1]`. -/
def cells_ok (size states : Nat) (st : design_state) : Prop :=
  st.bounds.length = states + 1 ∧ st.reconstruction.length = states ∧
  st.bounds.getD 0 0 = 0 ∧ st.bounds.getD states 0 = size ∧
  ∀ j, j < states →
    st.bounds.getD j 0 ≤ st.reconstruction.getD j 0 ∧
    st.reconstruction.getD j 0 < st.bounds.getD (j + 1) 0

/-- The table `d` sends every symbol to the nearer of two reconstruction values: for `a < b`,
symbol `j` is strictly closer to `b` exactly when it lies beyond the midpoint of `a` and `b`. -/
def nearest_neighbour (size : Nat) (d : Nat → Nat → ℚ) : Prop :=
  ∀ j a b, j < size → a < b → b < size → (d j b < d j a ↔ a + b < 2 * j)

/-- The sum over the columns of `(x_s - v_s)^2`, for the symbols `x` of a line and their
reconstructions `v`. -/
def squared_error_sum : List Nat → List Nat → ℚ
  | x :: xs, v :: vs => ((x : ℚ) - (v : ℚ)) ^ 2 + squared_error_sum xs vs
  | _, _ => 0

/-- The sum over the lines of `(1/C)` times the sum over the columns of `(x_s - v_s)^2`, where
`v_s` is the reconstruction of `x_s` under the quantizer chosen for its column. -/
def line_distortion_sum {QL W : Type} (choose : QL → W → Nat → Nat → quantizer_t × Nat × W)
    (clusters : Nat → QL) (columns : Nat) : List line_t → W → ℚ
  | [], _ => 0
  | line :: rest, w =>
    let r := reconstruct_symbols choose (clusters (line.cluster % 256)) line.data 0 0 w
    1 / (columns : ℚ) * squared_error_sum line.data r.1 +
      line_distortion_sum choose clusters columns rest r.2

/-- The mean over the `L` lines, `(1/L)` times the sum over the lines of `(1/C)` times the sum
over the columns of `(x_s - v_s)^2`. -/
def mean_squared_error {QL W : Type} (choose : QL → W → Nat → Nat → quantizer_t × Nat × W)
    (clusters : Nat → QL) (columns : Nat) (lines : List line_t) (w : W) : ℚ :=
  1 / (lines.length : ℚ) * line_distortion_sum choose clusters columns lines w

/-- The comparison `<` of the carrier is a strict weak order, as `<` is on the values of
`double` that are not NaN. -/
def strict_weak_order {V : Type} (A : double_ops V) : Prop :=
  (∀ a, A.lt a a = false) ∧
  (∀ a b c, A.lt a b = true → A.lt b c = true → A.lt a c = true) ∧
  (∀ a b c, A.lt a b = true → A.lt a c = true ∨ A.lt c b = true)

/-- The value of the `double` variable `distortion` after the lines, started at `acc`: for
each line the sum over the columns of `(x_s - v_s)^2` divided by the number of columns is added,
the quotient and the sum each rounded to binary64. -/
def line_distortion_binary64 {QL W : Type}
    (choose : QL → W → Nat → Nat → quantizer_t × Nat × W)
    (clusters : Nat → QL) (columns : Nat) : List line_t → W → ℚ → ℚ
  | [], _, acc => acc
  | line :: rest, w, acc =>
    let r := reconstruct_symbols choose (clusters (line.cluster % 256)) line.data 0 0 w
    line_distortion_binary64 choose clusters columns rest r.2
      (round_binary64 (acc + round_binary64 (squared_error_sum line.data r.1 / (columns : ℚ))))

/-- The mean over the `L` lines as binary64 computes it: the sum of `line_distortion_binary64`
divided by `L`, the conversion of `L` and the quotient rounded to binary64. -/
def mean_squared_error_binary64 {QL W : Type}
    (choose : QL → W → Nat → Nat → quantizer_t × Nat × W)
    (clusters : Nat → QL) (columns : Nat) (lines : List line_t) (w : W) : ℚ :=
  round_binary64 (line_distortion_binary64 choose clusters columns lines w 0 /
    round_binary64 (lines.length : ℚ))

/-! ## Concrete inputs -/

/-- Squared-error distortion `d(i,j) = (i - j)^2`. -/
def squared_error (i j : Nat) : ℚ := ((i : ℚ) - (j : ℚ)) ^ 2

/-- A PMF over five symbols with the whole mass on symbols 1 and 2. -/
def pmf_two_symbols (i : Nat) : ℚ := [0, 1 / 2, 1 / 2, 0, 0].getD i 0

/-- The alphabet `0..4`. -/
def alphabet_five : alphabet_t := ⟨5, [0, 1, 2, 3, 4]⟩

/-- A symmetric distortion table with zero diagonal over five symbols, in which symbols 0 and 1
are at distance 0. -/
def table_with_tie (i j : Nat) : ℚ :=
  ([[0, 0, 1, 2, 4], [0, 0, 1, 1, 3], [1, 1, 0, 1, 2], [2, 1, 1, 0, 1], [4, 3, 2, 1, 0]].getD i
    []).getD j 0

/-- A normalized PMF over five symbols. -/
def pmf_five (i : Nat) : ℚ := [1 / 4, 1 / 4, 1 / 4, 1 / 8, 1 / 8].getD i 0

/-- The alphabet `0, 1`. -/
def alphabet_two : alphabet_t := ⟨2, [0, 1]⟩

/-- The identity quantizer on two symbols. -/
def identity_two : quantizer_t := ⟨alphabet_two, [0, 1], some alphabet_two⟩

/-- A codebook with a single list of quantizers that always yields `identity_two`, with the
left context as index; the generator state is a counter. -/
def choose_identity (_ql : Unit) (w s prev : Nat) : quantizer_t × Nat × Nat :=
  (identity_two, if s = 0 then 0 else prev, w + 1)

/-- A frequency model that counts the coded symbols. -/
def count_stats (m : Nat) (_x : Nat) : Nat := m + 1

/-- The alphabet `0..3`. -/
def alphabet_four : alphabet_t := ⟨4, [0, 1, 2, 3]⟩

/-- A distortion table with zero diagonal and positive off-diagonal entries over four symbols. -/
def table_four (i j : Nat) : ℚ :=
  ([[0, 2, 1, 2], [2, 0, 1, 1], [1, 1, 0, 3], [2, 1, 3, 0]].getD i []).getD j 0

/-- A normalized PMF over four symbols with the whole mass on symbols 2 and 3. -/
def pmf_upper_half (i : Nat) : ℚ := [0, 0, 1 / 2, 1 / 2].getD i 0

/-- The alphabet `0..9`. -/
def alphabet_ten : alphabet_t := ⟨10, [0, 1, 2, 3, 4, 5, 6, 7, 8, 9]⟩

/-- A symmetric distortion table with zero diagonal: symbols 1 and 7 are at distance 1, every
other pair of distinct symbols at distance 2. -/
def table_near_pair (i j : Nat) : ℚ :=
  if i = j then 0 else if (i = 1 ∧ j = 7) ∨ (i = 7 ∧ j = 1) then 1 else 2

/-- A normalized PMF over ten symbols with the whole mass on symbols 2 and 7. -/
def pmf_two_peaks (i : Nat) : ℚ := [0, 0, 1 / 2, 0, 0, 0, 0, 1 / 2, 0, 0].getD i 0

/-- A codebook with a single list that always yields the quantizer that maps both symbols of
`alphabet_two` to 1; the generator state is a counter. -/
def choose_merge (_ql : Unit) (w _s _prev : Nat) : quantizer_t × Nat × Nat :=
  (⟨alphabet_two, [1, 1], some ⟨1, [1]⟩⟩, 0, w + 1)

/-- The weights `1/6, 3/6, 0, 2/6` as they are stored in an array of `double`. -/
def pmf_sixths (i : Nat) : ℚ :=
  [round_binary64 (1 / 6), round_binary64 (3 / 6), 0, round_binary64 (2 / 6)].getD i 0

theorem t1 : round_binary64 (1 / 3) = 6004799503160661 / 18014398509481984 := by decide!

/-! ## Loops and arrays -/

theorem foldl_range_induct {σ : Type} (P : Nat → σ → Prop) (body : Nat → σ → σ) :
    ∀ (n lo : Nat) (init : σ), P lo init →
      (∀ i st, lo ≤ i → i < lo + n → P i st → P (i + 1) (body i st)) →
      P (lo + n) ((List.range' lo n).foldl (fun st i => body i st) init) := by
  intro n
  induction n with
  | zero => intro lo init h0 _; simpa using h0
  | succ n ih =>
    intro lo init h0 hstep
    rw [List.range'_succ, List.foldl_cons]
    have h1 : P (lo + 1) (body lo init) := hstep lo init (le_refl _) (by omega) h0
    have := ih (lo + 1) (body lo init) h1
      (fun i st hi1 hi2 hp => hstep i st (by omega) (by omega) hp)
    have e : lo + (n + 1) = lo + 1 + n := by omega
    rw [e]; exact this

theorem for_range_induct {σ : Type} (P : Nat → σ → Prop) (lo hi : Nat) (body : Nat → σ → σ)
    (init : σ) (hle : lo ≤ hi) (h0 : P lo init)
    (hstep : ∀ i st, lo ≤ i → i < hi → P i st → P (i + 1) (body i st)) :
    P hi (for_range lo hi body init) := by
  have := foldl_range_induct P body (hi - lo) lo init h0
    (fun i st h1 h2 hp => hstep i st h1 (by omega) hp)
  have e : lo + (hi - lo) = hi := by omega
  rw [e] at this
  exact this

theorem for_range_empty {σ : Type} (lo hi : Nat) (body : Nat → σ → σ) (init : σ)
    (h : hi ≤ lo) : for_range lo hi body init = init := by
  unfold for_range
  have : hi - lo = 0 := by omega
  rw [this]; rfl

theorem for_range_invariant {σ : Type} (P : σ → Prop) (lo hi : Nat) (body : Nat → σ → σ)
    (init : σ) (h0 : P init)
    (hstep : ∀ i st, lo ≤ i → i < hi → P st → P (body i st)) :
    P (for_range lo hi body init) := by
  rcases Nat.lt_or_ge lo hi with h | h
  · exact for_range_induct (fun _ s => P s) lo hi body init (le_of_lt h) h0 hstep
  · rw [for_range_empty lo hi body init h]; exact h0

theorem getD_set (l : List Nat) (i j v : Nat) :
    (l.set i v).getD j 0 = if i = j ∧ i < l.length then v else l.getD j 0 := by
  simp only [List.getD_eq_getElem?_getD, List.getElem?_set]
  by_cases h : i = j
  · subst h
    by_cases h2 : i < l.length
    · simp [h2]
    · simp [h2]
      have : l[i]? = none := by simp; omega
      simp [this]
  · simp [h]

theorem getD_replicate_zero (n j : Nat) : (List.replicate n 0).getD j 0 = 0 := by
  rw [List.getD_eq_getElem?_getD]
  rcases Nat.lt_or_ge j n with h | h
  · simp [h]
  · rw [List.getElem?_eq_none (by simpa using h)]; rfl

theorem getD_set_ne (l : List Nat) (i j v : Nat) (h : i ≠ j) :
    (l.set i v).getD j 0 = l.getD j 0 := by
  rw [getD_set, if_neg (fun hh => h hh.1)]

theorem getD_set_eq (l : List Nat) (i v : Nat) (h : i < l.length) :
    (l.set i v).getD i 0 = v := by
  rw [getD_set, if_pos ⟨rfl, h⟩]

/-! ## Range safety of the designer -/

theorem initial_bounds_ok (M size states : Nat) (hM : size < M) (hS : 1 ≤ states)
    (hN : 1 ≤ size) :
    (initial_bounds M size states).length = states + 1 ∧
    (initial_bounds M size states).getD 0 0 = 0 ∧
    (initial_bounds M size states).getD states 0 = size ∧
    (∀ j, j < states → (initial_bounds M size states).getD j 0 < size) := by
  unfold initial_bounds
  refine for_range_invariant
    (fun (b : List Nat) => b.length = states + 1 ∧ b.getD 0 0 = 0 ∧ b.getD states 0 = size ∧
      (∀ j, j < states → b.getD j 0 < size)) _ _ _ _ ?_ ?_
  · refine ⟨by simp, ?_, ?_, ?_⟩
    · rw [getD_set_ne _ _ _ _ (by omega), getD_set_eq _ _ _ (by simp)]
    · rw [getD_set_eq _ _ _ (by simp), Nat.mod_eq_of_lt hM]
    · intro j hj
      rw [getD_set_ne _ _ _ _ (by omega), getD_set, getD_replicate_zero]
      split <;> omega
  · rintro i b h1 h2 ⟨hl, hb0, hbS, hlt⟩
    refine ⟨by simpa using hl, ?_, ?_, ?_⟩
    · rw [getD_set_ne _ _ _ _ (by omega), hb0]
    · rw [getD_set_ne _ _ _ _ (by omega), hbS]
    · intro j hj
      rw [getD_set]
      split
      · have h3 : (i * size) % 4294967296 / states ≤ i * size / states :=
          Nat.div_le_div_right (Nat.mod_le _ _)
        have h4 : i * size / states < size := by
          rw [Nat.div_lt_iff_lt_mul (by omega)]
          rw [Nat.mul_comm size states]
          exact Nat.mul_lt_mul_of_lt_of_le h2 (le_refl _) (by omega)
        exact lt_of_le_of_lt (Nat.mod_le _ _) (lt_of_le_of_lt h3 h4)
      · exact hlt j hj

theorem initial_reconstruction_ok (M size states : Nat) (b : List Nat) (hN : 1 ≤ size)
    (hb : ∀ j, j < states → b.getD j 0 < size) (hbS : b.getD states 0 = size) :
    (initial_reconstruction M states b).length = states ∧
    (∀ j, j < states → (initial_reconstruction M states b).getD j 0 < size) := by
  unfold initial_reconstruction
  refine for_range_invariant
    (fun (rc : List Nat) => rc.length = states ∧ (∀ j, j < states → rc.getD j 0 < size))
    _ _ _ _ ?_ ?_
  · refine ⟨by simp, ?_⟩
    intro j _
    rw [getD_replicate_zero]; omega
  · rintro i rc _ h2 ⟨hl, hlt⟩
    refine ⟨by simpa using hl, ?_⟩
    intro j hj
    rw [getD_set]
    split
    · have h3 := hb i h2
      have h4 : b.getD (i + 1) 0 ≤ size := by
        rcases Nat.lt_or_ge (i + 1) states with h | h
        · exact le_of_lt (hb _ h)
        · have : i + 1 = states := by omega
          rw [this, hbS]
      exact lt_of_le_of_lt (Nat.mod_le _ _) (by omega)
    · exact hlt j hj

theorem initial_state_ok (M size states : Nat) (hM : size < M) (hS : 1 ≤ states)
    (hN : 1 ≤ size) : range_ok size states (initial_state M size states) := by
  obtain ⟨h1, h2, h3, h4⟩ := initial_bounds_ok M size states hM hS hN
  obtain ⟨h5, h6⟩ := initial_reconstruction_ok M size states _ hN h4 h3
  exact ⟨h1, h5, h2, h3, h4, h6⟩

theorem min_search_range {V : Type} (A : double_ops V) (p : Nat → V) (d : Nat → Nat → V)
    (lo hi : Nat) :
    (min_search A p d lo hi).1 = lo ∨
      (lo ≤ (min_search A p d lo hi).1 ∧ (min_search A p d lo hi).1 < hi) := by
  unfold min_search
  refine for_range_invariant (fun (m : Nat × V) => m.1 = lo ∨ (lo ≤ m.1 ∧ m.1 < hi))
    _ _ _ _ (Or.inl rfl) ?_
  intro r m h1 h2 hm
  dsimp only
  split
  · exact Or.inr ⟨h1, h2⟩
  · exact hm

theorem reconstruction_body_ok {V : Type} (A : double_ops V) (p : Nat → V)
    (d : Nat → Nat → V) (M size states j : Nat) (st : design_state) (hj : j < states)
    (h : range_ok size states st) :
    range_ok size states (reconstruction_body A p d M j st) := by
  obtain ⟨h1, h2, h3, h4, h5, h6⟩ := h
  unfold reconstruction_body
  dsimp only
  split
  · refine ⟨h1, by simpa using h2, h3, h4, h5, ?_⟩
    intro k hk
    dsimp only
    rw [getD_set]
    split
    · have hlo := h5 j hj
      have hhi : st.bounds.getD (j + 1) 0 ≤ size := by
        rcases Nat.lt_or_ge (j + 1) states with hh | hh
        · exact le_of_lt (h5 _ hh)
        · have : j + 1 = states := by omega
          rw [this, h4]
      have := min_search_range A p d (st.bounds.getD j 0) (st.bounds.getD (j + 1) 0)
      exact lt_of_le_of_lt (Nat.mod_le _ _) (by omega)
    · exact h6 k hk
  · exact ⟨h1, h2, h3, h4, h5, h6⟩

theorem reconstruction_prefix_ok {V : Type} (A : double_ops V) (p : Nat → V)
    (d : Nat → Nat → V) (M size states n : Nat) (st : design_state) (hn : n ≤ states)
    (h : range_ok size states st) :
    range_ok size states (for_range 0 n (reconstruction_body A p d M) st) :=
  for_range_invariant (range_ok size states) 0 n _ st h
    (fun j s _ hj hs => reconstruction_body_ok A p d M size states j s (by omega) hs)

theorem adjust_reconstruction_ok {V : Type} (A : double_ops V) (p : Nat → V)
    (d : Nat → Nat → V) (M size states : Nat) (st : design_state)
    (h : range_ok size states st) :
    range_ok size states (adjust_reconstruction A p d M states st) :=
  reconstruction_prefix_ok A p d M size states states st (le_refl _) h

theorem adjust_bounds_loop_ok {V : Type} (A : double_ops V) (d : Nat → Nat → V)
    (M size states : Nat) (rc : List Nat) :
    ∀ (n j r : Nat) (b : List Nat), 1 ≤ j →
      (b.length = states + 1 ∧ b.getD 0 0 = 0 ∧ b.getD states 0 = size ∧
        (∀ k, k < states → b.getD k 0 < size)) →
      ((adjust_bounds_loop A d M size states rc n j r b).length = states + 1 ∧
        (adjust_bounds_loop A d M size states rc n j r b).getD 0 0 = 0 ∧
        (adjust_bounds_loop A d M size states rc n j r b).getD states 0 = size ∧
        (∀ k, k < states → (adjust_bounds_loop A d M size states rc n j r b).getD k 0 < size)) := by
  intro n
  induction n with
  | zero => intro j r b _ h; exact h
  | succ n ih =>
    intro j r b hj h
    obtain ⟨h1, h2, h3, h4⟩ := h
    unfold adjust_bounds_loop
    split
    · rename_i hg
      dsimp only
      split
      · apply ih (j + 1) (r + 1) _ (by omega)
        refine ⟨by simpa using h1, ?_, ?_, ?_⟩
        · rw [getD_set_ne _ _ _ _ (by omega), h2]
        · rw [getD_set_ne _ _ _ _ (by omega), h3]
        · intro k hk
          rw [getD_set]
          split
          · exact lt_of_le_of_lt (Nat.mod_le _ _) (by omega)
          · exact h4 k hk
      · exact ih (j + 1) r b (by omega) ⟨h1, h2, h3, h4⟩
    · exact ⟨h1, h2, h3, h4⟩

/-- The bound `size` on the number of passes of the bound-adjustment loop is never reached:
any larger bound gives the same bounds. -/
theorem adjust_bounds_loop_fuel {V : Type} (A : double_ops V) (d : Nat → Nat → V)
    (M size states : Nat) (rc : List Nat) :
    ∀ (n k j r : Nat) (b : List Nat), size - 1 ≤ j + n →
      adjust_bounds_loop A d M size states rc (n + k) j r b =
        adjust_bounds_loop A d M size states rc n j r b := by
  intro n
  induction n with
  | zero =>
    intro k j r b h
    cases k with
    | zero => rfl
    | succ k =>
      rw [Nat.zero_add]
      simp only [adjust_bounds_loop]
      rw [if_neg (by omega)]
  | succ n ih =>
    intro k j r b h
    have e : n + 1 + k = (n + k) + 1 := by omega
    rw [e]
    simp only [adjust_bounds_loop]
    split
    · split
      · exact ih k (j + 1) (r + 1) _ (by omega)
      · exact ih k (j + 1) r b (by omega)
    · rfl

theorem adjust_bounds_prefix_ok {V : Type} (A : double_ops V) (d : Nat → Nat → V)
    (M size states n : Nat) (st : design_state) (h : range_ok size states st) :
    range_ok size states
      { st with bounds := adjust_bounds_loop A d M size states st.reconstruction n 1 0 st.bounds } := by
  obtain ⟨h1, h2, h3, h4, h5, h6⟩ := h
  obtain ⟨g1, g2, g3, g4⟩ :=
    adjust_bounds_loop_ok A d M size states st.reconstruction n 1 0 st.bounds (le_refl _)
      ⟨h1, h3, h4, h5⟩
  exact ⟨g1, h2, g2, g3, g4, h6⟩

theorem design_iteration_ok {V : Type} (A : double_ops V) (p : Nat → V) (d : Nat → Nat → V)
    (M size states : Nat) (st : design_state) (h : range_ok size states st) :
    range_ok size states (design_iteration A p d M size states st) := by
  unfold design_iteration adjust_bounds
  apply adjust_bounds_prefix_ok
  apply adjust_reconstruction_ok
  exact h

theorem design_loop_ok {V : Type} (A : double_ops V) (p : Nat → V) (d : Nat → Nat → V)
    (M size states : Nat) :
    ∀ (k : Nat) (st : design_state), range_ok size states st →
      range_ok size states (design_loop A p d M size states k st) := by
  intro k
  induction k with
  | zero => intro st h; exact h
  | succ k ih =>
    intro st h
    unfold design_loop
    split
    · exact ih _ (design_iteration_ok A p d M size states st h)
    · exact h

/-! ## The mapping loop -/

theorem fill_spec (q : List Nat) (lo hi v : Nat) :
    (for_range lo hi (fun i q => q.set i v) q).length = q.length ∧
    ∀ i, (for_range lo hi (fun i q => q.set i v) q).getD i 0 =
      if lo ≤ i ∧ i < hi ∧ i < q.length then v else q.getD i 0 := by
  rcases Nat.lt_or_ge lo hi with h | h
  · have := for_range_induct
      (fun k (q1 : List Nat) => q1.length = q.length ∧
        ∀ i, q1.getD i 0 = if lo ≤ i ∧ i < k ∧ i < q.length then v else q.getD i 0)
      lo hi (fun i q => q.set i v) q (le_of_lt h)
      ⟨rfl, fun i => by rw [if_neg]; omega⟩
      (by
        rintro k q1 hk1 hk2 ⟨hl, hq⟩
        refine ⟨by simpa using hl, ?_⟩
        intro i
        rw [getD_set, hq i, hl]
        by_cases e : k = i
        · subst e
          by_cases hlen : k < q.length
          · rw [if_pos ⟨rfl, hlen⟩, if_pos ⟨hk1, by omega, hlen⟩]
          · rw [if_neg (fun hh => hlen hh.2), if_neg (fun hh => hlen hh.2.2),
              if_neg (fun hh => hlen hh.2.2)]
        · rw [if_neg (fun hh => e hh.1)]
          by_cases c : lo ≤ i ∧ i < k ∧ i < q.length
          · rw [if_pos c, if_pos ⟨c.1, by omega, c.2.2⟩]
          · rw [if_neg c, if_neg]
            intro hh; apply c; exact ⟨hh.1, by omega, hh.2.2⟩)
    exact this
  · rw [for_range_empty _ _ _ _ h]
    refine ⟨rfl, fun i => ?_⟩
    rw [if_neg]; omega

theorem quantizer_mapping_spec (states : Nat) (b rc q : List Nat) :
    (quantizer_mapping states b rc q).length = q.length ∧
    ∀ i, i < q.length →
      ((∃ j, j < states ∧ in_region b j i ∧
          (∀ k, j < k → k < states → ¬ in_region b k i) ∧
          (quantizer_mapping states b rc q).getD i 0 = rc.getD j 0) ∨
        ((∀ j, j < states → ¬ in_region b j i) ∧
          (quantizer_mapping states b rc q).getD i 0 = q.getD i 0)) := by
  unfold quantizer_mapping
  refine for_range_induct
    (fun n (q1 : List Nat) => q1.length = q.length ∧
      ∀ i, i < q.length →
        ((∃ j, j < n ∧ in_region b j i ∧ (∀ k, j < k → k < n → ¬ in_region b k i) ∧
            q1.getD i 0 = rc.getD j 0) ∨
          ((∀ j, j < n → ¬ in_region b j i) ∧ q1.getD i 0 = q.getD i 0)))
    0 states _ q (Nat.zero_le _) ?_ ?_
  · exact ⟨rfl, fun i _ => Or.inr ⟨fun j hj => absurd hj (Nat.not_lt_zero _), rfl⟩⟩
  · rintro n q1 _ hn ⟨hl, hq⟩
    obtain ⟨fl, fq⟩ := fill_spec q1 (b.getD n 0) (b.getD (n + 1) 0) (rc.getD n 0)
    refine ⟨by rw [fl, hl], ?_⟩
    intro i hi
    rw [fq i]
    by_cases c : in_region b n i
    · left
      refine ⟨n, by omega, c, fun k h1 h2 => by omega, ?_⟩
      rw [if_pos ⟨c.1, c.2, by omega⟩]
    · have c2 : ¬ (b.getD n 0 ≤ i ∧ i < b.getD (n + 1) 0 ∧ i < q1.length) :=
        fun hh => c ⟨hh.1, hh.2.1⟩
      rw [if_neg c2]
      rcases hq i hi with ⟨j, hj, hr, hlast, hv⟩ | ⟨hno, hv⟩
      · left
        refine ⟨j, by omega, hr, ?_, hv⟩
        intro k h1 h2
        rcases Nat.lt_or_ge k n with h3 | h3
        · exact hlast k h1 h3
        · have : k = n := by omega
          rw [this]; exact c
      · right
        refine ⟨?_, hv⟩
        intro j hj
        rcases Nat.lt_or_ge j n with h3 | h3
        · exact hno j h3
        · have : j = n := by omega
          rw [this]; exact c

theorem region_cover (b : List Nat) (size states i : Nat) (h0 : b.getD 0 0 = 0)
    (hS : b.getD states 0 = size) (hi : i < size) :
    ∃ j, j < states ∧ in_region b j i := by
  have key : ∀ n k, n + k = states → b.getD k 0 ≤ i → ∃ j, j < states ∧ in_region b j i := by
    intro n
    induction n with
    | zero =>
      intro k hk hle
      have : k = states := by omega
      rw [this, hS] at hle
      omega
    | succ n ih =>
      intro k hk hle
      rcases Nat.lt_or_ge i (b.getD (k + 1) 0) with h | h
      · exact ⟨k, by omega, hle, h⟩
      · exact ih (k + 1) (by omega) h
  exact key states 0 (by omega) (by rw [h0]; exact Nat.zero_le _)

theorem access_of_range (size states : Nat) (st : design_state)
    (h : range_ok size states st) : access_ok size states st := by
  obtain ⟨_, _, h3, h4, h5, h6⟩ := h
  have hle : ∀ j, j ≤ states → st.bounds.getD j 0 ≤ size := by
    intro j hj
    rcases Nat.lt_or_ge j states with hh | hh
    · exact le_of_lt (h5 _ hh)
    · have : j = states := by omega
      rw [this, h4]
  refine ⟨h3, h4, hle, h6, ?_⟩
  intro j i hj hr
  have := hle (j + 1) (by omega)
  exact lt_of_lt_of_le hr.2 this

theorem designed_state_ok {V : Type} (A : double_ops V) (p : Nat → V) (d : Nat → Nat → V)
    (M max_iter : Nat) (alphabet : alphabet_t) (states : Nat)
    (hN : 1 ≤ alphabet.size) (hM : alphabet.size < M) (hS : 1 ≤ states) :
    range_ok alphabet.size states (designed_state A p d M max_iter alphabet states) :=
  design_loop_ok A p d M alphabet.size states max_iter _
    (initial_state_ok M alphabet.size states hM hS hN)

theorem generated_map_spec {V : Type} (A : double_ops V) (p : Nat → V) (d : Nat → Nat → V)
    (M max_iter : Nat) (alphabet : alphabet_t) (states : Nat)
    (hN : 1 ≤ alphabet.size) (hM : alphabet.size < M) (hS : 1 ≤ states)
    (i : Nat) (hi : i < alphabet.size) :
    ∃ j, j < states ∧
      in_region (designed_state A p d M max_iter alphabet states).bounds j i ∧
      (∀ k, j < k → k < states →
        ¬ in_region (designed_state A p d M max_iter alphabet states).bounds k i) ∧
      (generate_quantizer A p d M max_iter alphabet states).1.q.getD i 0 =
        (designed_state A p d M max_iter alphabet states).reconstruction.getD j 0 := by
  have hok := designed_state_ok A p d M max_iter alphabet states hN hM hS
  obtain ⟨_, _, h3, h4, _, _⟩ := hok
  have hq := (quantizer_mapping_spec states
    (designed_state A p d M max_iter alphabet states).bounds
    (designed_state A p d M max_iter alphabet states).reconstruction
    (alloc_quantizer alphabet).q).2 i (by simpa [alloc_quantizer] using hi)
  rcases hq with ⟨j, hj, hr, hlast, hv⟩ | ⟨hno, _⟩
  · exact ⟨j, hj, hr, hlast, hv⟩
  · obtain ⟨j, hj, hr⟩ := region_cover _ _ _ i h3 h4 hi
    exact absurd hr (hno j hj)

/-- C4: for an alphabet of size `N ≥ 1` that fits `symbol_t`, any PMF, any distortion table and
any state count `S` with `1 ≤ S ≤ N`, the map returned by `generate_quantizer` takes at most
`S` distinct values on the inputs `0..N-1`. -/
theorem generate_quantizer_at_most_states_values {V : Type} (A : double_ops V) (p : Nat → V)
    (d : Nat → Nat → V) (M max_iter : Nat) (alphabet : alphabet_t) (states : Nat)
    (hN : 1 ≤ alphabet.size) (hM : alphabet.size < M) (hS : 1 ≤ states)
    (_hSN : states ≤ alphabet.size) :
    (Finset.image (fun i => (generate_quantizer A p d M max_iter alphabet states).1.q.getD i 0)
      (Finset.range alphabet.size)).card ≤ states := by
  have hsub : Finset.image
      (fun i => (generate_quantizer A p d M max_iter alphabet states).1.q.getD i 0)
      (Finset.range alphabet.size) ⊆
      Finset.image
        (fun j => (designed_state A p d M max_iter alphabet states).reconstruction.getD j 0)
        (Finset.range states) := by
    intro v hv
    rw [Finset.mem_image] at hv ⊢
    obtain ⟨i, hi, rfl⟩ := hv
    obtain ⟨j, hj, _, _, hq⟩ :=
      generated_map_spec A p d M max_iter alphabet states hN hM hS i (Finset.mem_range.mp hi)
    exact ⟨j, Finset.mem_range.mpr hj, hq.symm⟩
  calc _ ≤ (Finset.image
        (fun j => (designed_state A p d M max_iter alphabet states).reconstruction.getD j 0)
        (Finset.range states)).card := Finset.card_le_card hsub
    _ ≤ (Finset.range states).card := Finset.card_image_le
    _ = states := Finset.card_range states

/-- C9: for an alphabet of size `N ≥ 1` that fits `symbol_t` and `1 ≤ S ≤ N`, at the entry of
every pass of the design loop, after any number of regions of the reconstruction update and
after any number of steps of the bound adjustment, `bounds[0] = 0`, `bounds[S] = N`, every
bound is at most `N`, every reconstruction point is below `N` and every symbol of a region is
below `N`; and every entry `q[i]`, `i < N`, of the returned map is below `N`. -/
theorem generate_quantizer_range_safety {V : Type} (A : double_ops V) (p : Nat → V)
    (d : Nat → Nat → V) (M max_iter : Nat) (alphabet : alphabet_t) (states : Nat)
    (hN : 1 ≤ alphabet.size) (hM : alphabet.size < M) (hS : 1 ≤ states)
    (_hSN : states ≤ alphabet.size) :
    (∀ k n m : Nat,
      access_ok alphabet.size states
        (design_loop A p d M alphabet.size states k (initial_state M alphabet.size states)) ∧
      (n ≤ states → access_ok alphabet.size states
        (for_range 0 n (reconstruction_body A p d M)
          { design_loop A p d M alphabet.size states k (initial_state M alphabet.size states)
            with changed := false })) ∧
      access_ok alphabet.size states
        { adjust_reconstruction A p d M states
            { design_loop A p d M alphabet.size states k (initial_state M alphabet.size states)
              with changed := false } with
          bounds := adjust_bounds_loop A d M alphabet.size states
            (adjust_reconstruction A p d M states
              { design_loop A p d M alphabet.size states k
                  (initial_state M alphabet.size states) with changed := false }).reconstruction
            m 1 0
            (adjust_reconstruction A p d M states
              { design_loop A p d M alphabet.size states k
                  (initial_state M alphabet.size states) with changed := false }).bounds }) ∧
    (∀ i, i < alphabet.size →
      (generate_quantizer A p d M max_iter alphabet states).1.q.getD i 0 < alphabet.size) := by
  refine ⟨?_, ?_⟩
  · intro k n m
    have h0 : range_ok alphabet.size states
        (design_loop A p d M alphabet.size states k (initial_state M alphabet.size states)) :=
      design_loop_ok A p d M alphabet.size states k _
        (initial_state_ok M alphabet.size states hM hS hN)
    have h0f : range_ok alphabet.size states
        { design_loop A p d M alphabet.size states k (initial_state M alphabet.size states)
          with changed := false } := h0
    refine ⟨access_of_range _ _ _ h0, ?_, ?_⟩
    · intro hn
      exact access_of_range _ _ _
        (reconstruction_prefix_ok A p d M alphabet.size states n _ hn h0f)
    · exact access_of_range _ _ _
        (adjust_bounds_prefix_ok A d M alphabet.size states m _
          (adjust_reconstruction_ok A p d M alphabet.size states _ h0f))
  · intro i hi
    obtain ⟨j, hj, _, _, hq⟩ :=
      generated_map_spec A p d M max_iter alphabet states hN hM hS i hi
    rw [hq]
    exact (designed_state_ok A p d M max_iter alphabet states hN hM hS).2.2.2.2.2 j hj

/-! ## Exact arithmetic and the single-state case -/

theorem for_range_sum (g : Nat → ℚ) (lo hi : Nat) (a : ℚ) :
    for_range lo hi (fun i acc => acc + g i) a = a + ∑ i in Finset.Ico lo hi, g i := by
  rcases Nat.lt_or_ge lo hi with h | h
  · refine for_range_induct (fun k (acc : ℚ) => acc = a + ∑ i in Finset.Ico lo k, g i)
      lo hi _ a (le_of_lt h) (by simp) ?_
    intro k acc hk1 _ hacc
    rw [hacc, Finset.sum_Ico_succ_top hk1, add_assoc]
  · rw [for_range_empty _ _ _ _ h, Finset.Ico_eq_empty (by omega)]
    simp

theorem region_mse_exact (p : Nat → ℚ) (d : Nat → Nat → ℚ) (lo hi r : Nat) :
    region_mse exact_ops p d lo hi r = region_cost p d lo hi r := by
  unfold region_mse region_cost
  have := for_range_sum (fun i => p i * d i r) lo hi 0
  simpa [exact_ops] using this

theorem min_search_exact (p : Nat → ℚ) (d : Nat → Nat → ℚ) (lo hi : Nat)
    (hfin : ∃ r, lo ≤ r ∧ r < hi ∧ region_cost p d lo hi r < DBL_MAX_exact) :
    lo ≤ (min_search exact_ops p d lo hi).1 ∧ (min_search exact_ops p d lo hi).1 < hi ∧
    (min_search exact_ops p d lo hi).2 =
      region_cost p d lo hi (min_search exact_ops p d lo hi).1 ∧
    (∀ r, lo ≤ r → r < hi →
      region_cost p d lo hi (min_search exact_ops p d lo hi).1 ≤ region_cost p d lo hi r) ∧
    (∀ r, lo ≤ r → r < (min_search exact_ops p d lo hi).1 →
      region_cost p d lo hi (min_search exact_ops p d lo hi).1 < region_cost p d lo hi r) := by
  obtain ⟨r0, hr0a, hr0b, hr0c⟩ := hfin
  have hlt : lo ≤ hi := by omega
  have inv := for_range_induct
    (fun k (m : Nat × ℚ) =>
      (m.2 = DBL_MAX_exact ∧ m.1 = lo ∧
        ∀ r, lo ≤ r → r < k → DBL_MAX_exact ≤ region_cost p d lo hi r) ∨
      (lo ≤ m.1 ∧ m.1 < k ∧ m.2 = region_cost p d lo hi m.1 ∧ m.2 < DBL_MAX_exact ∧
        (∀ r, lo ≤ r → r < k → region_cost p d lo hi m.1 ≤ region_cost p d lo hi r) ∧
        (∀ r, lo ≤ r → r < m.1 → region_cost p d lo hi m.1 < region_cost p d lo hi r)))
    lo hi
    (fun r m =>
      let mse := region_mse exact_ops p d lo hi r
      if exact_ops.lt mse m.2 then (r, mse) else m)
    (lo, exact_ops.DBL_MAX) hlt
    (Or.inl ⟨rfl, rfl, fun r h1 h2 => by omega⟩)
    (by
      intro k m hk1 hk2 hm
      dsimp only
      rw [region_mse_exact]
      have hdec : exact_ops.lt (region_cost p d lo hi k) m.2 = decide (region_cost p d lo hi k < m.2) := rfl
      rw [hdec]
      by_cases c : region_cost p d lo hi k < m.2
      · rw [if_pos (by simpa using c)]
        right
        rcases hm with ⟨e2, _, hall⟩ | ⟨_, _, e2, hD, hmin, _⟩
        · rw [e2] at c
          refine ⟨hk1, by simp, rfl, c, ?_, ?_⟩
          · intro r h1 h2
            rcases Nat.lt_or_ge r k with h3 | h3
            · exact le_of_lt (lt_of_lt_of_le c (hall r h1 h3))
            · have : r = k := by omega
              rw [this]
          · intro r h1 h2
            exact lt_of_lt_of_le c (hall r h1 h2)
        · rw [e2] at c
          refine ⟨hk1, by simp, rfl, lt_trans c (e2 ▸ hD), ?_, ?_⟩
          · intro r h1 h2
            rcases Nat.lt_or_ge r k with h3 | h3
            · exact le_of_lt (lt_of_lt_of_le c (hmin r h1 h3))
            · have : r = k := by omega
              rw [this]
          · intro r h1 h2
            exact lt_of_lt_of_le c (hmin r h1 h2)
      · rw [if_neg (by simpa using c)]
        rcases hm with ⟨e2, e1, hall⟩ | ⟨g1, g2, e2, hD, hmin, hstrict⟩
        · left
          refine ⟨e2, e1, ?_⟩
          intro r h1 h2
          rcases Nat.lt_or_ge r k with h3 | h3
          · exact hall r h1 h3
          · have : r = k := by omega
            rw [this, ← e2]; exact not_lt.mp c
        · right
          refine ⟨g1, by omega, e2, hD, ?_, hstrict⟩
          intro r h1 h2
          rcases Nat.lt_or_ge r k with h3 | h3
          · exact hmin r h1 h3
          · have : r = k := by omega
            rw [this, ← e2]; exact not_lt.mp c)
  unfold min_search
  rcases inv with ⟨_, _, hall⟩ | ⟨g1, g2, e2, _, hmin, hstrict⟩
  · exact absurd hr0c (not_lt.mpr (hall r0 hr0a hr0b))
  · exact ⟨g1, g2, e2, hmin, hstrict⟩

theorem for_range_one {σ : Type} (body : Nat → σ → σ) (init : σ) :
    for_range 0 1 body init = body 0 init := rfl

theorem initial_state_single (M size : Nat) (hM : size < M) (hN : 1 ≤ size) :
    (initial_state M size 1).bounds = [0, size] ∧
    (initial_state M size 1).reconstruction.length = 1 ∧
    (initial_state M size 1).changed = true := by
  refine ⟨?_, ?_, rfl⟩
  · show initial_bounds M size 1 = [0, size]
    unfold initial_bounds
    rw [for_range_empty _ _ _ _ (le_refl _)]
    simp [Nat.mod_eq_of_lt hM]
  · exact (initial_reconstruction_ok M size 1 _ hN
      (initial_bounds_ok M size 1 hM (le_refl _) hN).2.2.2
      (initial_bounds_ok M size 1 hM (le_refl _) hN).2.2.1).1

theorem adjust_bounds_loop_single {V : Type} (A : double_ops V) (d : Nat → Nat → V)
    (M size : Nat) (rc : List Nat) (n j r : Nat) (b : List Nat) :
    adjust_bounds_loop A d M size 1 rc n j r b = b := by
  cases n with
  | zero => rfl
  | succ n =>
    unfold adjust_bounds_loop
    rw [if_neg (by omega)]

theorem design_iteration_single {V : Type} (A : double_ops V) (p : Nat → V)
    (d : Nat → Nat → V) (M size : Nat) (hM : size < M) (hN : 1 ≤ size) (st : design_state)
    (hb : st.bounds = [0, size]) (hr : st.reconstruction.length = 1) :
    (design_iteration A p d M size 1 st).bounds = [0, size] ∧
    (design_iteration A p d M size 1 st).reconstruction = [(min_search A p d 0 size).1] := by
  unfold design_iteration adjust_bounds adjust_reconstruction
  rw [for_range_one]
  dsimp only
  rw [adjust_bounds_loop_single]
  unfold reconstruction_body
  dsimp only
  rw [hb]
  have e0 : [0, size].getD 0 0 = 0 := rfl
  have e1 : [0, size].getD (0 + 1) 0 = size := rfl
  rw [e0, e1]
  have hlt : (min_search A p d 0 size).1 < M := by
    have := min_search_range A p d 0 size
    omega
  obtain ⟨x, hx⟩ : ∃ x, st.reconstruction = [x] := by
    match h : st.reconstruction, hr with
    | [x], _ => exact ⟨x, rfl⟩
  rw [hx]
  split
  · refine ⟨rfl, ?_⟩
    simp [Nat.mod_eq_of_lt hlt]
  · rename_i hne
    refine ⟨rfl, ?_⟩
    have : (min_search A p d 0 size).1 = x := by
      simpa using hne
    simp [this]

theorem design_loop_single {V : Type} (A : double_ops V) (p : Nat → V) (d : Nat → Nat → V)
    (M size : Nat) (hM : size < M) (hN : 1 ≤ size) :
    ∀ (k : Nat) (st : design_state), st.bounds = [0, size] → st.reconstruction.length = 1 →
      (st.reconstruction = [(min_search A p d 0 size).1] ∨ (st.changed = true ∧ 1 ≤ k)) →
      (design_loop A p d M size 1 k st).bounds = [0, size] ∧
      (design_loop A p d M size 1 k st).reconstruction = [(min_search A p d 0 size).1] := by
  intro k
  induction k with
  | zero =>
    intro st hb _ h
    rcases h with h | ⟨_, h⟩
    · exact ⟨hb, h⟩
    · omega
  | succ k ih =>
    intro st hb hr h
    unfold design_loop
    obtain ⟨g1, g2⟩ := design_iteration_single A p d M size hM hN st hb hr
    split
    · exact ih _ g1 (by rw [g2]; rfl) (Or.inl g2)
    · rename_i hc
      rcases h with h | ⟨h, _⟩
      · exact ⟨hb, h⟩
      · exact absurd h hc

theorem designed_state_single {V : Type} (A : double_ops V) (p : Nat → V) (d : Nat → Nat → V)
    (M max_iter : Nat) (alphabet : alphabet_t) (hM : alphabet.size < M)
    (hN : 1 ≤ alphabet.size) (hit : 1 ≤ max_iter) :
    (designed_state A p d M max_iter alphabet 1).bounds = [0, alphabet.size] ∧
    (designed_state A p d M max_iter alphabet 1).reconstruction =
      [(min_search A p d 0 alphabet.size).1] := by
  obtain ⟨h1, h2, h3⟩ := initial_state_single M alphabet.size hM hN
  exact design_loop_single A p d M alphabet.size hM hN max_iter _ h1 h2 (Or.inr ⟨h3, hit⟩)

theorem min_search_computed {V : Type} (A : double_ops V) (hA : strict_weak_order A)
    (p : Nat → V) (d : Nat → Nat → V) (lo hi : Nat)
    (hfin : ∃ r, lo ≤ r ∧ r < hi ∧ A.lt (region_mse A p d lo hi r) A.DBL_MAX = true) :
    lo ≤ (min_search A p d lo hi).1 ∧ (min_search A p d lo hi).1 < hi ∧
    (min_search A p d lo hi).2 = region_mse A p d lo hi (min_search A p d lo hi).1 ∧
    (∀ r, lo ≤ r → r < hi →
      A.lt (region_mse A p d lo hi r)
        (region_mse A p d lo hi (min_search A p d lo hi).1) = false) ∧
    (∀ r, lo ≤ r → r < (min_search A p d lo hi).1 →
      A.lt (region_mse A p d lo hi (min_search A p d lo hi).1)
        (region_mse A p d lo hi r) = true) := by
  obtain ⟨hirr, htr, hweak⟩ := hA
  obtain ⟨r0, hr0a, hr0b, hr0c⟩ := hfin
  have hlt : lo ≤ hi := by omega
  have hnot : ∀ a b, ¬ A.lt a b = true → A.lt a b = false := by
    intro a b h
    cases hh : A.lt a b with
    | true => exact absurd hh h
    | false => rfl
  have inv := for_range_induct
    (fun k (m : Nat × V) =>
      (m.2 = A.DBL_MAX ∧ m.1 = lo ∧
        ∀ r, lo ≤ r → r < k → A.lt (region_mse A p d lo hi r) A.DBL_MAX = false) ∨
      (lo ≤ m.1 ∧ m.1 < k ∧ m.2 = region_mse A p d lo hi m.1 ∧
        (∀ r, lo ≤ r → r < k →
          A.lt (region_mse A p d lo hi r) (region_mse A p d lo hi m.1) = false) ∧
        (∀ r, lo ≤ r → r < m.1 →
          A.lt (region_mse A p d lo hi m.1) (region_mse A p d lo hi r) = true)))
    lo hi
    (fun r m =>
      let mse := region_mse A p d lo hi r
      if A.lt mse m.2 then (r, mse) else m)
    (lo, A.DBL_MAX) hlt
    (Or.inl ⟨rfl, rfl, fun r h1 h2 => by omega⟩)
    (by
      intro k m hk1 hk2 hm
      dsimp only
      by_cases c : A.lt (region_mse A p d lo hi k) m.2 = true
      · rw [if_pos c]
        right
        have hbound : ∀ r, lo ≤ r → r < k →
            A.lt (region_mse A p d lo hi r) m.2 = false := by
          intro r h1 h2
          rcases hm with ⟨e2, _, hall⟩ | ⟨_, _, e2, hmin, _⟩
          · rw [e2]; exact hall r h1 h2
          · rw [e2]; exact hmin r h1 h2
        refine ⟨hk1, by simp, rfl, ?_, ?_⟩
        · intro r h1 h2
          rcases Nat.lt_or_ge r k with h3 | h3
          · apply hnot
            intro hc
            have := htr _ _ _ hc c
            rw [hbound r h1 h3] at this
            exact absurd this (by simp)
          · have : r = k := by omega
            rw [this]
            exact hirr _
        · intro r h1 h2
          rcases hweak _ _ (region_mse A p d lo hi r) c with h | h
          · exact h
          · rw [hbound r h1 h2] at h
            exact absurd h (by simp)
      · rw [if_neg c]
        have c2 := hnot _ _ c
        rcases hm with ⟨e2, e1, hall⟩ | ⟨g1, g2, e2, hmin, hstrict⟩
        · left
          refine ⟨e2, e1, ?_⟩
          intro r h1 h2
          rcases Nat.lt_or_ge r k with h3 | h3
          · exact hall r h1 h3
          · have : r = k := by omega
            rw [this, ← e2]; exact c2
        · right
          refine ⟨g1, by omega, e2, ?_, hstrict⟩
          intro r h1 h2
          rcases Nat.lt_or_ge r k with h3 | h3
          · exact hmin r h1 h3
          · have : r = k := by omega
            rw [this, ← e2]; exact c2)
  unfold min_search
  rcases inv with ⟨_, _, hall⟩ | ⟨g1, g2, e2, hmin, hstrict⟩
  · rw [hall r0 hr0a hr0b] at hr0c
    exact absurd hr0c (by simp)
  · exact ⟨g1, g2, e2, hmin, hstrict⟩

theorem rational_order_weak (A : double_ops ℚ) (hlt : ∀ a b, A.lt a b = decide (a < b)) :
    strict_weak_order A := by
  refine ⟨?_, ?_, ?_⟩
  · intro a; rw [hlt]; simp
  · intro a b c h1 h2
    rw [hlt] at h1 h2 ⊢
    simp only [decide_eq_true_eq] at h1 h2 ⊢
    exact lt_trans h1 h2
  · intro a b c h1
    rw [hlt] at h1
    rw [hlt, hlt]
    simp only [decide_eq_true_eq] at h1 ⊢
    rcases lt_or_le a c with h | h
    · exact Or.inl h
    · exact Or.inr (lt_of_le_of_lt h h1)

/-- C5 (amended): with `states = 1` (alphabet of size `N ≥ 1` that fits `symbol_t`, at least one
pass of the design loop allowed), for every arithmetic of `double` whose `<` is a strict weak
order and whose product commutes, and some candidate whose computed cost is below `DBL_MAX`,
`generate_quantizer` returns the constant map `q[i] = r` for `i < N`, where `r < N` is the
smallest minimiser of the cost as the code computes it (`region_mse`, the sum of the products
`pmf[i] * d(i, r)` accumulated in the order `i = 0, .., N-1` in the arithmetic of the carrier):
no candidate has a smaller computed cost and every candidate below `r` has a larger one; the
value written to `dist_out` is the computed cost of `r`. -/
theorem generate_quantizer_single_state_computed {V : Type} (A : double_ops V)
    (p : Nat → V) (d : Nat → Nat → V) (M max_iter : Nat) (alphabet : alphabet_t)
    (hN : 1 ≤ alphabet.size) (hM : alphabet.size < M) (hit : 1 ≤ max_iter)
    (hA : strict_weak_order A) (hmul : ∀ a b, A.mul a b = A.mul b a)
    (hfin : ∃ r, r < alphabet.size ∧
      A.lt (region_mse A p d 0 alphabet.size r) A.DBL_MAX = true) :
    ∃ r, r < alphabet.size ∧
      (∀ i, i < alphabet.size →
        (generate_quantizer A p d M max_iter alphabet 1).1.q.getD i 0 = r) ∧
      (∀ r2, r2 < alphabet.size →
        A.lt (region_mse A p d 0 alphabet.size r2) (region_mse A p d 0 alphabet.size r) =
          false) ∧
      (∀ r2, r2 < r →
        A.lt (region_mse A p d 0 alphabet.size r) (region_mse A p d 0 alphabet.size r2) =
          true) ∧
      (generate_quantizer A p d M max_iter alphabet 1).2 =
        region_mse A p d 0 alphabet.size r := by
  obtain ⟨hb, hr⟩ := designed_state_single A p d M max_iter alphabet hM hN hit
  obtain ⟨r0, hr0, hr0c⟩ := hfin
  obtain ⟨_, m2, _, m4, m5⟩ := min_search_computed A hA p d 0 alphabet.size
    ⟨r0, Nat.zero_le _, hr0, hr0c⟩
  refine ⟨(min_search A p d 0 alphabet.size).1, m2, ?_, ?_, ?_, ?_⟩
  · intro i hi
    obtain ⟨j, hj, _, _, hq⟩ :=
      generated_map_spec A p d M max_iter alphabet 1 hN hM (le_refl _) i hi
    have : j = 0 := by omega
    rw [hq, hr, this]; rfl
  · intro r2 h2
    exact m4 r2 (Nat.zero_le _) h2
  · intro r2 h2
    exact m5 r2 (Nat.zero_le _) h2
  · show final_distortion A p d 1 _ _ = _
    unfold final_distortion
    rw [for_range_one, hb, hr]
    have e0 : [0, alphabet.size].getD 0 0 = 0 := rfl
    have e1 : [0, alphabet.size].getD (0 + 1) 0 = alphabet.size := rfl
    have e2 : [(min_search A p d 0 alphabet.size).1].getD 0 0 =
      (min_search A p d 0 alphabet.size).1 := rfl
    rw [e0, e1, e2]
    unfold region_mse
    congr 1
    funext i mse
    rw [hmul]

/-! ## As many states as symbols -/

theorem initial_state_identity (M size : Nat) (hM : size < M) (hN : 1 ≤ size)
    (hW : size < 65536) : identity_state size (initial_state M size size) := by
  have hb : (initial_bounds M size size).length = size + 1 ∧
      ∀ j, j ≤ size → (initial_bounds M size size).getD j 0 = j := by
    unfold initial_bounds
    have := for_range_induct
      (fun k (b : List Nat) => b.length = size + 1 ∧ b.getD 0 0 = 0 ∧ b.getD size 0 = size ∧
        ∀ j, 1 ≤ j → j < k → b.getD j 0 = j)
      1 size (fun j b => b.set j (((j * size) % 4294967296 / size) % M))
      (((List.replicate (size + 1) 0).set 0 0).set size (size % M)) hN
      ⟨by simp, by rw [getD_set_ne _ _ _ _ (by omega), getD_set_eq _ _ _ (by simp)],
        by rw [getD_set_eq _ _ _ (by simp), Nat.mod_eq_of_lt hM],
        fun j h1 h2 => by omega⟩
      (by
        rintro k b hk1 hk2 ⟨hl, h0, hS, hj⟩
        refine ⟨by simpa using hl, ?_, ?_, ?_⟩
        · rw [getD_set_ne _ _ _ _ (by omega), h0]
        · rw [getD_set_ne _ _ _ _ (by omega), hS]
        · intro j h1 h2
          rw [getD_set]
          split
          · rename_i hh
            have hprod : k * size < 4294967296 := by
              have : k * size < 65536 * 65536 :=
                Nat.mul_lt_mul'' (by omega) hW
              omega
            rw [Nat.mod_eq_of_lt hprod, Nat.mul_div_cancel _ (by omega),
              Nat.mod_eq_of_lt (by omega)]
            exact hh.1
          · rename_i hh
            apply hj j h1
            rcases Nat.lt_or_ge j k with h3 | h3
            · exact h3
            · exfalso; apply hh; exact ⟨by omega, by omega⟩)
    obtain ⟨hl, h0, hS, hj⟩ := this
    refine ⟨hl, ?_⟩
    intro j hjs
    rcases Nat.eq_zero_or_pos j with e | e
    · rw [e, h0]
    · rcases Nat.lt_or_ge j size with h3 | h3
      · exact hj j e h3
      · have : j = size := by omega
        rw [this, hS]
  have hr : (initial_reconstruction M size (initial_bounds M size size)).length = size ∧
      ∀ j, j < size →
        (initial_reconstruction M size (initial_bounds M size size)).getD j 0 = j := by
    unfold initial_reconstruction
    have := for_range_induct
      (fun k (rc : List Nat) => rc.length = size ∧ ∀ j, j < k → rc.getD j 0 = j)
      0 size
      (fun j rc => rc.set j ((((initial_bounds M size size).getD j 0 +
        (initial_bounds M size size).getD (j + 1) 0 - 1) / 2) % M))
      (List.replicate size 0) (Nat.zero_le _)
      ⟨by simp, fun j h => by omega⟩
      (by
        rintro k rc _ hk2 ⟨hl, hj⟩
        refine ⟨by simpa using hl, ?_⟩
        intro j h2
        rw [getD_set]
        split
        · rename_i hh
          rw [hb.2 k (by omega), hb.2 (k + 1) (by omega)]
          have : (k + (k + 1) - 1) / 2 = k := by omega
          rw [this, Nat.mod_eq_of_lt (by omega)]
          exact hh.1
        · rename_i hh
          apply hj j
          rcases Nat.lt_or_ge j k with h3 | h3
          · exact h3
          · exfalso; apply hh; exact ⟨by omega, by omega⟩)
    exact this
  exact ⟨hb.1, hr.1, hb.2, hr.2⟩

theorem reconstruction_body_identity {V : Type} (A : double_ops V) (p : Nat → V)
    (d : Nat → Nat → V) (M size j : Nat) (st : design_state) (hj : j < size)
    (h : identity_state size st) : reconstruction_body A p d M j st = st := by
  obtain ⟨_, _, h3, h4⟩ := h
  unfold reconstruction_body
  dsimp only
  rw [h3 j (by omega), h3 (j + 1) (by omega), h4 j hj]
  have := min_search_range A p d j (j + 1)
  have e : (min_search A p d j (j + 1)).1 = j := by omega
  rw [if_neg (by rw [e]; simp)]

theorem adjust_reconstruction_identity {V : Type} (A : double_ops V) (p : Nat → V)
    (d : Nat → Nat → V) (M size : Nat) (st : design_state) (h : identity_state size st) :
    adjust_reconstruction A p d M size st = st := by
  unfold adjust_reconstruction
  exact for_range_invariant (fun s => s = st) 0 size _ st rfl
    (fun j s _ hj hs => by rw [hs]; exact reconstruction_body_identity A p d M size j st hj h)

theorem adjust_bounds_loop_identity (d : Nat → Nat → ℚ) (M size : Nat) (rc : List Nat)
    (hM : size < M)
    (hdiag : ∀ i, i < size → d i i = 0)
    (hoff : ∀ i j, i < size → j < size → i ≠ j → 0 < d i j)
    (hrc : ∀ j, j < size → rc.getD j 0 = j) :
    ∀ (n j r : Nat) (b : List Nat), j = r + 1 →
      (b.length = size + 1 ∧ ∀ k, k ≤ size → b.getD k 0 = k) →
      ((adjust_bounds_loop exact_ops d M size size rc n j r b).length = size + 1 ∧
        ∀ k, k ≤ size → (adjust_bounds_loop exact_ops d M size size rc n j r b).getD k 0 = k) := by
  intro n
  induction n with
  | zero => intro j r b _ h; exact h
  | succ n ih =>
    intro j r b hjr h
    obtain ⟨h1, h2⟩ := h
    unfold adjust_bounds_loop
    split
    · rename_i hg
      dsimp only
      rw [hrc r (by omega), hrc (r + 1) (by omega)]
      have hlt : exact_ops.lt (d j (r + 1)) (d j r) = true := by
        show decide (d j (r + 1) < d j r) = true
        rw [← hjr, hdiag j (by omega)]
        simpa using hoff j r (by omega) (by omega) (by omega)
      rw [if_pos hlt]
      apply ih (j + 1) (r + 1) _ (by omega)
      refine ⟨by simpa using h1, ?_⟩
      intro k hk
      rw [getD_set]
      split
      · rename_i hh
        rw [Nat.mod_eq_of_lt (by omega)]
        omega
      · exact h2 k hk
    · exact ⟨h1, h2⟩

theorem design_loop_identity (p : Nat → ℚ) (d : Nat → Nat → ℚ) (M size : Nat)
    (hM : size < M)
    (hdiag : ∀ i, i < size → d i i = 0)
    (hoff : ∀ i j, i < size → j < size → i ≠ j → 0 < d i j) :
    ∀ (k : Nat) (st : design_state), identity_state size st →
      identity_state size (design_loop exact_ops p d M size size k st) := by
  intro k
  induction k with
  | zero => intro st h; exact h
  | succ k ih =>
    intro st h
    unfold design_loop
    split
    · apply ih
      unfold design_iteration adjust_bounds
      have hf : identity_state size { st with changed := false } := h
      rw [adjust_reconstruction_identity exact_ops p d M size _ hf]
      obtain ⟨h1, h2, h3, h4⟩ := h
      obtain ⟨g1, g2⟩ := adjust_bounds_loop_identity d M size st.reconstruction hM hdiag hoff h4
        size 1 0 st.bounds rfl ⟨h1, h3⟩
      exact ⟨g1, h2, g2, h4⟩
    · exact h

theorem final_distortion_exact_step (p : Nat → ℚ) (d : Nat → Nat → ℚ) (lo hi r : Nat)
    (a : ℚ) :
    for_range lo hi (fun i mse => exact_ops.add mse (exact_ops.mul (d i r) (p i))) a =
      a + ∑ i in Finset.Ico lo hi, d i r * p i :=
  for_range_sum (fun i => d i r * p i) lo hi a

theorem final_distortion_identity (p : Nat → ℚ) (d : Nat → Nat → ℚ) (size : Nat)
    (st : design_state) (h : identity_state size st)
    (hdiag : ∀ i, i < size → d i i = 0) :
    final_distortion exact_ops p d size st.bounds st.reconstruction = 0 := by
  obtain ⟨_, _, h3, h4⟩ := h
  unfold final_distortion
  refine for_range_invariant (fun (mse : ℚ) => mse = 0) 0 size _ _ rfl ?_
  intro j mse _ hj hmse
  dsimp only
  rw [final_distortion_exact_step, h3 j (by omega), h3 (j + 1) (by omega), h4 j hj, hmse]
  rw [Finset.sum_Ico_succ_top (le_refl j), Finset.Ico_self, Finset.sum_empty, hdiag j hj]
  simp

theorem final_distortion_nonneg (p : Nat → ℚ) (d : Nat → Nat → ℚ) (size states : Nat)
    (st : design_state) (h : range_ok size states st)
    (hp : ∀ i, i < size → 0 ≤ p i) (hd : ∀ i j, i < size → j < size → 0 ≤ d i j) :
    0 ≤ final_distortion exact_ops p d states st.bounds st.reconstruction := by
  have hacc := access_of_range size states st h
  obtain ⟨_, _, hle, hrc, _⟩ := hacc
  unfold final_distortion
  refine for_range_invariant (fun (mse : ℚ) => 0 ≤ mse) 0 states _ _ (le_refl _) ?_
  intro j mse _ hj hmse
  dsimp only
  rw [final_distortion_exact_step]
  apply add_nonneg hmse
  apply Finset.sum_nonneg
  intro i hi
  rw [Finset.mem_Ico] at hi
  have hi2 : i < size := lt_of_lt_of_le hi.2 (hle (j + 1) (by omega))
  exact mul_nonneg (hd i _ hi2 (hrc j hj)) (hp i hi2)

/-- C6, as stated, fails: for the PMF `(0, 1/2, 1/2, 0, 0)` and squared error, two states give
distortion `0` and three states give distortion `1/2`. -/
theorem distortion_not_monotone_in_states :
    ¬ ((generate_quantizer exact_ops pmf_two_symbols squared_error 256 25 alphabet_five 3).2 ≤
        (generate_quantizer exact_ops pmf_two_symbols squared_error 256 25 alphabet_five 2).2) := by
  decide!

/-- C6, amended: for nonnegative weights and a nonnegative distortion table with zero diagonal
and positive off-diagonal entries (alphabet of size `1 ≤ N < 2^16` that fits `symbol_t`, exact
arithmetic), the distortion reported for `N` states is `0` and is at most the distortion
reported for any state count `s ≥ 1`. -/
theorem full_resolution_distortion_le (p : Nat → ℚ) (d : Nat → Nat → ℚ)
    (M max_iter : Nat) (alphabet : alphabet_t) (s : Nat)
    (hN : 1 ≤ alphabet.size) (hM : alphabet.size < M) (hW : alphabet.size < 65536)
    (hs : 1 ≤ s)
    (hp : ∀ i, i < alphabet.size → 0 ≤ p i)
    (hd : ∀ i j, i < alphabet.size → j < alphabet.size → 0 ≤ d i j)
    (hdiag : ∀ i, i < alphabet.size → d i i = 0)
    (hoff : ∀ i j, i < alphabet.size → j < alphabet.size → i ≠ j → 0 < d i j) :
    (generate_quantizer exact_ops p d M max_iter alphabet alphabet.size).2 = 0 ∧
    (generate_quantizer exact_ops p d M max_iter alphabet alphabet.size).2 ≤
      (generate_quantizer exact_ops p d M max_iter alphabet s).2 := by
  have h0 : (generate_quantizer exact_ops p d M max_iter alphabet alphabet.size).2 = 0 :=
    final_distortion_identity p d alphabet.size _
      (design_loop_identity p d M alphabet.size hM hdiag hoff max_iter _
        (initial_state_identity M alphabet.size hM hN hW)) hdiag
  refine ⟨h0, ?_⟩
  rw [h0]
  exact final_distortion_nonneg p d alphabet.size s _
    (designed_state_ok exact_ops p d M max_iter alphabet s hN hM hs) hp hd

/-! ## The driver: encoder and decoder in step -/

theorem getD_indexOf_of_mem (l : List Nat) (v : Nat) (h : v ∈ l) :
    l.getD (l.indexOf v) 0 = v := by
  rw [List.getD_eq_getElem?_getD, List.getElem?_indexOf h]
  rfl

theorem symbol_round_trip {QL W F : Type} [DecidableEq F]
    (choose : QL → W → Nat → Nat → quantizer_t × Nat × W)
    (junk : F → List (F × Nat) → Nat) (upd : F → Nat → F) (size : Nat)
    (hq : ∀ ql w s prev, output_alphabet_consistent size (choose ql w s prev).1)
    (hbyte : ∀ ql w s prev x, x < size → (choose ql w s prev).1.q.getD x 0 + 33 < 256)
    (qlist : QL) (cluster_id s prev x : Nat) (e : encoder_state W F) (hx : x < size) :
    ∃ a e1,
      (choose qlist e.well s prev).1.output_alphabet = some a ∧
      a.symbols.getD (get_symbol_index a ((choose qlist e.well s prev).1.q.getD x 0)) 0 =
        (choose qlist e.well s prev).1.q.getD x 0 ∧
      encode_symbol choose upd qlist cluster_id s prev x e =
        some ((choose qlist e.well s prev).1.q.getD x 0, e1) ∧
      e1.as.os = e.as.os ++ [(e.as.stats cluster_id s (choose qlist e.well s prev).2.1,
        get_symbol_index a ((choose qlist e.well s prev).1.q.getD x 0))] ∧
      e1.well = (choose qlist e.well s prev).2.2 ∧
      ∀ (d : decoder_state W F) (rest : List (F × Nat)), in_step e d →
        d.as.os = (e.as.stats cluster_id s (choose qlist e.well s prev).2.1,
          get_symbol_index a ((choose qlist e.well s prev).1.q.getD x 0)) :: rest →
        ∃ d1, decode_symbol choose junk upd qlist cluster_id s prev d =
            some ((choose qlist e.well s prev).1.q.getD x 0 + 33, d1) ∧
          in_step e1 d1 ∧ d1.as.os = rest ∧ d1.fout = d.fout := by
  obtain ⟨a, ha, _, hmem⟩ := hq qlist e.well s prev
  have hb := hbyte qlist e.well s prev x hx
  have hmod : (choose qlist e.well s prev).1.q.getD x 0 % 256 =
      (choose qlist e.well s prev).1.q.getD x 0 := Nat.mod_eq_of_lt (by omega)
  have hin : (choose qlist e.well s prev).1.q.getD x 0 ∈ a.symbols :=
    (hmem _).2 ⟨x, hx, rfl⟩
  have hidx : a.symbols.getD
      (get_symbol_index a ((choose qlist e.well s prev).1.q.getD x 0)) 0 =
      (choose qlist e.well s prev).1.q.getD x 0 := getD_indexOf_of_mem _ _ hin
  refine ⟨a, { e with
      well := (choose qlist e.well s prev).2.2
      as := compress_qv upd e.as (get_symbol_index a ((choose qlist e.well s prev).1.q.getD x 0))
        cluster_id s (choose qlist e.well s prev).2.1
      calls := e.calls ++ [(s, prev)] }, ha, hidx, ?_, ?_, ?_, ?_⟩
  · unfold encode_symbol
    simp only [ha, hmod]
  · simp [compress_qv, arithmetic_encoder_step]
  · rfl
  · intro d rest hsync hos
    obtain ⟨h1, h2, h3, h4⟩ := hsync
    refine ⟨{ d with
        well := (choose qlist d.well s prev).2.2
        as := (decompress_qv junk upd d.as cluster_id s (choose qlist d.well s prev).2.1).2
        calls := d.calls ++ [(s, prev)]
        steps := d.steps ++ [(false, cluster_id, s, (choose qlist d.well s prev).2.1)] },
      ?_, ?_, ?_, ?_⟩
    · unfold decode_symbol
      simp only [h1, ha]
      simp only [decompress_qv, hos, h2, arithmetic_decoder_step, if_true]
      rw [hidx, Nat.mod_eq_of_lt hb]
    · refine ⟨?_, ?_, ?_, ?_⟩
      · simp only [h1]
      · simp only [decompress_qv, compress_qv, hos, h1, h2, arithmetic_decoder_step, if_true]
      · simp only [decompress_qv, compress_qv, h3]
      · simp only [h4]
    · simp only [decompress_qv, hos, h1, h2, arithmetic_decoder_step, if_true]
    · rfl

theorem for_from_done {σ : Type} (body : Nat → σ → Option σ) (hi n s : Nat) (st : σ)
    (h : ¬ s < hi) : for_from body hi (n + 1) s st = some (s, st) := by
  rw [for_from, if_neg h]

theorem for_from_step {σ : Type} (body : Nat → σ → Option σ) (hi n s : Nat) (st st1 : σ)
    (h : s < hi) (hb : body s st = some st1) :
    for_from body hi (n + 1) s st = for_from body hi n (s + 1) st1 := by
  rw [for_from, if_pos h, hb]

/-- A bound `n` with `hi ≤ s + n` on the number of tests of the loop condition is never
reached: any larger bound gives the same result. -/
theorem for_from_fuel {σ : Type} (body : Nat → σ → Option σ) (hi : Nat) :
    ∀ (n k s : Nat) (st : σ), hi ≤ s + n →
      for_from body hi (n + k) s st = for_from body hi n s st := by
  intro n
  induction n with
  | zero =>
    intro k s st h
    cases k with
    | zero => rfl
    | succ k =>
      rw [Nat.zero_add, for_from_done _ _ _ _ _ (by omega)]
      rfl
  | succ n ih =>
    intro k s st h
    have e : n + 1 + k = (n + k) + 1 := by omega
    rw [e]
    by_cases c : s < hi
    · cases hb : body s st with
      | none => rw [for_from, for_from, if_pos c, if_pos c, hb]
      | some st1 =>
        rw [for_from_step _ _ _ _ _ _ c hb, for_from_step _ _ _ _ _ _ c hb]
        exact ih k (s + 1) st1 (by omega)
    · rw [for_from_done _ _ _ _ _ c, for_from_done _ _ _ _ _ c]

theorem getD_cons_succ (v : Nat) (vs : List Nat) (n : Nat) :
    (v :: vs).getD (n + 1) 0 = vs.getD n 0 := rfl

theorem columns_round_trip {QL W F : Type} [DecidableEq F]
    (choose : QL → W → Nat → Nat → quantizer_t × Nat × W)
    (junk : F → List (F × Nat) → Nat) (upd : F → Nat → F) (size : Nat)
    (hq : ∀ ql w s prev, output_alphabet_consistent size (choose ql w s prev).1)
    (hbyte : ∀ ql w s prev x, x < size → (choose ql w s prev).1.q.getD x 0 + 33 < 256)
    (qlist : QL) (cluster_id : Nat) (data : List Nat) (hi : Nat)
    (hdata : ∀ j, j < data.length → data.getD j 0 < size) (hhi : hi ≤ data.length) :
    ∀ (k s prev err : Nat) (e : encoder_state W F), s + k = hi → ∀ ne, k < ne →
      ∃ prev1 err1 e1 its vs,
        for_from (encode_column choose upd qlist cluster_id data) hi ne s (prev, err, e) =
          some (hi, prev1, err1, e1) ∧
        e1.as.os = e.as.os ++ its ∧ vs.length = k ∧
        (reconstruct_symbols choose qlist (data.drop s) s prev e.well).1 =
          vs ++ (reconstruct_symbols choose qlist (data.drop hi) hi prev1 e1.well).1 ∧
        (reconstruct_symbols choose qlist (data.drop s) s prev e.well).2 =
          (reconstruct_symbols choose qlist (data.drop hi) hi prev1 e1.well).2 ∧
        ∀ nd, k < nd → ∀ (d : decoder_state W F) (buf : List Nat) (rest : List (F × Nat)),
          in_step e d → d.as.os = its ++ rest → hi ≤ buf.length →
          ∃ buf1 d1,
            for_from (decode_column choose junk upd qlist cluster_id) hi nd s (prev, buf, d) =
              some (hi, prev1, buf1, d1) ∧
            in_step e1 d1 ∧ d1.as.os = rest ∧ d1.fout = d.fout ∧ buf1.length = buf.length ∧
            ∀ j, buf1.getD j 0 =
              if s ≤ j ∧ j < hi then vs.getD (j - s) 0 + 33 else buf.getD j 0 := by
  intro k
  induction k with
  | zero =>
    intro s prev err e hs ne hne
    have hsh : s = hi := by omega
    subst hsh
    obtain ⟨n, rfl⟩ : ∃ n, ne = n + 1 := ⟨ne - 1, by omega⟩
    refine ⟨prev, err, e, [], [], for_from_done _ _ _ _ _ (lt_irrefl _), by simp, rfl,
      by simp, rfl, ?_⟩
    intro nd hnd d buf rest hsync hos _
    obtain ⟨m, rfl⟩ : ∃ m, nd = m + 1 := ⟨nd - 1, by omega⟩
    refine ⟨buf, d, for_from_done _ _ _ _ _ (lt_irrefl _), hsync, by simpa using hos, rfl, rfl,
      ?_⟩
    intro j
    rw [if_neg (by omega)]
  | succ k ih =>
    intro s prev err e hs ne hne
    have hlt : s < hi := by omega
    have hsl : s < data.length := by omega
    obtain ⟨n, rfl⟩ : ∃ n, ne = n + 1 := ⟨ne - 1, by omega⟩
    obtain ⟨a, es, _, _, henc, hos1, hw1, hdec⟩ :=
      symbol_round_trip choose junk upd size hq hbyte qlist cluster_id s prev
        (data.getD s 0) e (hdata s hsl)
    have hbody : encode_column choose upd qlist cluster_id data s (prev, err, e) =
        some ((choose qlist e.well s prev).1.q.getD (data.getD s 0) 0,
          (err + squared_difference (data.getD s 0)
            ((choose qlist e.well s prev).1.q.getD (data.getD s 0) 0)) % 4294967296, es) := by
      unfold encode_column
      simp only [henc]
    obtain ⟨prev1, err1, e1, its, vs, hloop, hos2, hvl, hr1, hr2, hdloop⟩ :=
      ih (s + 1) ((choose qlist e.well s prev).1.q.getD (data.getD s 0) 0)
        ((err + squared_difference (data.getD s 0)
            ((choose qlist e.well s prev).1.q.getD (data.getD s 0) 0)) % 4294967296)
        es (by omega) n (by omega)
    have hdrop : data.drop s = data.getD s 0 :: data.drop (s + 1) := by
      rw [List.drop_eq_getElem_cons hsl]
      congr 1
      rw [List.getD_eq_getElem?_getD, List.getElem?_eq_getElem hsl]
      rfl
    refine ⟨prev1, err1, e1,
      (e.as.stats cluster_id s (choose qlist e.well s prev).2.1,
        get_symbol_index a ((choose qlist e.well s prev).1.q.getD (data.getD s 0) 0)) :: its,
      (choose qlist e.well s prev).1.q.getD (data.getD s 0) 0 :: vs, ?_, ?_, ?_, ?_, ?_, ?_⟩
    · rw [for_from_step _ _ _ _ _ _ hlt hbody]
      exact hloop
    · rw [hos2, hos1]; simp
    · simp [hvl]
    · rw [hdrop]
      simp only [reconstruct_symbols]
      rw [← hw1, hr1]
      rfl
    · rw [hdrop]
      simp only [reconstruct_symbols]
      rw [← hw1, hr2]
    · intro nd hnd d buf rest hsync hos hbuf
      obtain ⟨m, rfl⟩ : ∃ m, nd = m + 1 := ⟨nd - 1, by omega⟩
      obtain ⟨ds, hds, hsync1, hdos, hfout⟩ := hdec d (its ++ rest) hsync (by simpa using hos)
      have hb := hbyte qlist e.well s prev (data.getD s 0) (hdata s hsl)
      have hdbody : decode_column choose junk upd qlist cluster_id s (prev, buf, d) =
          some ((choose qlist e.well s prev).1.q.getD (data.getD s 0) 0,
            buf.set s ((choose qlist e.well s prev).1.q.getD (data.getD s 0) 0 + 33), ds) := by
        unfold decode_column
        simp only [hds]
        congr 2
        omega
      obtain ⟨buf1, d1, hdl, hsync2, hdos2, hfout2, hlen, hget⟩ :=
        hdloop m (by omega) ds
          (buf.set s ((choose qlist e.well s prev).1.q.getD (data.getD s 0) 0 + 33)) rest
          hsync1 hdos (by simpa using hbuf)
      refine ⟨buf1, d1, ?_, hsync2, hdos2, by rw [hfout2, hfout], by simpa using hlen, ?_⟩
      · rw [for_from_step _ _ _ _ _ _ hlt hdbody]
        exact hdl
      · intro j
        rw [hget j, getD_set]
        by_cases c1 : s + 1 ≤ j ∧ j < hi
        · rw [if_pos c1, if_pos ⟨by omega, c1.2⟩]
          have : j - s = (j - (s + 1)) + 1 := by omega
          rw [this, getD_cons_succ]
        · rw [if_neg c1]
          by_cases c2 : s = j
          · subst c2
            rw [if_pos ⟨rfl, by omega⟩, if_pos ⟨le_refl _, hlt⟩]
            simp
          · rw [if_neg (fun hh => c2 hh.1), if_neg (by omega)]

theorem getD_eq_of_lt (l : List Nat) (i : Nat) (h : i < l.length) : l.getD i 0 = l[i] := by
  rw [List.getD_eq_getElem?_getD, List.getElem?_eq_getElem h]
  rfl

theorem take_line_eq (buf ws : List Nat) (columns : Nat) (hbuf : buf.length = columns + 2)
    (hws : ws.length = columns) (hget : ∀ j, j < columns → buf.getD j 0 = ws.getD j 0 + 33)
    (hnl : buf.getD columns 0 = 10) :
    buf.take (columns + 1) = ws.map (fun v => v + 33) ++ [10] := by
  apply List.ext_getElem
  · simp [hbuf, hws]
  · intro i h1 h2
    rw [List.getElem_take]
    have hi : i < columns + 1 := by
      simp [hbuf] at h1; omega
    have hib : i < buf.length := by omega
    rw [← getD_eq_of_lt buf i hib]
    rcases Nat.lt_or_ge i columns with h | h
    · rw [List.getElem_append_left (by simpa [hws] using h), List.getElem_map,
        hget i h, getD_eq_of_lt ws i (by omega)]
    · have : i = columns := by omega
      subst this
      rw [List.getElem_append_right (by simp [hws]), hnl]
      simp [hws]

theorem for_from_split {σ : Type} (body : Nat → σ → Option σ) (mid hi : Nat)
    (hmh : mid ≤ hi) :
    ∀ (k s : Nat) (st st1 : σ) (n1 n2 : Nat), s + k = mid → k < n1 → hi - s < n2 →
      for_from body mid n1 s st = some (mid, st1) →
      for_from body hi n2 s st = for_from body hi (n2 - k) mid st1 := by
  intro k
  induction k with
  | zero =>
    intro s st st1 n1 n2 hs hn1 _ h
    have : s = mid := by omega
    subst this
    obtain ⟨m, rfl⟩ : ∃ m, n1 = m + 1 := ⟨n1 - 1, by omega⟩
    rw [for_from_done _ _ _ _ _ (lt_irrefl _)] at h
    simp only [Option.some.injEq, Prod.mk.injEq, true_and] at h
    rw [h]; rfl
  | succ k ih =>
    intro s st st1 n1 n2 hs hn1 hn2 h
    obtain ⟨m1, rfl⟩ : ∃ m, n1 = m + 1 := ⟨n1 - 1, by omega⟩
    obtain ⟨m2, rfl⟩ : ∃ m, n2 = m + 1 := ⟨n2 - 1, by omega⟩
    have hlt : s < mid := by omega
    cases hb : body s st with
    | none =>
      rw [for_from, if_pos hlt, hb] at h
      exact absurd h (by simp)
    | some st2 =>
      rw [for_from_step _ _ _ _ _ _ hlt hb] at h
      rw [for_from_step _ _ _ _ _ _ (by omega) hb]
      have := ih (s + 1) st2 st1 m1 m2 (by omega) (by omega) (by omega) h
      rw [this]
      congr 1
      omega

theorem reconstruct_symbols_nil {QL W : Type}
    (choose : QL → W → Nat → Nat → quantizer_t × Nat × W) (qlist : QL) (s prev : Nat) (w : W) :
    reconstruct_symbols choose qlist [] s prev w = ([], w) := rfl

theorem reconstruct_symbols_head {QL W : Type}
    (choose : QL → W → Nat → Nat → quantizer_t × Nat × W) (qlist : QL) (data : List Nat)
    (prev : Nat) (w : W) (h : 0 < data.length) :
    reconstruct_symbols choose qlist data 0 prev w =
      ((choose qlist w 0 prev).1.q.getD (data.getD 0 0) 0 ::
        (reconstruct_symbols choose qlist (data.drop 1) 1
          ((choose qlist w 0 prev).1.q.getD (data.getD 0 0) 0) (choose qlist w 0 prev).2.2).1,
       (reconstruct_symbols choose qlist (data.drop 1) 1
          ((choose qlist w 0 prev).1.q.getD (data.getD 0 0) 0) (choose qlist w 0 prev).2.2).2) := by
  cases data with
  | nil => exact absurd h (by simp)
  | cons x xs => rfl

theorem line_round_trip {QL W F : Type} [DecidableEq F]
    (choose : QL → W → Nat → Nat → quantizer_t × Nat × W)
    (junk : F → List (F × Nat) → Nat) (upd : F → Nat → F) (clusters : Nat → QL)
    (size columns cluster_count : Nat)
    (hq : ∀ ql w s prev, output_alphabet_consistent size (choose ql w s prev).1)
    (hbyte : ∀ ql w s prev x, x < size → (choose ql w s prev).1.q.getD x 0 + 33 < 256)
    (hC : 1 ≤ columns) (line : line_t) (hlen : line.data.length = columns)
    (hcl : line.cluster < cluster_count)
    (hdata : ∀ j, j < line.data.length → line.data.getD j 0 < size)
    (e : encoder_state W F) :
    ∃ e1 its,
      encode_line choose upd clusters columns e line = some e1 ∧
      e1.as.os = e.as.os ++ its ∧
      e1.well =
        (reconstruct_symbols choose (clusters (line.cluster % 256)) line.data 0 0 e.well).2 ∧
      ∀ (d : decoder_state W F) (buf : List Nat) (rest : List (F × Nat)),
        in_step e d → d.as.os = its ++ rest → buf.length = columns + 2 →
        buf.getD columns 0 = 10 →
        ∃ buf1 d1,
          decode_line choose junk upd clusters columns cluster_count (buf, d) =
            some (buf1, d1) ∧
          in_step e1 d1 ∧ d1.as.os = rest ∧
          d1.fout = d.fout ++
            [(reconstruct_symbols choose (clusters (line.cluster % 256)) line.data 0 0
              e.well).1.map (fun v => v + 33) ++ [10]] ∧
          buf1.length = columns + 2 ∧ buf1.getD columns 0 = 10 := by
  have h0 : 0 < line.data.length := by omega
  obtain ⟨a, es, _, _, henc, hos0, hw0, hdec0⟩ :=
    symbol_round_trip choose junk upd size hq hbyte (clusters (line.cluster % 256))
      (line.cluster % 256) 0 0 (line.data.getD 0 0)
      { e with as := qv_write_cluster upd e.as (line.cluster % 256) } (hdata 0 h0)
  have hb0 := hbyte (clusters (line.cluster % 256)) e.well 0 0 (line.data.getD 0 0) (hdata 0 h0)
  generalize hv0 : (choose (clusters (line.cluster % 256)) e.well 0 0).1.q.getD
    (line.data.getD 0 0) 0 = v0 at henc hos0 hdec0 hb0
  obtain ⟨prev1, err1, e1, its, vs, hloop, hos1, hvl, hr1, hr2, hdloop⟩ :=
    columns_round_trip choose junk upd size hq hbyte (clusters (line.cluster % 256))
      (line.cluster % 256) line.data columns hdata (by omega) (columns - 1) 1 v0
      (squared_difference (line.data.getD 0 0) v0) es (by omega) columns (by omega)
  have hdropC : line.data.drop columns = [] := by
    rw [← hlen]; exact List.drop_length _
  rw [hdropC, reconstruct_symbols_nil] at hr1 hr2
  have hrec := reconstruct_symbols_head choose (clusters (line.cluster % 256)) line.data 0
    e.well h0
  rw [hv0] at hrec
  have hw0b : es.well = (choose (clusters (line.cluster % 256)) e.well 0 0).2.2 := hw0
  rw [← hw0b] at hrec
  have hrec1 : (reconstruct_symbols choose (clusters (line.cluster % 256)) line.data 0 0
      e.well).1 = v0 :: vs := by
    rw [hrec]
    show v0 :: _ = _
    rw [hr1]
    simp
  have hrec2 : (reconstruct_symbols choose (clusters (line.cluster % 256)) line.data 0 0
      e.well).2 = e1.well := by
    rw [hrec]
    exact hr2
  refine ⟨{ e1 with distortion :=
      binary64_ops.add e1.distortion (binary64_div (err1 : ℚ) (columns : ℚ)) },
    (e.as.cluster_stats, line.cluster % 256) ::
      (e.as.stats (line.cluster % 256) 0 (choose (clusters (line.cluster % 256)) e.well 0 0).2.1,
        get_symbol_index a v0) :: its, ?_, ?_, ?_, ?_⟩
  · unfold encode_line
    simp only [henc, hloop]
  · show e1.as.os = _
    rw [hos1, hos0]
    simp [qv_write_cluster, arithmetic_encoder_step]
  · exact hrec2.symm
  · intro d buf rest hsync hos hbuf hnl
    obtain ⟨h1, h2, h3, h4⟩ := hsync
    have hc : qv_read_cluster junk upd d.as =
        (line.cluster % 256, { d.as with
          os := (e.as.stats (line.cluster % 256) 0
              (choose (clusters (line.cluster % 256)) e.well 0 0).2.1,
            get_symbol_index a v0) :: (its ++ rest)
          cluster_stats := upd e.as.cluster_stats (line.cluster % 256) }) := by
      unfold qv_read_cluster
      simp only [hos, h3, arithmetic_decoder_step, List.cons_append, if_true, Nat.mod_mod]
    have hsync0 : in_step { e with as := qv_write_cluster upd e.as (line.cluster % 256) }
        { d with as := (qv_read_cluster junk upd d.as).2 } := by
      rw [hc]
      exact ⟨h1, h2, rfl, h4⟩
    obtain ⟨ds, hds, hsync1, hdos1, hfout1⟩ :=
      hdec0 { d with as := (qv_read_cluster junk upd d.as).2 } (its ++ rest) hsync0
        (by rw [hc]; rfl)
    obtain ⟨buf1, d1, hdl, hsync2, hdos2, hfout2, hlen2, hget⟩ :=
      hdloop columns (by omega) ds (buf.set 0 (v0 + 33)) rest hsync1 hdos1
        (by simp [hbuf])
    have hprev : (v0 + 33 + 256 - 33) % 256 = v0 := by omega
    have hcid : line.cluster % 256 < cluster_count :=
      lt_of_le_of_lt (Nat.mod_le _ _) hcl
    have hline : buf1.take (columns + 1) =
        (v0 :: vs).map (fun v => v + 33) ++ [10] := by
      apply take_line_eq buf1 (v0 :: vs) columns (by simpa [hbuf] using hlen2)
        (by simp [hvl]; omega)
      · intro j hj
        rw [hget j, getD_set]
        by_cases c : 1 ≤ j ∧ j < columns
        · rw [if_pos c]
          have : j = (j - 1) + 1 := by omega
          rw [this, getD_cons_succ]
          simp
        · have : j = 0 := by omega
          subst this
          rw [if_neg (by omega), if_pos ⟨rfl, by omega⟩]
          rfl
      · rw [hget columns, if_neg (by omega), getD_set_ne _ _ _ _ (by omega), hnl]
    refine ⟨buf1, { d1 with fout := d1.fout ++ [buf1.take (columns + 1)] }, ?_, ?_, ?_, ?_, ?_, ?_⟩
    · unfold decode_line
      have hc1 : (qv_read_cluster junk upd d.as).1 = line.cluster % 256 := by rw [hc]
      simp only [hc1, hcid, if_true, hds, hprev, hdl]
    · exact hsync2
    · exact hdos2
    · show d1.fout ++ _ = _
      rw [hfout2, hfout1, hline, hrec1]
    · simpa [hbuf] using hlen2
    · rw [hget columns, if_neg (by omega), getD_set_ne _ _ _ _ (by omega), hnl]

theorem drop_last_symbol (data : List Nat) (n : Nat) (h : data.length = n + 1) :
    data.drop n = [data.getD n 0] := by
  rw [List.drop_eq_getElem_cons (by omega), getD_eq_of_lt data n (by omega)]
  congr 1
  apply List.drop_eq_nil_of_le
  omega

theorem getD_append_left_nat (l1 l2 : List Nat) (i : Nat) (h : i < l1.length) :
    (l1 ++ l2).getD i 0 = l1.getD i 0 := by
  rw [List.getD_eq_getElem?_getD, List.getD_eq_getElem?_getD, List.getElem?_append_left h]

theorem getD_append_single (l1 : List Nat) (v : Nat) :
    (l1 ++ [v]).getD l1.length 0 = v := by
  rw [List.getD_eq_getElem?_getD, List.getElem?_append_right (le_refl _)]
  simp

theorem last_line_round_trip {QL W F : Type} [DecidableEq F]
    (choose : QL → W → Nat → Nat → quantizer_t × Nat × W)
    (junk : F → List (F × Nat) → Nat) (upd : F → Nat → F) (clusters : Nat → QL)
    (size columns cluster_count : Nat)
    (hq : ∀ ql w s prev, output_alphabet_consistent size (choose ql w s prev).1)
    (hbyte : ∀ ql w s prev x, x < size → (choose ql w s prev).1.q.getD x 0 + 33 < 256)
    (hC : 2 ≤ columns) (line : line_t) (hlen : line.data.length = columns)
    (hcl : line.cluster < cluster_count)
    (hdata : ∀ j, j < line.data.length → line.data.getD j 0 < size)
    (e : encoder_state W F) :
    ∃ e1 its,
      encode_line choose upd clusters columns e line = some e1 ∧
      e1.as.os = e.as.os ++ its ∧
      ∀ (d : decoder_state W F) (buf : List Nat) (rest : List (F × Nat)),
        in_step e d → d.as.os = its ++ rest → buf.length = columns + 2 →
        buf.getD columns 0 = 10 →
        ∃ buf1 d1,
          decode_last_line choose junk upd clusters columns cluster_count (buf, d) =
            some (buf1, d1) ∧
          d1.fout = d.fout ++
            [(reconstruct_symbols choose (clusters (line.cluster % 256)) line.data 0 0
              e.well).1.map (fun v => v + 33) ++ [10]] := by
  have h0 : 0 < line.data.length := by omega
  have hlast : columns - 1 < line.data.length := by omega
  obtain ⟨a, es, _, _, henc, hos0, hw0, hdec0⟩ :=
    symbol_round_trip choose junk upd size hq hbyte (clusters (line.cluster % 256))
      (line.cluster % 256) 0 0 (line.data.getD 0 0)
      { e with as := qv_write_cluster upd e.as (line.cluster % 256) } (hdata 0 h0)
  have hb0 := hbyte (clusters (line.cluster % 256)) e.well 0 0 (line.data.getD 0 0) (hdata 0 h0)
  generalize hv0 : (choose (clusters (line.cluster % 256)) e.well 0 0).1.q.getD
    (line.data.getD 0 0) 0 = v0 at henc hos0 hdec0 hb0
  obtain ⟨prev1, err1, e1, its, vs, hloop, hos1, hvl, hr1, hr2, hdloop⟩ :=
    columns_round_trip choose junk upd size hq hbyte (clusters (line.cluster % 256))
      (line.cluster % 256) line.data (columns - 1) hdata (by omega) (columns - 2) 1 v0
      (squared_difference (line.data.getD 0 0) v0) es (by omega) (columns - 1) (by omega)
  obtain ⟨a2, e2, ha2, hidx2, henc2, hos2, hw2, _⟩ :=
    symbol_round_trip choose junk upd size hq hbyte (clusters (line.cluster % 256))
      (line.cluster % 256) (columns - 1) prev1 (line.data.getD (columns - 1) 0) e1
      (hdata _ hlast)
  have hb2 := hbyte (clusters (line.cluster % 256)) e1.well (columns - 1) prev1
    (line.data.getD (columns - 1) 0) (hdata _ hlast)
  generalize hv2 : (choose (clusters (line.cluster % 256)) e1.well (columns - 1) prev1).1.q.getD
    (line.data.getD (columns - 1) 0) 0 = v2 at henc2 hos2 hidx2 hb2
  have hdropC : line.data.drop (columns - 1) = [line.data.getD (columns - 1) 0] :=
    drop_last_symbol line.data (columns - 1) (by omega)
  have hrl : (reconstruct_symbols choose (clusters (line.cluster % 256))
      (line.data.drop (columns - 1)) (columns - 1) prev1 e1.well).1 = [v2] := by
    rw [hdropC]
    simp only [reconstruct_symbols, hv2]
  rw [hrl] at hr1
  have hrec := reconstruct_symbols_head choose (clusters (line.cluster % 256)) line.data 0
    e.well h0
  rw [hv0] at hrec
  have hw0b : es.well = (choose (clusters (line.cluster % 256)) e.well 0 0).2.2 := hw0
  rw [← hw0b] at hrec
  have hrec1 : (reconstruct_symbols choose (clusters (line.cluster % 256)) line.data 0 0
      e.well).1 = v0 :: (vs ++ [v2]) := by
    rw [hrec]
    show v0 :: _ = _
    rw [hr1]
  have hfull : for_from (encode_column choose upd (clusters (line.cluster % 256))
      (line.cluster % 256) line.data) columns columns 1
      (v0, squared_difference (line.data.getD 0 0) v0, es) =
      some (columns, v2,
        (err1 + squared_difference (line.data.getD (columns - 1) 0) v2) % 4294967296, e2) := by
    rw [for_from_split _ (columns - 1) columns (by omega) (columns - 2) 1 _ _ (columns - 1)
      columns (by omega) (by omega) (by omega) hloop]
    have h2 : columns - (columns - 2) = 0 + 1 + 1 := by omega
    rw [h2]
    have hbody : encode_column choose upd (clusters (line.cluster % 256)) (line.cluster % 256)
        line.data (columns - 1) (prev1, err1, e1) =
        some (v2, (err1 + squared_difference (line.data.getD (columns - 1) 0) v2) % 4294967296,
          e2) := by
      unfold encode_column
      simp only [henc2]
    rw [for_from_step _ _ _ _ _ _ (by omega) hbody]
    have h3 : columns - 1 + 1 = columns := by omega
    rw [h3, for_from_done _ _ _ _ _ (lt_irrefl _)]
  refine ⟨{ e2 with distortion := binary64_ops.add e2.distortion (binary64_div
      (((err1 + squared_difference (line.data.getD (columns - 1) 0) v2) % 4294967296 : Nat) : ℚ)
        (columns : ℚ)) },
    (e.as.cluster_stats, line.cluster % 256) ::
      (e.as.stats (line.cluster % 256) 0 (choose (clusters (line.cluster % 256)) e.well 0 0).2.1,
        get_symbol_index a v0) :: (its ++
      [(e1.as.stats (line.cluster % 256) (columns - 1)
          (choose (clusters (line.cluster % 256)) e1.well (columns - 1) prev1).2.1,
        get_symbol_index a2 v2)]), ?_, ?_, ?_⟩
  · unfold encode_line
    simp only [henc, hfull]
  · show e2.as.os = _
    rw [hos2, hos1, hos0]
    simp [qv_write_cluster, arithmetic_encoder_step]
  · intro d buf rest hsync hos hbuf hnl
    obtain ⟨h1, h2, h3, h4⟩ := hsync
    have hc : qv_read_cluster junk upd d.as =
        (line.cluster % 256, { d.as with
          os := (e.as.stats (line.cluster % 256) 0
              (choose (clusters (line.cluster % 256)) e.well 0 0).2.1,
            get_symbol_index a v0) :: (its ++
              ((e1.as.stats (line.cluster % 256) (columns - 1)
                (choose (clusters (line.cluster % 256)) e1.well (columns - 1) prev1).2.1,
              get_symbol_index a2 v2) :: rest))
          cluster_stats := upd e.as.cluster_stats (line.cluster % 256) }) := by
      unfold qv_read_cluster
      simp only [hos, h3, arithmetic_decoder_step, List.cons_append, if_true, Nat.mod_mod,
        List.append_assoc, List.nil_append]
    have hsync0 : in_step { e with as := qv_write_cluster upd e.as (line.cluster % 256) }
        { d with as := (qv_read_cluster junk upd d.as).2 } := by
      rw [hc]
      exact ⟨h1, h2, rfl, h4⟩
    obtain ⟨ds, hds, hsync1, hdos1, hfout1⟩ :=
      hdec0 { d with as := (qv_read_cluster junk upd d.as).2 } _ hsync0
        (by rw [hc]; rfl)
    obtain ⟨buf1, d1, hdl, hsync2, hdos2, hfout2, hlen2, hget⟩ :=
      hdloop (columns - 1) (by omega) ds (buf.set 0 (v0 + 33)) _ hsync1 hdos1
        (by simp [hbuf]; omega)
    obtain ⟨g1, g2, _, _⟩ := hsync2
    have hprev : (v0 + 33 + 256 - 33) % 256 = v0 := by omega
    have hcid : line.cluster % 256 < cluster_count :=
      lt_of_le_of_lt (Nat.mod_le _ _) hcl
    have hlst : decoder_last_step junk (d1.as.stats (line.cluster % 256) (columns - 1)
        (choose (clusters (line.cluster % 256)) e1.well (columns - 1) prev1).2.1) d1.as.os =
        get_symbol_index a2 v2 := by
      rw [hdos2, g2]
      simp only [decoder_last_step, if_true]
    have hline : (buf1.set (columns - 1) (v2 + 33)).take (columns + 1) =
        (v0 :: (vs ++ [v2])).map (fun v => v + 33) ++ [10] := by
      apply take_line_eq _ (v0 :: (vs ++ [v2])) columns
        (by simp [hbuf, hlen2]) (by simp [hvl]; omega)
      · intro j hj
        rw [getD_set]
        by_cases c0 : columns - 1 = j
        · rw [if_pos ⟨c0, by rw [hlen2]; simp [hbuf]; omega⟩]
          have : j = (vs ++ [v2]).length := by simp [hvl]; omega
          have e2 : (v0 :: (vs ++ [v2])).getD j 0 = (vs ++ [v2]).getD (j - 1) 0 := by
            have : j = (j - 1) + 1 := by omega
            rw [this, getD_cons_succ]; simp
          rw [e2]
          have : j - 1 = vs.length := by omega
          rw [this, getD_append_single]
        · rw [if_neg (fun hh => c0 hh.1), hget j, getD_set]
          by_cases c : 1 ≤ j ∧ j < columns - 1
          · rw [if_pos c]
            have : j = (j - 1) + 1 := by omega
            rw [this, getD_cons_succ]
            simp only [Nat.add_sub_cancel]
            rw [getD_append_left_nat _ _ _ (by omega)]
          · have : j = 0 := by omega
            subst this
            rw [if_neg (by omega), if_pos ⟨rfl, by omega⟩]
            rfl
      · rw [getD_set_ne _ _ _ _ (by omega), hget columns, if_neg (by omega),
          getD_set_ne _ _ _ _ (by omega), hnl]
    refine ⟨buf1.set (columns - 1) (v2 + 33), { d1 with
        well := (choose (clusters (line.cluster % 256)) d1.well (columns - 1) prev1).2.2
        calls := d1.calls ++ [(columns - 1, prev1)]
        steps := d1.steps ++ [(true, line.cluster % 256, columns - 1,
          (choose (clusters (line.cluster % 256)) d1.well (columns - 1) prev1).2.1)]
        fout := d1.fout ++ [(buf1.set (columns - 1) (v2 + 33)).take (columns + 1)] },
      ?_, ?_⟩
    · unfold decode_last_line
      have hc1 : (qv_read_cluster junk upd d.as).1 = line.cluster % 256 := by rw [hc]
      simp only [hc1, hcid, if_true, hds, hprev, hdl, g1, ha2, hlst, hidx2,
        Nat.mod_eq_of_lt hb2]
    · show d1.fout ++ _ = _
      rw [hfout2, hfout1, hline, hrec1]

theorem encode_lines_append {QL W F : Type}
    (choose : QL → W → Nat → Nat → quantizer_t × Nat × W)
    (upd : F → Nat → F) (clusters : Nat → QL) (columns : Nat) :
    ∀ (l1 l2 : List line_t) (e e1 : encoder_state W F),
      encode_lines choose upd clusters columns l1 e = some e1 →
      encode_lines choose upd clusters columns (l1 ++ l2) e =
        encode_lines choose upd clusters columns l2 e1 := by
  intro l1
  induction l1 with
  | nil =>
    intro l2 e e1 h
    simp only [encode_lines, Option.some.injEq] at h
    rw [List.nil_append, h]
  | cons l ls ih =>
    intro l2 e e1 h
    rw [List.cons_append]
    simp only [encode_lines] at h ⊢
    cases hl : encode_line choose upd clusters columns e l with
    | none => rw [hl] at h; exact absurd h (by simp)
    | some e2 =>
      rw [hl] at h
      simp only at h ⊢
      exact ih l2 e2 e1 h

theorem lines_round_trip {QL W F : Type} [DecidableEq F]
    (choose : QL → W → Nat → Nat → quantizer_t × Nat × W)
    (junk : F → List (F × Nat) → Nat) (upd : F → Nat → F) (clusters : Nat → QL)
    (size columns cluster_count : Nat)
    (hq : ∀ ql w s prev, output_alphabet_consistent size (choose ql w s prev).1)
    (hbyte : ∀ ql w s prev x, x < size → (choose ql w s prev).1.q.getD x 0 + 33 < 256)
    (hC : 1 ≤ columns) :
    ∀ (ls : List line_t),
      (∀ l, l ∈ ls → l.data.length = columns ∧ l.cluster < cluster_count ∧
        ∀ j, j < l.data.length → l.data.getD j 0 < size) →
      ∀ (e : encoder_state W F),
      ∃ e1 its,
        encode_lines choose upd clusters columns ls e = some e1 ∧
        e1.as.os = e.as.os ++ its ∧
        (∀ more, reconstructed_text choose clusters (ls ++ more) e.well =
          reconstructed_text choose clusters ls e.well ++
            reconstructed_text choose clusters more e1.well) ∧
        ∀ (d : decoder_state W F) (buf : List Nat) (rest : List (F × Nat)),
          in_step e d → d.as.os = its ++ rest → buf.length = columns + 2 →
          buf.getD columns 0 = 10 →
          ∃ buf1 d1,
            decode_lines choose junk upd clusters columns cluster_count ls.length (buf, d) =
              some (buf1, d1) ∧
            in_step e1 d1 ∧ d1.as.os = rest ∧
            d1.fout = d.fout ++ reconstructed_text choose clusters ls e.well ∧
            buf1.length = columns + 2 ∧ buf1.getD columns 0 = 10 := by
  intro ls
  induction ls with
  | nil =>
    intro _ e
    refine ⟨e, [], rfl, by simp, fun more => rfl, ?_⟩
    intro d buf rest hsync hos hbuf hnl
    exact ⟨buf, d, rfl, hsync, by simpa using hos, by simp [reconstructed_text], hbuf, hnl⟩
  | cons l ls ih =>
    intro hall e
    obtain ⟨hl1, hl2, hl3⟩ := hall l (List.mem_cons_self _ _)
    obtain ⟨el, itl, hencl, hosl, hwl, hdecl⟩ :=
      line_round_trip choose junk upd clusters size columns cluster_count hq hbyte hC l hl1
        hl2 hl3 e
    obtain ⟨e1, its, henc, hos, htext, hdec⟩ :=
      ih (fun l0 h0 => hall l0 (List.mem_cons_of_mem _ h0)) el
    refine ⟨e1, itl ++ its, ?_, ?_, ?_, ?_⟩
    · simp only [encode_lines, hencl]
      exact henc
    · rw [hos, hosl, List.append_assoc]
    · intro more
      rw [List.cons_append]
      simp only [reconstructed_text]
      rw [← hwl, htext more]
      rfl
    · intro d buf rest hsync hdos hbuf hnl
      obtain ⟨buf1, d1, hd1, hs1, ho1, hf1, hb1, hn1⟩ :=
        hdecl d buf (its ++ rest) hsync (by rw [hdos, List.append_assoc]) hbuf hnl
      obtain ⟨buf2, d2, hd2, hs2, ho2, hf2, hb2, hn2⟩ := hdec d1 buf1 rest hs1 ho1 hb1 hn1
      refine ⟨buf2, d2, ?_, hs2, ho2, ?_, hb2, hn2⟩
      · simp only [List.length_cons, decode_lines, hd1]
        exact hd2
      · rw [hf2, hf1, List.append_assoc]
        simp only [reconstructed_text]
        rw [← hwl]
        rfl

theorem reconstruct_symbols_length {QL W : Type}
    (choose : QL → W → Nat → Nat → quantizer_t × Nat × W) (qlist : QL) :
    ∀ (data : List Nat) (s prev : Nat) (w : W),
      (reconstruct_symbols choose qlist data s prev w).1.length = data.length := by
  intro data
  induction data with
  | nil => intro s prev w; rfl
  | cons x xs ih =>
    intro s prev w
    simp only [reconstruct_symbols, List.length_cons]
    rw [ih]

theorem reconstructed_text_shape {QL W : Type}
    (choose : QL → W → Nat → Nat → quantizer_t × Nat × W) (clusters : Nat → QL)
    (columns : Nat) :
    ∀ (lines : List line_t) (w : W), (∀ l, l ∈ lines → l.data.length = columns) →
      (reconstructed_text choose clusters lines w).length = lines.length ∧
      ∀ t, t ∈ reconstructed_text choose clusters lines w →
        t.length = columns + 1 ∧ t.getD columns 0 = 10 := by
  intro lines
  induction lines with
  | nil => intro w _; exact ⟨rfl, fun t ht => by simp [reconstructed_text] at ht⟩
  | cons l ls ih =>
    intro w hall
    have hl := hall l (List.mem_cons_self _ _)
    obtain ⟨h1, h2⟩ := ih (reconstruct_symbols choose (clusters (l.cluster % 256)) l.data 0 0 w).2
      (fun l0 h0 => hall l0 (List.mem_cons_of_mem _ h0))
    refine ⟨by simp only [reconstructed_text, List.length_cons, h1], ?_⟩
    intro t ht
    simp only [reconstructed_text, List.mem_cons] at ht
    rcases ht with ht | ht
    · have hlen : (List.map (fun v => v + 33)
          (reconstruct_symbols choose (clusters (l.cluster % 256)) l.data 0 0 w).1).length =
          columns := by
        rw [List.length_map, reconstruct_symbols_length, hl]
      subst ht
      refine ⟨by rw [List.length_append, hlen]; rfl, ?_⟩
      have := getD_append_single (List.map (fun v => v + 33)
        (reconstruct_symbols choose (clusters (l.cluster % 256)) l.data 0 0 w).1) 10
      rw [hlen] at this
      exact this
    · exact h2 t ht

/-- C1: round trip of the driver.  For a file of `L ≥ 1` lines of `C ≥ 2` columns whose cluster
ids are below `cluster_count` and whose symbols are below `size`, quantizers whose output
alphabet is the set of their map values and whose values `q[x] + 33` fit a byte, and a lossless
coder, `start_qv_decompression` applied to the stream of `start_qv_compression` writes exactly
the reconstructed text: `L` lines, each of `C` bytes `q_s[x_s] + 33` followed by the newline,
where `q_s` is the quantizer chosen by the encoder for that position. -/
theorem driver_round_trip {QL W F : Type} [DecidableEq F]
    (choose : QL → W → Nat → Nat → quantizer_t × Nat × W)
    (junk : F → List (F × Nat) → Nat) (upd : F → Nat → F) (clusters : Nat → QL)
    (size columns cluster_count : Nat) (well : W) (stats : Nat → Nat → Nat → F)
    (cluster_stats : F) (lines : List line_t)
    (hL : 1 ≤ lines.length) (hC : 2 ≤ columns)
    (hlen : ∀ l, l ∈ lines → l.data.length = columns)
    (hcl : ∀ l, l ∈ lines → l.cluster < cluster_count)
    (hsym : ∀ l, l ∈ lines → ∀ x, x ∈ l.data → x < size)
    (hq : ∀ ql w s prev, output_alphabet_consistent size (choose ql w s prev).1)
    (hbyte : ∀ ql w s prev x, x < size → (choose ql w s prev).1.q.getD x 0 + 33 < 256) :
    ∃ enc dis dec,
      start_qv_compression choose upd clusters columns well stats cluster_stats lines =
        some (enc, dis) ∧
      start_qv_decompression choose junk upd clusters lines.length columns cluster_count well
        stats cluster_stats enc.as.os = some dec ∧
      dec.fout = reconstructed_text choose clusters lines well ∧
      dec.fout.length = lines.length ∧
      ∀ t, t ∈ dec.fout → t.length = columns + 1 ∧ t.getD columns 0 = 10 := by
  have hne : lines ≠ [] := by
    intro h; rw [h] at hL; simp at hL
  have hwf : ∀ l, l ∈ lines → l.data.length = columns ∧ l.cluster < cluster_count ∧
      ∀ j, j < l.data.length → l.data.getD j 0 < size := by
    intro l hl
    refine ⟨hlen l hl, hcl l hl, ?_⟩
    intro j hj
    rw [getD_eq_of_lt _ _ hj]
    exact hsym l hl _ (List.getElem_mem _)
  obtain ⟨pre, last, hsplit⟩ : ∃ pre last, lines = pre ++ [last] :=
    ⟨lines.dropLast, lines.getLast hne, (List.dropLast_append_getLast hne).symm⟩
  have hlast : last ∈ lines := by rw [hsplit]; simp
  obtain ⟨e1, its, henc1, hos1, htext, hdec1⟩ :=
    lines_round_trip choose junk upd clusters size columns cluster_count hq hbyte (by omega) pre
      (fun l hl => hwf l (by rw [hsplit]; simp [hl]))
      ⟨well, ⟨stats, cluster_stats, []⟩, 0, []⟩
  obtain ⟨hw1, hw2, hw3⟩ := hwf last hlast
  obtain ⟨e2, its2, henc2, hos2, hdec2⟩ :=
    last_line_round_trip choose junk upd clusters size columns cluster_count hq hbyte hC last
      hw1 hw2 hw3 e1
  have hencall : encode_lines choose upd clusters columns lines
      ⟨well, ⟨stats, cluster_stats, []⟩, 0, []⟩ = some e2 := by
    rw [hsplit, encode_lines_append choose upd clusters columns pre [last] _ e1 henc1]
    simp only [encode_lines, henc2]
  have hstream : e2.as.os = its ++ (its2 ++ []) := by
    rw [hos2, hos1]; simp
  have hbuf0 : (((List.replicate (columns + 2) 0).set columns 10).set (columns + 1) 0).length =
      columns + 2 := by simp
  have hnl0 : (((List.replicate (columns + 2) 0).set columns 10).set (columns + 1) 0).getD
      columns 0 = 10 := by
    rw [getD_set_ne _ _ _ _ (by omega), getD_set_eq _ _ _ (by simp)]
  obtain ⟨buf1, d1, hd1, hs1, ho1, hf1, hb1, hn1⟩ :=
    hdec1 ⟨well, ⟨stats, cluster_stats, e2.as.os⟩, [], [], []⟩ _ (its2 ++ [])
      ⟨rfl, rfl, rfl, rfl⟩ hstream hbuf0 hnl0
  obtain ⟨buf2, d2, hd2, hf2⟩ := hdec2 d1 buf1 [] hs1 ho1 hb1 hn1
  have hprelen : lines.length - 1 = pre.length := by
    rw [hsplit]; simp
  have hfout : d2.fout = reconstructed_text choose clusters lines well := by
    rw [hf2, hf1, hsplit, htext [last]]
    simp only [reconstructed_text, List.nil_append]
  obtain ⟨hsh1, hsh2⟩ := reconstructed_text_shape choose clusters columns lines well hlen
  refine ⟨e2, binary64_div e2.distortion (round_binary64 (lines.length : ℚ)), d2, ?_, ?_,
    hfout, ?_, ?_⟩
  · unfold start_qv_compression
    cases hlines : lines with
    | nil => exact absurd hlines hne
    | cons l0 ls0 =>
      simp only
      rw [← hlines, hencall]
  · unfold start_qv_decompression
    simp only [hprelen, hd1, hd2]
  · rw [hfout]; exact hsh1
  · intro t ht
    rw [hfout] at ht
    exact hsh2 t ht

/-! ## Evaluations on concrete inputs -/

/-- C7: on the table `table_with_tie` and the PMF `pmf_five`, with four states, the design loop
ends with the bounds `0, 3, 2, 3, 5`; the returned map is `0, 0, 2, 3, 3`, the value written to
`dist_out` is `3/8`, and the expected distortion of the returned map is `1/8`: symbol 2 is
counted in region 0 and again in region 2. -/
theorem reported_distortion_counts_symbol_twice :
    (generate_quantizer exact_ops pmf_five table_with_tie 256 25 alphabet_five 4).1.q =
      [0, 0, 2, 3, 3] ∧
    (generate_quantizer exact_ops pmf_five table_with_tie 256 25 alphabet_five 4).2 = 3 / 8 ∧
    ∑ i in Finset.range 5, pmf_five i * table_with_tie i
      ((generate_quantizer exact_ops pmf_five table_with_tie 256 25 alphabet_five 4).1.q.getD i 0)
      = 1 / 8 := by
  decide!

/-- C8: the quantizer returned by `generate_quantizer` has a null output alphabet, whatever
the inputs: nothing is stored in it after `alloc_quantizer`. -/
theorem generate_quantizer_output_alphabet_null {V : Type} (A : double_ops V) (p : Nat → V) (d : Nat → Nat → V)
    (M max_iter : Nat) (alphabet : alphabet_t) (states : Nat) :
    (generate_quantizer A p d M max_iter alphabet states).1.output_alphabet = none := rfl

/-- C10: for the identity quantizer on two symbols and the input weights `1/4, 3/4`, the weight
of symbol 1 in the output of `apply_quantizer` is `0`, while the input weights of the symbols
that map to 1 sum to `3/4`. -/
theorem apply_quantizer_weight_zero :
    (apply_quantizer exact_ops identity_two ⟨alphabet_two, [1 / 4, 3 / 4], true⟩
      ⟨alphabet_two, [0, 0], false⟩).pmf.getD 1 0 = 0 ∧
    ∑ i in (Finset.range 2).filter (fun i => identity_two.q.getD i 0 = 1),
      ([1 / 4, 3 / 4] : List ℚ).getD i 0 = 3 / 4 := by
  decide!

theorem choose_identity_consistent (ql : Unit) (w s prev : Nat) :
    output_alphabet_consistent 2 (choose_identity ql w s prev).1 := by
  refine ⟨alphabet_two, rfl, by decide, ?_⟩
  intro v
  constructor
  · intro hv
    have : v = 0 ∨ v = 1 := by simpa [alphabet_two] using hv
    rcases this with rfl | rfl
    · exact ⟨0, by decide, rfl⟩
    · exact ⟨1, by decide, rfl⟩
  · rintro ⟨x, hx, rfl⟩
    interval_cases x
    · show identity_two.q.getD 0 0 ∈ alphabet_two.symbols
      decide
    · show identity_two.q.getD 1 0 ∈ alphabet_two.symbols
      decide

theorem choose_identity_byte (ql : Unit) (w s prev x : Nat) (hx : x < 2) :
    (choose_identity ql w s prev).1.q.getD x 0 + 33 < 256 := by
  show identity_two.q.getD x 0 + 33 < 256
  interval_cases x <;> decide

/-- C2: for the file of one line with the one column `1`, the encoder calls `choose_quantizer`
once, with `(column, context) = (0, 0)`, and codes two symbols; on that stream the decoder calls
it twice, the second time with column `1` and context `1`, whatever the coder returns where
nothing is known. -/
theorem decoder_calls_one_column (junk : Nat → List (Nat × Nat) → Nat) :
    (start_qv_compression choose_identity count_stats (fun _ => ()) 1 0 (fun _ _ _ => 0) 0
      [⟨0, [1]⟩]).map (fun r => (r.1.as.os, r.1.calls)) = some ([(0, 0), (0, 1)], [(0, 0)]) ∧
    (start_qv_decompression choose_identity junk count_stats (fun _ => ()) 1 1 1 0
      (fun _ _ _ => 0) 0 [(0, 0), (0, 1)]).map (fun r => r.calls) =
      some [(0, 0), (1, 1)] := by
  refine ⟨by decide, ?_⟩
  simp [start_qv_decompression, decode_lines, decode_last_line, qv_read_cluster,
    arithmetic_decoder_step, decode_symbol, decompress_qv, choose_identity, identity_two,
    alphabet_two, for_from, set_stats, count_stats]

/-- C3: for the stream of the file of one line with the one column `1`, the decoder decodes
column 0 with the ordinary step and then applies `decoder_last_step` under the frequency model
of column `1`, which is not a column of the file. -/
theorem decoder_steps_one_column (junk : Nat → List (Nat × Nat) → Nat) :
    (start_qv_decompression choose_identity junk count_stats (fun _ => ()) 1 1 1 0
      (fun _ _ _ => 0) 0 [(0, 0), (0, 1)]).map (fun r => r.steps) =
      some [(false, 0, 0, 0), (true, 0, 1, 1)] := by
  simp [start_qv_decompression, decode_lines, decode_last_line, qv_read_cluster,
    arithmetic_decoder_step, decode_symbol, decompress_qv, choose_identity, identity_two,
    alphabet_two, for_from, set_stats, count_stats]

theorem driver_round_trip_witness :
    ∃ enc dis dec,
      start_qv_compression choose_identity count_stats (fun _ => ()) 2 0 (fun _ _ _ => 0) 0
        [⟨0, [1, 0]⟩, ⟨0, [0, 0]⟩] = some (enc, dis) ∧
      start_qv_decompression choose_identity (fun _ _ => 0) count_stats (fun _ => ())
        [(⟨0, [1, 0]⟩ : line_t), ⟨0, [0, 0]⟩].length 2 1 0 (fun _ _ _ => 0) 0 enc.as.os =
        some dec ∧
      dec.fout = reconstructed_text choose_identity (fun _ => ())
        [⟨0, [1, 0]⟩, ⟨0, [0, 0]⟩] 0 ∧
      dec.fout.length = [(⟨0, [1, 0]⟩ : line_t), ⟨0, [0, 0]⟩].length ∧
      ∀ t, t ∈ dec.fout → t.length = 2 + 1 ∧ t.getD 2 0 = 10 :=
  driver_round_trip choose_identity (fun _ _ => 0) count_stats (fun _ => ()) 2 2 1 0
    (fun _ _ _ => 0) 0 [⟨0, [1, 0]⟩, ⟨0, [0, 0]⟩] (by decide) (by decide)
    (by intro l hl; simp at hl; rcases hl with rfl | rfl <;> rfl)
    (by intro l hl; simp at hl; rcases hl with rfl | rfl <;> decide)
    (by intro l hl x hx; simp at hl; rcases hl with rfl | rfl <;> simp at hx <;> omega)
    choose_identity_consistent choose_identity_byte

theorem generate_quantizer_at_most_states_values_witness :
    1 ≤ alphabet_five.size ∧ alphabet_five.size < 256 ∧ 1 ≤ 3 ∧ 3 ≤ alphabet_five.size ∧
    (Finset.image
      (fun i => (generate_quantizer exact_ops pmf_two_symbols squared_error 256 25
        alphabet_five 3).1.q.getD i 0)
      (Finset.range alphabet_five.size)).card ≤ 3 :=
  ⟨by decide, by decide, by decide, by decide,
    generate_quantizer_at_most_states_values exact_ops pmf_two_symbols squared_error 256 25
      alphabet_five 3 (by decide) (by decide) (by decide) (by decide)⟩

theorem full_resolution_distortion_le_witness :
    (generate_quantizer exact_ops pmf_two_symbols squared_error 256 25 alphabet_five
      alphabet_five.size).2 = 0 ∧
    (generate_quantizer exact_ops pmf_two_symbols squared_error 256 25 alphabet_five
      alphabet_five.size).2 ≤
      (generate_quantizer exact_ops pmf_two_symbols squared_error 256 25 alphabet_five 2).2 :=
  full_resolution_distortion_le pmf_two_symbols squared_error 256 25 alphabet_five 2
    (by decide) (by decide) (by decide) (by decide)
    (by decide!)
    (fun i j _ _ => sq_nonneg _)
    (fun i _ => by simp [squared_error])
    (fun i j _ _ hij => by
      unfold squared_error
      have : (i : ℚ) - (j : ℚ) ≠ 0 := by
        intro h
        apply hij
        exact_mod_cast sub_eq_zero.mp h
      positivity)

theorem generate_quantizer_range_safety_witness :
    (∀ k n m : Nat,
      access_ok alphabet_five.size 3
        (design_loop exact_ops pmf_two_symbols squared_error 256 alphabet_five.size 3 k
          (initial_state 256 alphabet_five.size 3)) ∧
      (n ≤ 3 → access_ok alphabet_five.size 3
        (for_range 0 n (reconstruction_body exact_ops pmf_two_symbols squared_error 256)
          { design_loop exact_ops pmf_two_symbols squared_error 256 alphabet_five.size 3 k
              (initial_state 256 alphabet_five.size 3) with changed := false })) ∧
      access_ok alphabet_five.size 3
        { adjust_reconstruction exact_ops pmf_two_symbols squared_error 256 3
            { design_loop exact_ops pmf_two_symbols squared_error 256 alphabet_five.size 3 k
                (initial_state 256 alphabet_five.size 3) with changed := false } with
          bounds := adjust_bounds_loop exact_ops squared_error 256 alphabet_five.size 3
            (adjust_reconstruction exact_ops pmf_two_symbols squared_error 256 3
              { design_loop exact_ops pmf_two_symbols squared_error 256 alphabet_five.size 3 k
                  (initial_state 256 alphabet_five.size 3) with
                changed := false }).reconstruction
            m 1 0
            (adjust_reconstruction exact_ops pmf_two_symbols squared_error 256 3
              { design_loop exact_ops pmf_two_symbols squared_error 256 alphabet_five.size 3 k
                  (initial_state 256 alphabet_five.size 3) with changed := false }).bounds }) ∧
    (∀ i, i < alphabet_five.size →
      (generate_quantizer exact_ops pmf_two_symbols squared_error 256 25 alphabet_five
        3).1.q.getD i 0 < alphabet_five.size) :=
  generate_quantizer_range_safety exact_ops pmf_two_symbols squared_error 256 25 alphabet_five 3
    (by decide) (by decide) (by decide) (by decide)

/-! ## The codebook line codec and the state encoding -/

theorem fill_fun_spec (l : List Nat) (lo hi : Nat) (f : Nat → Nat) :
    (for_range lo hi (fun i q => q.set i (f i)) l).length = l.length ∧
    ∀ i, (for_range lo hi (fun i q => q.set i (f i)) l).getD i 0 =
      if lo ≤ i ∧ i < hi ∧ i < l.length then f i else l.getD i 0 := by
  rcases Nat.lt_or_ge lo hi with h | h
  · exact for_range_induct
      (fun k (q1 : List Nat) => q1.length = l.length ∧
        ∀ i, q1.getD i 0 = if lo ≤ i ∧ i < k ∧ i < l.length then f i else l.getD i 0)
      lo hi (fun i q => q.set i (f i)) l (le_of_lt h)
      ⟨rfl, fun i => by rw [if_neg]; omega⟩
      (by
        rintro k q1 hk1 hk2 ⟨hl, hq⟩
        refine ⟨by simpa using hl, ?_⟩
        intro i
        rw [getD_set, hq i, hl]
        by_cases e : k = i
        · subst e
          by_cases hlen : k < l.length
          · rw [if_pos ⟨rfl, hlen⟩, if_pos ⟨hk1, by omega, hlen⟩]
          · rw [if_neg (fun hh => hlen hh.2), if_neg (fun hh => hlen hh.2.2),
              if_neg (fun hh => hlen hh.2.2)]
        · rw [if_neg (fun hh => e hh.1)]
          by_cases c : lo ≤ i ∧ i < k ∧ i < l.length
          · rw [if_pos c, if_pos ⟨c.1, by omega, c.2.2⟩]
          · rw [if_neg c, if_neg]
            intro hh; apply c; exact ⟨hh.1, by omega, hh.2.2⟩)
  · rw [for_range_empty _ _ _ _ h]
    refine ⟨rfl, fun i => ?_⟩
    rw [if_neg]; omega

theorem list_eq_of_getD (l1 l2 : List Nat) (hlen : l1.length = l2.length)
    (h : ∀ i, i < l1.length → l1.getD i 0 = l2.getD i 0) : l1 = l2 := by
  apply List.ext_getElem hlen
  intro i h1 h2
  rw [← getD_eq_of_lt l1 i h1, ← getD_eq_of_lt l2 i h2]
  exact h i h1

/-- C11: for a map `q` of length `size` whose entries are at most 93 (and are values of
`symbol_t`), a line buffer of at least `size` bytes and a target array of length `size`,
`COPY_Q_FROM_LINE` applied to the line written by `COPY_Q_TO_LINE` gives `q` back, and byte
`i < size` of that line is `q[i] + 33`, which lies in `33..126` and so is neither NUL nor the
newline. -/
theorem copy_q_line_round_trip (M : Nat) (q line q0 : List Nat) (size : Nat)
    (hq : q.length = size) (hline : size ≤ line.length) (hq0 : q0.length = size)
    (h93 : ∀ i, i < size → q.getD i 0 ≤ 93) (hM : ∀ i, i < size → q.getD i 0 < M) :
    COPY_Q_FROM_LINE M (COPY_Q_TO_LINE line q size) q0 size = q ∧
    ∀ i, i < size →
      (COPY_Q_TO_LINE line q size).getD i 0 = q.getD i 0 + 33 ∧
      33 ≤ (COPY_Q_TO_LINE line q size).getD i 0 ∧
      (COPY_Q_TO_LINE line q size).getD i 0 ≤ 126 ∧
      (COPY_Q_TO_LINE line q size).getD i 0 ≠ 0 ∧
      (COPY_Q_TO_LINE line q size).getD i 0 ≠ 10 := by
  obtain ⟨_, hto⟩ := fill_fun_spec line 0 size (fun i => (q.getD i 0 + 33) % 256)
  have hbyte : ∀ i, i < size → (COPY_Q_TO_LINE line q size).getD i 0 = q.getD i 0 + 33 := by
    intro i hi
    unfold COPY_Q_TO_LINE
    rw [hto i, if_pos ⟨Nat.zero_le _, hi, by omega⟩]
    have := h93 i hi
    exact Nat.mod_eq_of_lt (by omega)
  refine ⟨?_, ?_⟩
  · obtain ⟨hlen, hfrom⟩ := fill_fun_spec q0 0 size
      (fun i => ((COPY_Q_TO_LINE line q size).getD i 0 + 33 * M - 33) % M)
    unfold COPY_Q_FROM_LINE
    apply list_eq_of_getD _ _ (by rw [hlen, hq0, hq])
    intro i hi
    rw [hlen, hq0] at hi
    rw [hfrom i, if_pos ⟨Nat.zero_le _, hi, by omega⟩, hbyte i hi]
    have e : q.getD i 0 + 33 + 33 * M - 33 = q.getD i 0 + 33 * M := by omega
    rw [e, Nat.add_mul_mod_self_right]
    exact Nat.mod_eq_of_lt (hM i hi)
  · intro i hi
    have := h93 i hi
    rw [hbyte i hi]
    refine ⟨rfl, by omega, by omega, by omega, by omega⟩

/-- C12: for a quantizer whose output alphabet is the duplicate-free list of its map values and
an input symbol `x < N`, `find_state_encoding` does not fail on `q[x]`; the index it returns is
the one `get_symbol_index` returns, is below the number of symbols of the output alphabet, and
the symbol of the output alphabet at that index is `q[x]`. -/
theorem state_encoding_found (size : Nat) (q : quantizer_t) (x : Nat)
    (hq : output_alphabet_consistent size q) (hx : x < size) :
    ∃ a k, q.output_alphabet = some a ∧
      find_state_encoding q (q.q.getD x 0) = some k ∧
      k = get_symbol_index a (q.q.getD x 0) ∧
      k < a.symbols.length ∧ a.symbols.getD k 0 = q.q.getD x 0 := by
  obtain ⟨a, ha, _, hmem⟩ := hq
  have hin : q.q.getD x 0 ∈ a.symbols := (hmem _).2 ⟨x, hx, rfl⟩
  refine ⟨a, get_symbol_index a (q.q.getD x 0), ha, ?_, rfl, ?_, ?_⟩
  · unfold find_state_encoding
    rw [ha]
    simp only [hin, if_true]
  · exact List.indexOf_lt_length.mpr hin
  · exact getD_indexOf_of_mem _ _ hin

/-! ## The two steps of a design pass -/

theorem adjust_reconstruction_spec {V : Type} (A : double_ops V) (p : Nat → V)
    (d : Nat → Nat → V) (M states : Nat) (st : design_state)
    (hlen : st.reconstruction.length = states)
    (hmod : ∀ j, j < states →
      (min_search A p d (st.bounds.getD j 0) (st.bounds.getD (j + 1) 0)).1 < M) :
    (adjust_reconstruction A p d M states st).bounds = st.bounds ∧
    (adjust_reconstruction A p d M states st).reconstruction.length = states ∧
    (∀ j, j < states →
      (adjust_reconstruction A p d M states st).reconstruction.getD j 0 =
        (min_search A p d (st.bounds.getD j 0) (st.bounds.getD (j + 1) 0)).1) ∧
    ((adjust_reconstruction A p d M states st).changed = true ↔
      (st.changed = true ∨ ∃ j, j < states ∧
        (min_search A p d (st.bounds.getD j 0) (st.bounds.getD (j + 1) 0)).1 ≠
          st.reconstruction.getD j 0)) := by
  have key := for_range_induct
    (fun n (s1 : design_state) =>
      s1.bounds = st.bounds ∧ s1.reconstruction.length = states ∧
      (∀ j, j < n → s1.reconstruction.getD j 0 =
        (min_search A p d (st.bounds.getD j 0) (st.bounds.getD (j + 1) 0)).1) ∧
      (∀ j, n ≤ j → s1.reconstruction.getD j 0 = st.reconstruction.getD j 0) ∧
      (s1.changed = true ↔ (st.changed = true ∨ ∃ j, j < n ∧
        (min_search A p d (st.bounds.getD j 0) (st.bounds.getD (j + 1) 0)).1 ≠
          st.reconstruction.getD j 0)))
    0 states (reconstruction_body A p d M) st (Nat.zero_le _)
    ⟨rfl, hlen, fun j hj => absurd hj (Nat.not_lt_zero _), fun j _ => rfl,
      ⟨fun h => Or.inl h, fun h => h.elim id (fun ⟨j, hj, _⟩ => absurd hj (Nat.not_lt_zero _))⟩⟩
    (by
      rintro n s1 _ hn ⟨hb, hl, hdone, hrest, hch⟩
      unfold reconstruction_body
      dsimp only
      rw [hb, hrest n (le_refl _)]
      split
      · rename_i hne
        refine ⟨rfl, by simpa using hl, ?_, ?_, ?_⟩
        · intro j hj
          dsimp only
          rw [getD_set]
          by_cases e : n = j
          · subst e
            rw [if_pos ⟨rfl, by omega⟩, Nat.mod_eq_of_lt (hmod n hn)]
          · rw [if_neg (fun hh => e hh.1)]
            exact hdone j (by omega)
        · intro j hj
          dsimp only
          rw [getD_set_ne _ _ _ _ (by omega)]
          exact hrest j (by omega)
        · dsimp only
          constructor
          · intro _
            exact Or.inr ⟨n, by omega, hne⟩
          · intro _; rfl
      · rename_i heq
        have heq2 : (min_search A p d (st.bounds.getD n 0) (st.bounds.getD (n + 1) 0)).1 =
            st.reconstruction.getD n 0 := by
          by_contra hc; exact heq hc
        refine ⟨by first | rfl | exact hb, hl, ?_, ?_, ?_⟩
        · intro j hj
          rcases Nat.lt_or_ge j n with h | h
          · exact hdone j h
          · have : j = n := by omega
            rw [this, hrest n (le_refl _), heq2]
        · intro j hj
          exact hrest j (by omega)
        · rw [hch]
          constructor
          · rintro (h | ⟨j, hj, hne⟩)
            · exact Or.inl h
            · exact Or.inr ⟨j, by omega, hne⟩
          · rintro (h | ⟨j, hj, hne⟩)
            · exact Or.inl h
            · rcases Nat.lt_or_ge j n with h2 | h2
              · exact Or.inr ⟨j, h2, hne⟩
              · have : j = n := by omega
                rw [this] at hne
                exact absurd heq2 hne)
  unfold adjust_reconstruction
  obtain ⟨h1, h2, h3, _, h5⟩ := key
  exact ⟨h1, h2, h3, h5⟩

/-- C13 (amended): at the entry `st` of any pass of the design loop (alphabet of size `N ≥ 1`
that fits `symbol_t`, `S ≥ 1`), for every arithmetic of `double` whose `<` is a strict weak
order, the reconstruction update gives, for every region `j` that is not empty and has a
candidate whose computed cost is below `DBL_MAX`, a point inside the region that is the
smallest minimiser of the cost as the code computes it (`region_mse`, the sum of the products
`pmf[i] * d(i, r)` accumulated in the order of `i` in the arithmetic of the carrier): no
candidate of the region has a smaller computed cost and every candidate of the region below
the point has a larger one; and `changed` is set after the update if and only if the
reconstruction point of some region differs from its previous value. -/
theorem reconstruction_update_minimises_computed {V : Type} (A : double_ops V)
    (p : Nat → V) (d : Nat → Nat → V)
    (M : Nat) (alphabet : alphabet_t) (states k : Nat) (st : design_state)
    (hN : 1 ≤ alphabet.size) (hM : alphabet.size < M) (hS : 1 ≤ states)
    (hA : strict_weak_order A)
    (hst : st = design_loop A p d M alphabet.size states k
      (initial_state M alphabet.size states)) :
    (∀ j, j < states → st.bounds.getD j 0 < st.bounds.getD (j + 1) 0 →
      (∃ r, in_region st.bounds j r ∧
        A.lt (region_mse A p d (st.bounds.getD j 0) (st.bounds.getD (j + 1) 0) r)
          A.DBL_MAX = true) →
      in_region st.bounds j
        ((adjust_reconstruction A p d M states
          { st with changed := false }).reconstruction.getD j 0) ∧
      (∀ r, in_region st.bounds j r →
        A.lt (region_mse A p d (st.bounds.getD j 0) (st.bounds.getD (j + 1) 0) r)
          (region_mse A p d (st.bounds.getD j 0) (st.bounds.getD (j + 1) 0)
            ((adjust_reconstruction A p d M states
              { st with changed := false }).reconstruction.getD j 0)) = false) ∧
      (∀ r, in_region st.bounds j r →
        r < (adjust_reconstruction A p d M states
            { st with changed := false }).reconstruction.getD j 0 →
        A.lt (region_mse A p d (st.bounds.getD j 0) (st.bounds.getD (j + 1) 0)
            ((adjust_reconstruction A p d M states
              { st with changed := false }).reconstruction.getD j 0))
          (region_mse A p d (st.bounds.getD j 0) (st.bounds.getD (j + 1) 0) r) = true)) ∧
    ((adjust_reconstruction A p d M states { st with changed := false }).changed = true ↔
      ∃ j, j < states ∧
        (adjust_reconstruction A p d M states
          { st with changed := false }).reconstruction.getD j 0 ≠
        st.reconstruction.getD j 0) := by
  have hok : range_ok alphabet.size states st := by
    rw [hst]
    exact design_loop_ok A p d M alphabet.size states k _
      (initial_state_ok M alphabet.size states hM hS hN)
  obtain ⟨_, h2, _, h4, h5, _⟩ := hok
  have hle : ∀ j, j < states → st.bounds.getD (j + 1) 0 ≤ alphabet.size := by
    intro j hj
    rcases Nat.lt_or_ge (j + 1) states with hh | hh
    · exact le_of_lt (h5 _ hh)
    · have : j + 1 = states := by omega
      rw [this, h4]
  have hmod : ∀ j, j < states →
      (min_search A p d (st.bounds.getD j 0) (st.bounds.getD (j + 1) 0)).1 < M := by
    intro j hj
    have := min_search_range A p d (st.bounds.getD j 0) (st.bounds.getD (j + 1) 0)
    have := h5 j hj
    have := hle j hj
    omega
  obtain ⟨_, _, g3, g4⟩ :=
    adjust_reconstruction_spec A p d M states { st with changed := false } h2 hmod
  refine ⟨?_, ?_⟩
  · intro j hj _ hfin
    rw [g3 j hj]
    obtain ⟨r0, hr0, hc0⟩ := hfin
    obtain ⟨m1, m2, _, m4, m5⟩ :=
      min_search_computed A hA p d (st.bounds.getD j 0) (st.bounds.getD (j + 1) 0)
        ⟨r0, hr0.1, hr0.2, hc0⟩
    exact ⟨⟨m1, m2⟩, fun r hr => m4 r hr.1 hr.2, fun r hr hlt => m5 r hr.1 hlt⟩
  · rw [g4]
    constructor
    · rintro (h | ⟨j, hj, hne⟩)
      · exact absurd h (by simp)
      · exact ⟨j, hj, by rw [g3 j hj]; exact hne⟩
    · rintro ⟨j, hj, hne⟩
      exact Or.inr ⟨j, hj, by rw [g3 j hj] at hne; exact hne⟩

theorem adjust_bounds_loop_advance (d : Nat → Nat → ℚ) (M size states : Nat)
    (rc : List Nat) (n j r : Nat) (b : List Nat)
    (hj : j < size - 1) (hr : r < states - 1)
    (hlt : d j (rc.getD (r + 1) 0) < d j (rc.getD r 0)) :
    adjust_bounds_loop exact_ops d M size states rc (n + 1) j r b =
      adjust_bounds_loop exact_ops d M size states rc n (j + 1) (r + 1)
        (b.set (r + 1) (j % M)) := by
  rw [adjust_bounds_loop, if_pos ⟨hj, hr⟩]
  have : exact_ops.lt (d j (rc.getD (r + 1) 0)) (d j (rc.getD r 0)) = true := by
    show decide (_ < _) = true
    simpa using hlt
  simp only [this, if_true]

theorem adjust_bounds_loop_keep (d : Nat → Nat → ℚ) (M size states : Nat)
    (rc : List Nat) (n j r : Nat) (b : List Nat)
    (hge : d j (rc.getD r 0) ≤ d j (rc.getD (r + 1) 0)) :
    adjust_bounds_loop exact_ops d M size states rc (n + 1) j r b =
      if j < size - 1 ∧ r < states - 1 then
        adjust_bounds_loop exact_ops d M size states rc n (j + 1) r b
      else b := by
  rw [adjust_bounds_loop]
  have : exact_ops.lt (d j (rc.getD (r + 1) 0)) (d j (rc.getD r 0)) = false := by
    show decide (_ < _) = false
    simpa using hge
  simp only [this]
  rfl

theorem adjust_bounds_loop_no_advance (d : Nat → Nat → ℚ) (M size states : Nat)
    (rc : List Nat)
    (hge : ∀ j r, 1 ≤ j → j < size - 1 → r < states - 1 →
      d j (rc.getD r 0) ≤ d j (rc.getD (r + 1) 0)) :
    ∀ (n j r : Nat) (b : List Nat), 1 ≤ j →
      adjust_bounds_loop exact_ops d M size states rc n j r b = b := by
  intro n
  induction n with
  | zero => intro j r b _; rfl
  | succ n ih =>
    intro j r b hj
    by_cases c : j < size - 1 ∧ r < states - 1
    · rw [adjust_bounds_loop_keep d M size states rc n j r b (hge j r hj c.1 c.2), if_pos c]
      exact ih (j + 1) r b (by omega)
    · rw [adjust_bounds_loop, if_neg c]

theorem adjust_bounds_loop_changes (d : Nat → Nat → ℚ) (M size states : Nat)
    (rc : List Nat) (hM : size < M) :
    ∀ (n j r : Nat) (b : List Nat) (k : Nat),
      (adjust_bounds_loop exact_ops d M size states rc n j r b).getD k 0 ≠ b.getD k 0 →
      r < k ∧ j ≤ (adjust_bounds_loop exact_ops d M size states rc n j r b).getD k 0 ∧
      (adjust_bounds_loop exact_ops d M size states rc n j r b).getD k 0 < size - 1 ∧
      d ((adjust_bounds_loop exact_ops d M size states rc n j r b).getD k 0) (rc.getD k 0) <
        d ((adjust_bounds_loop exact_ops d M size states rc n j r b).getD k 0)
          (rc.getD (k - 1) 0) := by
  intro n
  induction n with
  | zero => intro j r b k h; exact absurd rfl h
  | succ n ih =>
    intro j r b k h
    by_cases c : j < size - 1 ∧ r < states - 1
    · by_cases hlt : d j (rc.getD (r + 1) 0) < d j (rc.getD r 0)
      · rw [adjust_bounds_loop_advance d M size states rc n j r b c.1 c.2 hlt] at h ⊢
        by_cases e : (adjust_bounds_loop exact_ops d M size states rc n (j + 1) (r + 1)
            (b.set (r + 1) (j % M))).getD k 0 = (b.set (r + 1) (j % M)).getD k 0
        · rw [e] at h ⊢
          rw [getD_set] at h ⊢
          by_cases e2 : r + 1 = k ∧ r + 1 < b.length
          · rw [if_pos e2, Nat.mod_eq_of_lt (by omega)]
            obtain ⟨e3, _⟩ := e2
            subst e3
            exact ⟨by omega, le_refl _, c.1, by simpa using hlt⟩
          · rw [if_neg e2] at h
            exact absurd rfl h
        · obtain ⟨g1, g2, g3, g4⟩ := ih (j + 1) (r + 1) _ k e
          exact ⟨by omega, by omega, g3, g4⟩
      · rw [adjust_bounds_loop_keep d M size states rc n j r b (not_lt.mp hlt), if_pos c] at h ⊢
        obtain ⟨g1, g2, g3, g4⟩ := ih (j + 1) r b k h
        exact ⟨g1, by omega, g3, g4⟩
    · rw [adjust_bounds_loop, if_neg c] at h
      exact absurd rfl h

/-- C14: in the bound adjustment (alphabet size below the number of values of `symbol_t`, exact
arithmetic), at symbol `j` and region `r` inside the loop: if `d(j, reconstruction[r+1])` is
strictly less than `d(j, reconstruction[r])` the loop stores `j` in `bounds[r+1]` and goes on in
region `r+1`; otherwise, also on equality, it goes on in region `r` with the bounds as they
are.  A bound whose value the step changes gets a symbol `i` with
`d(i, reconstruction[k]) < d(i, reconstruction[k-1])`, and when the two distortions are equal
for every interior symbol and region the step leaves the state as it is. -/
theorem bound_adjustment_tie_break (d : Nat → Nat → ℚ) (M size states : Nat)
    (st : design_state) (hM : size < M) :
    (∀ n j r b, j < size - 1 → r < states - 1 →
      d j (st.reconstruction.getD (r + 1) 0) < d j (st.reconstruction.getD r 0) →
      adjust_bounds_loop exact_ops d M size states st.reconstruction (n + 1) j r b =
        adjust_bounds_loop exact_ops d M size states st.reconstruction n (j + 1) (r + 1)
          (b.set (r + 1) (j % M))) ∧
    (∀ n j r b, j < size - 1 → r < states - 1 →
      d j (st.reconstruction.getD r 0) ≤ d j (st.reconstruction.getD (r + 1) 0) →
      adjust_bounds_loop exact_ops d M size states st.reconstruction (n + 1) j r b =
        adjust_bounds_loop exact_ops d M size states st.reconstruction n (j + 1) r b) ∧
    (∀ k, (adjust_bounds exact_ops d M size states st).bounds.getD k 0 ≠ st.bounds.getD k 0 →
      1 ≤ k ∧ 1 ≤ (adjust_bounds exact_ops d M size states st).bounds.getD k 0 ∧
      (adjust_bounds exact_ops d M size states st).bounds.getD k 0 < size - 1 ∧
      d ((adjust_bounds exact_ops d M size states st).bounds.getD k 0)
          (st.reconstruction.getD k 0) <
        d ((adjust_bounds exact_ops d M size states st).bounds.getD k 0)
          (st.reconstruction.getD (k - 1) 0)) ∧
    ((∀ j r, 1 ≤ j → j < size - 1 → r < states - 1 →
        d j (st.reconstruction.getD (r + 1) 0) = d j (st.reconstruction.getD r 0)) →
      adjust_bounds exact_ops d M size states st = st) := by
  refine ⟨?_, ?_, ?_, ?_⟩
  · intro n j r b hj hr hlt
    exact adjust_bounds_loop_advance d M size states _ n j r b hj hr hlt
  · intro n j r b hj hr hge
    rw [adjust_bounds_loop_keep d M size states _ n j r b hge, if_pos ⟨hj, hr⟩]
  · intro k hk
    obtain ⟨g1, g2, g3, g4⟩ :=
      adjust_bounds_loop_changes d M size states st.reconstruction hM size 1 0 st.bounds k hk
    exact ⟨by omega, g2, g3, g4⟩
  · intro heq
    unfold adjust_bounds
    rw [adjust_bounds_loop_no_advance d M size states st.reconstruction
      (fun j r h1 h2 h3 => le_of_eq (heq j r h1 h2 h3).symm) size 1 0 st.bounds (le_refl _)]

/-- C18: for an alphabet of size `N ≥ 1` that fits `symbol_t` and `S ≥ 1` states, every input
symbol `i < N` lies in some region `j < S` of the final bounds, and `q[i]` is the reconstruction
point of the last such region, whether or not the bounds are monotone. -/
theorem generate_quantizer_mapping_total {V : Type} (A : double_ops V) (p : Nat → V)
    (d : Nat → Nat → V) (M max_iter : Nat) (alphabet : alphabet_t) (states : Nat)
    (hN : 1 ≤ alphabet.size) (hM : alphabet.size < M) (hS : 1 ≤ states)
    (_hSN : states ≤ alphabet.size) (i : Nat) (hi : i < alphabet.size) :
    ∃ j, j < states ∧
      (designed_state A p d M max_iter alphabet states).bounds.getD j 0 ≤ i ∧
      i < (designed_state A p d M max_iter alphabet states).bounds.getD (j + 1) 0 ∧
      (∀ k, j < k → k < states →
        ¬ ((designed_state A p d M max_iter alphabet states).bounds.getD k 0 ≤ i ∧
          i < (designed_state A p d M max_iter alphabet states).bounds.getD (k + 1) 0)) ∧
      (generate_quantizer A p d M max_iter alphabet states).1.q.getD i 0 =
        (designed_state A p d M max_iter alphabet states).reconstruction.getD j 0 := by
  obtain ⟨j, hj, hr, hlast, hq⟩ :=
    generated_map_spec A p d M max_iter alphabet states hN hM hS i hi
  exact ⟨j, hj, hr.1, hr.2, hlast, hq⟩

/-! ## Nearest-neighbour tables: every region holds its reconstruction point -/

theorem initial_bounds_value (M size states : Nat) (hM : size < M) (hW : size < 65536)
    (hS : 1 ≤ states) (hSN : states ≤ size) :
    (initial_bounds M size states).length = states + 1 ∧
    ∀ j, j ≤ states → (initial_bounds M size states).getD j 0 = j * size / states := by
  unfold initial_bounds
  obtain ⟨hl, hg⟩ := fill_fun_spec
    (((List.replicate (states + 1) 0).set 0 0).set states (size % M)) 1 states
    (fun j => ((j * size) % 4294967296 / states) % M)
  have hlen : (((List.replicate (states + 1) 0).set 0 0).set states (size % M)).length =
      states + 1 := by simp
  refine ⟨by rw [hl, hlen], ?_⟩
  intro j hj
  rw [hg j, hlen]
  by_cases c : 1 ≤ j ∧ j < states ∧ j < states + 1
  · rw [if_pos c]
    have hprod : j * size < 4294967296 := by
      have : j * size < 65536 * 65536 := Nat.mul_lt_mul'' (by omega) hW
      omega
    have hdiv : j * size / states < size := by
      rw [Nat.div_lt_iff_lt_mul (by omega), Nat.mul_comm size states]
      exact Nat.mul_lt_mul_of_lt_of_le c.2.1 (le_refl _) (by omega)
    rw [Nat.mod_eq_of_lt hprod, Nat.mod_eq_of_lt (by omega)]
  · rw [if_neg c]
    rcases Nat.eq_zero_or_pos j with e | e
    · subst e
      rw [getD_set_ne _ _ _ _ (by omega), getD_set_eq _ _ _ (by simp)]
      simp
    · have : j = states := by omega
      subst this
      rw [getD_set_eq _ _ _ (by simp), Nat.mod_eq_of_lt hM, Nat.mul_div_cancel_left _ (by omega)]

theorem initial_state_cells (M size states : Nat) (hM : size < M) (hW : size < 65536)
    (hS : 1 ≤ states) (hSN : states ≤ size) :
    cells_ok size states (initial_state M size states) := by
  obtain ⟨hl, hv⟩ := initial_bounds_value M size states hM hW hS hSN
  have hstep : ∀ j, j < states →
      (initial_bounds M size states).getD j 0 < (initial_bounds M size states).getD (j + 1) 0 := by
    intro j hj
    rw [hv j (by omega), hv (j + 1) (by omega)]
    have h1 : j * size / states + 1 = (j * size + states) / states := by
      rw [Nat.add_div_right _ (by omega)]
    have h2 : (j * size + states) / states ≤ ((j + 1) * size) / states := by
      apply Nat.div_le_div_right
      rw [Nat.add_mul, Nat.one_mul]
      omega
    omega
  have hN : (initial_bounds M size states).getD states 0 = size := by
    rw [hv states (le_refl _), Nat.mul_div_cancel_left _ (by omega)]
  have hle : ∀ j, j ≤ states → (initial_bounds M size states).getD j 0 ≤ size := by
    intro j hj
    rw [hv j hj]
    rw [Nat.div_le_iff_le_mul_add_pred (by omega)]
    have : j * size ≤ states * size := Nat.mul_le_mul_right _ hj
    omega
  obtain ⟨rl, rg⟩ := fill_fun_spec (List.replicate states 0) 0 states
    (fun j => (((initial_bounds M size states).getD j 0 +
      (initial_bounds M size states).getD (j + 1) 0 - 1) / 2) % M)
  have rlen : (List.replicate states 0).length = states := by simp
  refine ⟨hl, by show (initial_reconstruction M states _).length = states
                 unfold initial_reconstruction; rw [rl, rlen], ?_, hN, ?_⟩
  · show (initial_bounds M size states).getD 0 0 = 0
    rw [hv 0 (Nat.zero_le _)]; simp
  · intro j hj
    show (initial_bounds M size states).getD j 0 ≤
        (initial_reconstruction M states (initial_bounds M size states)).getD j 0 ∧
      (initial_reconstruction M states (initial_bounds M size states)).getD j 0 <
        (initial_bounds M size states).getD (j + 1) 0
    unfold initial_reconstruction
    rw [rg j, rlen, if_pos ⟨Nat.zero_le _, hj, hj⟩]
    have h1 := hstep j hj
    have h2 := hle (j + 1) (by omega)
    rw [Nat.mod_eq_of_lt (by omega)]
    omega

theorem cells_bounds_mono (size states : Nat) (st : design_state)
    (h : cells_ok size states st) :
    ∀ b a, a ≤ b → b ≤ states → st.bounds.getD a 0 ≤ st.bounds.getD b 0 := by
  obtain ⟨_, _, _, _, h5⟩ := h
  intro b
  induction b with
  | zero => intro a ha _; have : a = 0 := by omega
            rw [this]
  | succ b ih =>
    intro a ha hb
    rcases Nat.lt_or_ge a (b + 1) with h1 | h1
    · have := ih a (by omega) (by omega)
      have := h5 b (by omega)
      omega
    · have : a = b + 1 := by omega
      rw [this]

theorem cells_range (size states : Nat) (st : design_state) (h : cells_ok size states st) :
    range_ok size states st := by
  have hmono := cells_bounds_mono size states st h
  obtain ⟨h1, h2, h3, h4, h5⟩ := h
  refine ⟨h1, h2, h3, h4, ?_, ?_⟩
  · intro j hj
    have := h5 j hj
    have := hmono states (j + 1) (by omega) (le_refl _)
    omega
  · intro j hj
    have := h5 j hj
    have := hmono states (j + 1) (by omega) (le_refl _)
    omega

theorem adjust_reconstruction_cells {V : Type} (A : double_ops V) (p : Nat → V)
    (d : Nat → Nat → V) (M size states : Nat) (st : design_state) (hM : size < M)
    (h : cells_ok size states st) :
    cells_ok size states (adjust_reconstruction A p d M states st) := by
  have hr := cells_range size states st h
  obtain ⟨h1, h2, h3, h4, h5⟩ := h
  obtain ⟨_, _, _, r4, r5, _⟩ := hr
  have hle : ∀ j, j < states → st.bounds.getD (j + 1) 0 ≤ size := by
    intro j hj
    rcases Nat.lt_or_ge (j + 1) states with hh | hh
    · exact le_of_lt (r5 _ hh)
    · have : j + 1 = states := by omega
      rw [this, r4]
  have hms : ∀ j, j < states →
      st.bounds.getD j 0 ≤
        (min_search A p d (st.bounds.getD j 0) (st.bounds.getD (j + 1) 0)).1 ∧
      (min_search A p d (st.bounds.getD j 0) (st.bounds.getD (j + 1) 0)).1 <
        st.bounds.getD (j + 1) 0 := by
    intro j hj
    have := min_search_range A p d (st.bounds.getD j 0) (st.bounds.getD (j + 1) 0)
    have := h5 j hj
    omega
  obtain ⟨g1, g2, g3, _⟩ := adjust_reconstruction_spec A p d M states st h2
    (fun j hj => by have := hms j hj; have := hle j hj; omega)
  refine ⟨by rw [g1]; exact h1, g2, by rw [g1]; exact h3, by rw [g1]; exact h4, ?_⟩
  intro j hj
  rw [g1, g3 j hj]
  exact hms j hj

theorem adjust_bounds_loop_cells (d : Nat → Nat → ℚ) (M size states : Nat) (rc : List Nat)
    (hM : size < M) (hnear : nearest_neighbour size d)
    (hrc : ∀ k, k < states → rc.getD k 0 < size) :
    ∀ n j r b, 1 ≤ j → (r < states - 1 → j ≤ rc.getD (r + 1) 0) →
      b.length = states + 1 → b.getD 0 0 = 0 → b.getD states 0 = size →
      (∀ k, k < states → b.getD k 0 ≤ rc.getD k 0 ∧ rc.getD k 0 < b.getD (k + 1) 0) →
      (adjust_bounds_loop exact_ops d M size states rc n j r b).length = states + 1 ∧
      (adjust_bounds_loop exact_ops d M size states rc n j r b).getD 0 0 = 0 ∧
      (adjust_bounds_loop exact_ops d M size states rc n j r b).getD states 0 = size ∧
      (∀ k, k < states →
        (adjust_bounds_loop exact_ops d M size states rc n j r b).getD k 0 ≤ rc.getD k 0 ∧
        rc.getD k 0 < (adjust_bounds_loop exact_ops d M size states rc n j r b).getD (k + 1) 0) := by
  intro n
  induction n with
  | zero => intro j r b _ _ h1 h2 h3 h4; exact ⟨h1, h2, h3, h4⟩
  | succ n ih =>
    intro j r b hj hside h1 h2 h3 h4
    by_cases hg : j < size - 1 ∧ r < states - 1
    · have hside1 := hside hg.2
      have hr0 := h4 r (by omega)
      have hr1 := h4 (r + 1) (by omega)
      have hab : rc.getD r 0 < rc.getD (r + 1) 0 := by omega
      have hiff := hnear j (rc.getD r 0) (rc.getD (r + 1) 0) (by omega) hab
        (hrc (r + 1) (by omega))
      by_cases hlt : d j (rc.getD (r + 1) 0) < d j (rc.getD r 0)
      · rw [adjust_bounds_loop_advance d M size states rc n j r b hg.1 hg.2 hlt]
        have hmid := hiff.1 hlt
        have hjM : j % M = j := Nat.mod_eq_of_lt (by omega)
        rw [hjM]
        apply ih
        · omega
        · intro hr2
          have hr2b := h4 (r + 1 + 1) (by omega)
          omega
        · simp [h1]
        · rw [getD_set_ne _ _ _ _ (by omega)]; exact h2
        · rw [getD_set_ne _ _ _ _ (by omega)]; exact h3
        · intro k hk
          have hk4 := h4 k hk
          rcases Nat.lt_trichotomy k r with c | c | c
          · rw [getD_set_ne _ _ _ _ (by omega), getD_set_ne _ _ _ _ (by omega)]
            exact hk4
          · subst c
            rw [getD_set_ne _ _ _ _ (by omega), getD_set_eq _ _ _ (by omega)]
            omega
          · rcases Nat.eq_or_lt_of_le c with e | e
            · have : k = r + 1 := by omega
              subst this
              rw [getD_set_eq _ _ _ (by omega), getD_set_ne _ _ _ _ (by omega)]
              omega
            · rw [getD_set_ne _ _ _ _ (by omega), getD_set_ne _ _ _ _ (by omega)]
              exact hk4
      · have hge : d j (rc.getD r 0) ≤ d j (rc.getD (r + 1) 0) := not_lt.1 hlt
        rw [adjust_bounds_loop_keep d M size states rc n j r b hge, if_pos hg]
        apply ih _ _ _ (by omega) _ h1 h2 h3 h4
        intro _
        have hnmid : ¬ (rc.getD r 0 + rc.getD (r + 1) 0 < 2 * j) := fun h => hlt (hiff.2 h)
        omega
    · rw [adjust_bounds_loop, if_neg hg]
      exact ⟨h1, h2, h3, h4⟩

theorem adjust_bounds_cells (d : Nat → Nat → ℚ) (M size states : Nat) (st : design_state)
    (hM : size < M) (hS : 1 ≤ states) (hnear : nearest_neighbour size d)
    (h : cells_ok size states st) :
    cells_ok size states (adjust_bounds exact_ops d M size states st) := by
  have hr := cells_range size states st h
  obtain ⟨h1, h2, h3, h4, h5⟩ := h
  have := adjust_bounds_loop_cells d M size states st.reconstruction hM hnear hr.2.2.2.2.2
    size 1 0 st.bounds (le_refl _)
    (fun h0 => by
      have a := h5 0 (by omega)
      have b := h5 (0 + 1) (by omega)
      omega)
    h1 h3 h4 h5
  obtain ⟨g1, g2, g3, g4⟩ := this
  exact ⟨g1, h2, g2, g3, g4⟩

theorem design_iteration_cells (p : Nat → ℚ) (d : Nat → Nat → ℚ) (M size states : Nat)
    (st : design_state) (hM : size < M) (hS : 1 ≤ states) (hnear : nearest_neighbour size d)
    (h : cells_ok size states st) :
    cells_ok size states (design_iteration exact_ops p d M size states st) := by
  unfold design_iteration
  apply adjust_bounds_cells d M size states _ hM hS hnear
  apply adjust_reconstruction_cells exact_ops p d M size states _ hM
  exact h

theorem design_loop_cells (p : Nat → ℚ) (d : Nat → Nat → ℚ) (M size states : Nat)
    (hM : size < M) (hS : 1 ≤ states) (hnear : nearest_neighbour size d) :
    ∀ k st, cells_ok size states st →
      cells_ok size states (design_loop exact_ops p d M size states k st) := by
  intro k
  induction k with
  | zero => intro st h; exact h
  | succ k ih =>
    intro st h
    rw [design_loop]
    split
    · exact ih _ (design_iteration_cells p d M size states st hM hS hnear h)
    · exact h

theorem designed_state_cells (p : Nat → ℚ) (d : Nat → Nat → ℚ) (M max_iter : Nat)
    (alphabet : alphabet_t) (states : Nat) (hM : alphabet.size < M)
    (hW : alphabet.size < 65536) (hS : 1 ≤ states) (hSN : states ≤ alphabet.size)
    (hnear : nearest_neighbour alphabet.size d) :
    cells_ok alphabet.size states (designed_state exact_ops p d M max_iter alphabet states) :=
  design_loop_cells p d M alphabet.size states hM hS hnear max_iter _
    (initial_state_cells M alphabet.size states hM hW hS hSN)

theorem squared_error_nearest (size : Nat) : nearest_neighbour size squared_error := by
  intro j a b _ hab _
  unfold squared_error
  have ha : (a : ℚ) < (b : ℚ) := by exact_mod_cast hab
  constructor
  · intro h
    have : ((a : ℚ) + b) < 2 * j := by
      by_contra hc
      push_neg at hc
      nlinarith
    exact_mod_cast this
  · intro h
    have : ((a : ℚ) + b) < 2 * j := by exact_mod_cast h
    nlinarith

/-- C19 (amended): when the distortion table sends every symbol to the nearer of two
reconstruction values (as squared error does), `1 ≤ S ≤ N`, `N < 2^16` and `N` fits `symbol_t`,
the generated map is idempotent on the alphabet: `q[q[i]] = q[i]` for every symbol `i < N`, for
every PMF and every iteration cap. -/
theorem generate_quantizer_idempotent_nearest (p : Nat → ℚ) (d : Nat → Nat → ℚ)
    (M max_iter : Nat) (alphabet : alphabet_t) (states : Nat)
    (hM : alphabet.size < M) (hW : alphabet.size < 65536)
    (hS : 1 ≤ states) (hSN : states ≤ alphabet.size)
    (hnear : nearest_neighbour alphabet.size d) :
    ∀ i, i < alphabet.size →
      (generate_quantizer exact_ops p d M max_iter alphabet states).1.q.getD
        ((generate_quantizer exact_ops p d M max_iter alphabet states).1.q.getD i 0) 0 =
      (generate_quantizer exact_ops p d M max_iter alphabet states).1.q.getD i 0 := by
  intro i hi
  have hc := designed_state_cells p d M max_iter alphabet states hM hW hS hSN hnear
  have hmono := cells_bounds_mono _ _ _ hc
  have hr := cells_range _ _ _ hc
  obtain ⟨j, hj, _, _, hq⟩ :=
    generated_map_spec exact_ops p d M max_iter alphabet states (by omega) hM hS i hi
  rw [hq]
  obtain ⟨k, hk, hin, hlast, hq2⟩ :=
    generated_map_spec exact_ops p d M max_iter alphabet states (by omega) hM hS
      ((designed_state exact_ops p d M max_iter alphabet states).reconstruction.getD j 0)
      (hr.2.2.2.2.2 j hj)
  rw [hq2]
  have hcell := hc.2.2.2.2 j hj
  rcases Nat.lt_trichotomy j k with c | c | c
  · have := hmono k (j + 1) (by omega) (by omega)
    have := hin.1
    omega
  · rw [c]
  · exact absurd hcell (hlast j c hj)

/-! ## The distortion reported by the encoder -/

theorem squared_difference_exact (x v : Nat) (hx : x < 256) (hv : v < 256) :
    squared_difference x v ≤ 65025 ∧
    ((squared_difference x v : Nat) : ℚ) = ((x : ℚ) - (v : ℚ)) ^ 2 := by
  unfold squared_difference
  have hab : Int.natAbs ((x : ℤ) - (v : ℤ)) ≤ 255 := by omega
  have hsq : Int.natAbs ((x : ℤ) - (v : ℤ)) ^ 2 ≤ 65025 := by
    have := Nat.pow_le_pow_left hab 2
    simpa using this
  rw [Nat.mod_eq_of_lt (by omega)]
  refine ⟨hsq, ?_⟩
  have h2 : ((Int.natAbs ((x : ℤ) - (v : ℤ)) ^ 2 : ℕ) : ℤ) = ((x : ℤ) - (v : ℤ)) ^ 2 := by
    rw [Nat.cast_pow]
    exact Int.natAbs_sq _
  calc ((Int.natAbs ((x : ℤ) - (v : ℤ)) ^ 2 : ℕ) : ℚ)
      = (((Int.natAbs ((x : ℤ) - (v : ℤ)) ^ 2 : ℕ) : ℤ) : ℚ) := (Int.cast_natCast _).symm
    _ = ((((x : ℤ) - (v : ℤ)) ^ 2 : ℤ) : ℚ) := by rw [h2]
    _ = ((x : ℚ) - (v : ℚ)) ^ 2 := by push_cast; ring

theorem squared_error_sum_head (data : List Nat) (v : Nat) (vs : List Nat)
    (h : 0 < data.length) :
    squared_error_sum data (v :: vs) =
      (((data.getD 0 0 : Nat) : ℚ) - (v : ℚ)) ^ 2 +
        squared_error_sum (data.drop 1) vs := by
  cases data with
  | nil => exact absurd h (by simp)
  | cons x xs => simp [squared_error_sum]

theorem encode_symbol_value {QL W F : Type}
    (choose : QL → W → Nat → Nat → quantizer_t × Nat × W) (upd : F → Nat → F)
    (hq : ∀ ql w s prev, (choose ql w s prev).1.output_alphabet ≠ none)
    (hv : ∀ ql w s prev x, x < 256 → (choose ql w s prev).1.q.getD x 0 < 256)
    (qlist : QL) (cluster_id s prev x : Nat) (e : encoder_state W F) (hx : x < 256) :
    ∃ e1, encode_symbol choose upd qlist cluster_id s prev x e =
        some ((choose qlist e.well s prev).1.q.getD x 0, e1) ∧
      e1.well = (choose qlist e.well s prev).2.2 ∧ e1.distortion = e.distortion := by
  cases ha : (choose qlist e.well s prev).1.output_alphabet with
  | none => exact absurd ha (hq _ _ _ _)
  | some a =>
    simp only [encode_symbol, ha]
    rw [Nat.mod_eq_of_lt (hv qlist e.well s prev x hx)]
    exact ⟨_, rfl, rfl, rfl⟩

theorem columns_error_sum {QL W F : Type}
    (choose : QL → W → Nat → Nat → quantizer_t × Nat × W) (upd : F → Nat → F)
    (hq : ∀ ql w s prev, (choose ql w s prev).1.output_alphabet ≠ none)
    (hv : ∀ ql w s prev x, x < 256 → (choose ql w s prev).1.q.getD x 0 < 256)
    (qlist : QL) (cluster_id : Nat) (data : List Nat)
    (hdata : ∀ j, j < data.length → data.getD j 0 < 256) :
    ∀ (k s prev err : Nat) (e : encoder_state W F), s + k = data.length →
      err + k * 65025 < 4294967296 → ∀ ne, k < ne →
      ∃ prev1 err1 e1,
        for_from (encode_column choose upd qlist cluster_id data) data.length ne s
          (prev, err, e) = some (data.length, prev1, err1, e1) ∧
        e1.well = (reconstruct_symbols choose qlist (data.drop s) s prev e.well).2 ∧
        e1.distortion = e.distortion ∧
        (err1 : ℚ) = (err : ℚ) + squared_error_sum (data.drop s)
          (reconstruct_symbols choose qlist (data.drop s) s prev e.well).1 := by
  intro k
  induction k with
  | zero =>
    intro s prev err e hs _ ne hne
    have hsh : s = data.length := by omega
    subst hsh
    obtain ⟨n, rfl⟩ : ∃ n, ne = n + 1 := ⟨ne - 1, by omega⟩
    refine ⟨prev, err, e, for_from_done _ _ _ _ _ (lt_irrefl _), ?_, rfl, ?_⟩
    · rw [List.drop_length]; rfl
    · rw [List.drop_length]; simp [reconstruct_symbols, squared_error_sum]
  | succ k ih =>
    intro s prev err e hs herr ne hne
    have hsl : s < data.length := by omega
    obtain ⟨n, rfl⟩ : ∃ n, ne = n + 1 := ⟨ne - 1, by omega⟩
    have hx := hdata s hsl
    obtain ⟨es, henc, hw, hd⟩ :=
      encode_symbol_value choose upd hq hv qlist cluster_id s prev (data.getD s 0) e hx
    obtain ⟨hle, hcast⟩ := squared_difference_exact (data.getD s 0)
      ((choose qlist e.well s prev).1.q.getD (data.getD s 0) 0) hx (hv _ _ _ _ _ hx)
    have hbody : encode_column choose upd qlist cluster_id data s (prev, err, e) =
        some ((choose qlist e.well s prev).1.q.getD (data.getD s 0) 0,
          err + squared_difference (data.getD s 0)
            ((choose qlist e.well s prev).1.q.getD (data.getD s 0) 0), es) := by
      unfold encode_column
      simp only [henc]
      rw [Nat.mod_eq_of_lt (by omega)]
    obtain ⟨prev1, err1, e1, hloop, hw1, hd1, he1⟩ :=
      ih (s + 1) ((choose qlist e.well s prev).1.q.getD (data.getD s 0) 0)
        (err + squared_difference (data.getD s 0)
            ((choose qlist e.well s prev).1.q.getD (data.getD s 0) 0))
        es (by omega) (by omega) n (by omega)
    have hdrop : data.drop s = data.getD s 0 :: data.drop (s + 1) := by
      rw [List.drop_eq_getElem_cons hsl]
      congr 1
      rw [List.getD_eq_getElem?_getD, List.getElem?_eq_getElem hsl]
      rfl
    refine ⟨prev1, err1, e1, ?_, ?_, ?_, ?_⟩
    · rw [for_from_step _ _ _ _ _ _ hsl hbody]
      exact hloop
    · rw [hw1, hdrop, hw]; rfl
    · rw [hd1, hd]
    · rw [he1, hdrop, hw]
      simp only [reconstruct_symbols, squared_error_sum]
      push_cast
      rw [hcast]
      ring

theorem line_error_sum {QL W F : Type}
    (choose : QL → W → Nat → Nat → quantizer_t × Nat × W) (upd : F → Nat → F)
    (clusters : Nat → QL) (columns : Nat)
    (hq : ∀ ql w s prev, (choose ql w s prev).1.output_alphabet ≠ none)
    (hv : ∀ ql w s prev x, x < 256 → (choose ql w s prev).1.q.getD x 0 < 256)
    (hC : 1 ≤ columns) (hW : columns * 65025 < 4294967296)
    (line : line_t) (hlen : line.data.length = columns)
    (hdata : ∀ j, j < line.data.length → line.data.getD j 0 < 256)
    (e : encoder_state W F) :
    ∃ qv e0 prev1 err1 e1,
      encode_symbol choose upd (clusters (line.cluster % 256)) (line.cluster % 256) 0 0
        (line.data.getD 0 0)
        { e with as := qv_write_cluster upd (e.as) (line.cluster % 256) } = some (qv, e0) ∧
      for_from (encode_column choose upd (clusters (line.cluster % 256)) (line.cluster % 256)
        line.data) columns columns 1 (qv, squared_difference (line.data.getD 0 0) qv, e0) =
        some (columns, prev1, err1, e1) ∧
      (err1 : ℚ) = squared_error_sum line.data
        (reconstruct_symbols choose (clusters (line.cluster % 256)) line.data 0 0 e.well).1 ∧
      encode_line choose upd clusters columns e line =
        some { e1 with distortion := (round_binary64 (e.distortion + round_binary64
          (squared_error_sum line.data
            (reconstruct_symbols choose (clusters (line.cluster % 256)) line.data 0 0
              e.well).1 / (columns : ℚ)))) } ∧
      e1.well =
        (reconstruct_symbols choose (clusters (line.cluster % 256)) line.data 0 0 e.well).2 := by
  have h0 : 0 < line.data.length := by omega
  have hx := hdata 0 h0
  obtain ⟨e0, henc, hw0, hd0⟩ :=
    encode_symbol_value choose upd hq hv (clusters (line.cluster % 256)) (line.cluster % 256)
      0 0 (line.data.getD 0 0)
      { e with as := qv_write_cluster upd (e.as) (line.cluster % 256) } hx
  obtain ⟨hle, hcast⟩ := squared_difference_exact (line.data.getD 0 0)
    ((choose (clusters (line.cluster % 256)) e.well 0 0).1.q.getD (line.data.getD 0 0) 0) hx
    (hv _ _ _ _ _ hx)
  obtain ⟨prev1, err1, e1, hloop, hw1, hd1, he1⟩ :=
    columns_error_sum choose upd hq hv (clusters (line.cluster % 256)) (line.cluster % 256)
      line.data hdata (columns - 1) 1
      ((choose (clusters (line.cluster % 256)) e.well 0 0).1.q.getD (line.data.getD 0 0) 0)
      (squared_difference (line.data.getD 0 0)
        ((choose (clusters (line.cluster % 256)) e.well 0 0).1.q.getD (line.data.getD 0 0) 0))
      e0 (by omega)
      (by
        have : (columns - 1) * 65025 + 65025 = columns * 65025 := by
          have : columns = (columns - 1) + 1 := by omega
          nth_rewrite 2 [this]
          ring
        omega)
      columns (by omega)
  rw [hlen] at hloop
  have hsum : (err1 : ℚ) = squared_error_sum line.data
      (reconstruct_symbols choose (clusters (line.cluster % 256)) line.data 0 0 e.well).1 := by
    rw [he1, hw0, reconstruct_symbols_head choose _ line.data 0 e.well h0,
      squared_error_sum_head line.data _ _ h0, hcast]
  refine ⟨_, e0, prev1, err1, e1, henc, hloop, hsum, ?_, ?_⟩
  · unfold encode_line
    simp only [henc, hloop]
    rw [hd1, hd0, ← hsum]
    rfl
  · rw [hw1, hw0, reconstruct_symbols_head choose _ line.data 0 e.well h0]

theorem lines_error_sum {QL W F : Type}
    (choose : QL → W → Nat → Nat → quantizer_t × Nat × W) (upd : F → Nat → F)
    (clusters : Nat → QL) (columns : Nat)
    (hq : ∀ ql w s prev, (choose ql w s prev).1.output_alphabet ≠ none)
    (hv : ∀ ql w s prev x, x < 256 → (choose ql w s prev).1.q.getD x 0 < 256)
    (hC : 1 ≤ columns) (hW : columns * 65025 < 4294967296) :
    ∀ (ls : List line_t),
      (∀ l, l ∈ ls → l.data.length = columns ∧
        ∀ j, j < l.data.length → l.data.getD j 0 < 256) →
      ∀ (e : encoder_state W F),
      ∃ e1, encode_lines choose upd clusters columns ls e = some e1 ∧
        e1.distortion =
          line_distortion_binary64 choose clusters columns ls e.well e.distortion := by
  intro ls
  induction ls with
  | nil =>
    intro _ e
    exact ⟨e, rfl, rfl⟩
  | cons l ls ih =>
    intro hls e
    obtain ⟨hlen, hdata⟩ := hls l (List.mem_cons_self _ _)
    obtain ⟨_, _, _, _, e1, _, _, _, hline, hw⟩ :=
      line_error_sum choose upd clusters columns hq hv hC hW l hlen hdata e
    obtain ⟨e2, hrest, hd2⟩ := ih (fun l2 h2 => hls l2 (List.mem_cons_of_mem _ h2))
      { e1 with distortion := (round_binary64 (e.distortion + round_binary64
          (squared_error_sum l.data
            (reconstruct_symbols choose (clusters (l.cluster % 256)) l.data 0 0 e.well).1 /
              (columns : ℚ)))) }
    refine ⟨e2, ?_, ?_⟩
    · simp only [encode_lines, hline]
      exact hrest
    · rw [hd2]
      simp only [line_distortion_binary64]
      rw [hw]

/-- C16 (amended): for a file of `L ≥ 1` lines of `C ≥ 1` columns with `C * 255^2 < 2^32`,
symbols that are bytes and quantizers with an output alphabet and byte values,
`start_qv_compression` returns, and the value it stores through `dis` is the mean as binary64
computes it: the sum over the lines of the quotients `E / C`, where `E` is the exact sum over
the columns of `(x_s - v_s)^2`, divided by `L`, with every quotient and every sum rounded to
binary64; on every line, from every state of the encoder, the `uint32_t` variable `error` ends
as the exact sum `E` of the squared differences of the line. -/
theorem encoder_distortion_report_binary64 {QL W F : Type}
    (choose : QL → W → Nat → Nat → quantizer_t × Nat × W) (upd : F → Nat → F)
    (clusters : Nat → QL) (columns : Nat) (well : W) (stats : Nat → Nat → Nat → F)
    (cluster_stats : F) (lines : List line_t)
    (hL : 1 ≤ lines.length) (hC : 1 ≤ columns) (hW : columns * 255 ^ 2 < 2 ^ 32)
    (hlines : ∀ l, l ∈ lines → l.data.length = columns ∧
      ∀ j, j < l.data.length → l.data.getD j 0 < 256)
    (hq : ∀ ql w s prev, (choose ql w s prev).1.output_alphabet ≠ none)
    (hv : ∀ ql w s prev x, x < 256 → (choose ql w s prev).1.q.getD x 0 < 256) :
    (∃ enc, start_qv_compression choose upd clusters columns well stats cluster_stats lines =
      some (enc, mean_squared_error_binary64 choose clusters columns lines well)) ∧
    ∀ l, l ∈ lines → ∀ e : encoder_state W F,
      ∃ qv e0 prev1 err1 e1,
        encode_symbol choose upd (clusters (l.cluster % 256)) (l.cluster % 256) 0 0
          (l.data.getD 0 0)
          { e with as := qv_write_cluster upd (e.as) (l.cluster % 256) } = some (qv, e0) ∧
        for_from (encode_column choose upd (clusters (l.cluster % 256)) (l.cluster % 256)
          l.data) columns columns 1 (qv, squared_difference (l.data.getD 0 0) qv, e0) =
          some (columns, prev1, err1, e1) ∧
        (err1 : ℚ) = squared_error_sum l.data
          (reconstruct_symbols choose (clusters (l.cluster % 256)) l.data 0 0 e.well).1 := by
  have hW2 : columns * 65025 < 4294967296 := by
    have : (255 : Nat) ^ 2 = 65025 := by norm_num
    have : (2 : Nat) ^ 32 = 4294967296 := by norm_num
    omega
  constructor
  · obtain ⟨e1, henc, hd⟩ := lines_error_sum choose upd clusters columns hq hv hC hW2 lines
      hlines (⟨well, ⟨stats, cluster_stats, []⟩, 0, []⟩ : encoder_state W F)
    refine ⟨e1, ?_⟩
    unfold start_qv_compression
    cases hl : lines with
    | nil => rw [hl] at hL; exact absurd hL (by simp)
    | cons l ls =>
      simp only
      rw [← hl, henc]
      simp only
      rw [hd]
      rfl
  · intro l hl e
    obtain ⟨hlen, hdata⟩ := hlines l hl
    obtain ⟨qv, e0, prev1, err1, e1, h1, h2, h3, _, _⟩ :=
      line_error_sum choose upd clusters columns hq hv hC hW2 l hlen hdata e
    exact ⟨qv, e0, prev1, err1, e1, h1, h2, h3⟩

/-! ## Further evaluations on concrete inputs -/

/-- C17: for the identity quantizer on two symbols and the normalized input weights
`1/4, 3/4`, the output of `apply_quantizer` is marked ready and its weights sum to `0`, while
the input weights sum to `1`. -/
theorem apply_quantizer_total_zero :
    (apply_quantizer exact_ops identity_two ⟨alphabet_two, [1 / 4, 3 / 4], true⟩
      ⟨alphabet_two, [0, 0], false⟩).pmf.sum = 0 ∧
    (apply_quantizer exact_ops identity_two ⟨alphabet_two, [1 / 4, 3 / 4], true⟩
      ⟨alphabet_two, [0, 0], false⟩).pmf_ready = true ∧
    ([1 / 4, 3 / 4] : List ℚ).sum = 1 := by
  decide!

/-- C15: on four symbols with weights `0, 0, 1/2, 1/2`, two states and the table
`table_four`, the design loop stops after its first pass (cap 1 and cap 25 give the same
state, with `changed` cleared) with bounds `0, 1, 4` and reconstruction points `0, 2`;
the reconstruction update run again on that state gives the points `0, 1`, while the bound
adjustment run again on it gives the same bounds.  The table has zero diagonal and is positive
elsewhere. -/
theorem design_loop_early_exit_not_fixed_point :
    designed_state exact_ops pmf_upper_half table_four 256 25 alphabet_four 2 =
      ⟨[0, 1, 4], [0, 2], false⟩ ∧
    designed_state exact_ops pmf_upper_half table_four 256 1 alphabet_four 2 =
      designed_state exact_ops pmf_upper_half table_four 256 25 alphabet_four 2 ∧
    (adjust_reconstruction exact_ops pmf_upper_half table_four 256 2
      { designed_state exact_ops pmf_upper_half table_four 256 25 alphabet_four 2 with
        changed := false }).reconstruction = [0, 1] ∧
    (adjust_bounds exact_ops table_four 256 alphabet_four.size 2
      (designed_state exact_ops pmf_upper_half table_four 256 25 alphabet_four 2)).bounds =
      [0, 1, 4] ∧
    (∀ i, i < 4 → table_four i i = 0) ∧
    (∀ i, i < 4 → ∀ j, j < 4 → i ≠ j → 0 < table_four i j) := by
  decide!

/-- C19: on ten symbols with weights `1/2` on symbols 2 and 7, two states and the table
`table_near_pair` (zero diagonal, positive elsewhere), the generated map is
`2, 7, 7, 7, 7, 7, 7, 7, 7, 7`: `q[0] = 2` but `q[q[0]] = q[2] = 7`. -/
theorem generate_quantizer_not_idempotent :
    (∀ i, i < 10 → table_near_pair i i = 0) ∧
    (∀ i, i < 10 → ∀ j, j < 10 → i ≠ j → 0 < table_near_pair i j) ∧
    (generate_quantizer exact_ops pmf_two_peaks table_near_pair 256 25 alphabet_ten 2).1.q =
      [2, 7, 7, 7, 7, 7, 7, 7, 7, 7] ∧
    (generate_quantizer exact_ops pmf_two_peaks table_near_pair 256 25 alphabet_ten 2).1.q.getD
      ((generate_quantizer exact_ops pmf_two_peaks table_near_pair 256 25
        alphabet_ten 2).1.q.getD 0 0) 0 ≠
    (generate_quantizer exact_ops pmf_two_peaks table_near_pair 256 25
      alphabet_ten 2).1.q.getD 0 0 := by
  decide!

theorem copy_q_line_round_trip_witness :
    COPY_Q_FROM_LINE 256 (COPY_Q_TO_LINE [0, 0, 0, 0] [0, 93, 40] 3) [0, 0, 0] 3 = [0, 93, 40] ∧
    ∀ i, i < 3 →
      (COPY_Q_TO_LINE [0, 0, 0, 0] [0, 93, 40] 3).getD i 0 = [0, 93, 40].getD i 0 + 33 ∧
      33 ≤ (COPY_Q_TO_LINE [0, 0, 0, 0] [0, 93, 40] 3).getD i 0 ∧
      (COPY_Q_TO_LINE [0, 0, 0, 0] [0, 93, 40] 3).getD i 0 ≤ 126 ∧
      (COPY_Q_TO_LINE [0, 0, 0, 0] [0, 93, 40] 3).getD i 0 ≠ 0 ∧
      (COPY_Q_TO_LINE [0, 0, 0, 0] [0, 93, 40] 3).getD i 0 ≠ 10 :=
  copy_q_line_round_trip 256 [0, 93, 40] [0, 0, 0, 0] [0, 0, 0] 3 (by decide) (by decide)
    (by decide) (by decide) (by decide)

theorem state_encoding_found_witness :
    ∃ a k, identity_two.output_alphabet = some a ∧
      find_state_encoding identity_two (identity_two.q.getD 1 0) = some k ∧
      k = get_symbol_index a (identity_two.q.getD 1 0) ∧
      k < a.symbols.length ∧ a.symbols.getD k 0 = identity_two.q.getD 1 0 :=
  state_encoding_found 2 identity_two 1 (choose_identity_consistent () 0 0 0) (by decide)

theorem bound_adjustment_tie_break_witness :
    alphabet_five.size < 256 ∧
    ((∀ j r, 1 ≤ j → j < alphabet_five.size - 1 → r < 2 - 1 →
        squared_error j ((initial_state 256 alphabet_five.size 2).reconstruction.getD (r + 1) 0) =
          squared_error j ((initial_state 256 alphabet_five.size 2).reconstruction.getD r 0)) →
      adjust_bounds exact_ops squared_error 256 alphabet_five.size 2
        (initial_state 256 alphabet_five.size 2) = initial_state 256 alphabet_five.size 2) :=
  ⟨by decide, (bound_adjustment_tie_break squared_error 256 alphabet_five.size 2
    (initial_state 256 alphabet_five.size 2) (by decide)).2.2.2⟩

theorem generate_quantizer_mapping_total_witness :
    ∃ j, j < 4 ∧
      (designed_state exact_ops pmf_five table_with_tie 256 25 alphabet_five 4).bounds.getD j 0
        ≤ 2 ∧
      2 < (designed_state exact_ops pmf_five table_with_tie 256 25
        alphabet_five 4).bounds.getD (j + 1) 0 ∧
      (∀ k, j < k → k < 4 →
        ¬ ((designed_state exact_ops pmf_five table_with_tie 256 25
              alphabet_five 4).bounds.getD k 0 ≤ 2 ∧
          2 < (designed_state exact_ops pmf_five table_with_tie 256 25
              alphabet_five 4).bounds.getD (k + 1) 0)) ∧
      (generate_quantizer exact_ops pmf_five table_with_tie 256 25 alphabet_five 4).1.q.getD 2 0 =
        (designed_state exact_ops pmf_five table_with_tie 256 25
          alphabet_five 4).reconstruction.getD j 0 :=
  generate_quantizer_mapping_total exact_ops pmf_five table_with_tie 256 25 alphabet_five 4
    (by decide) (by decide) (by decide) (by decide) 2 (by decide)

theorem generate_quantizer_idempotent_nearest_witness :
    nearest_neighbour alphabet_five.size squared_error ∧
    (∀ i, i < alphabet_five.size →
      (generate_quantizer exact_ops pmf_two_symbols squared_error 256 25 alphabet_five 2).1.q.getD
        ((generate_quantizer exact_ops pmf_two_symbols squared_error 256 25
          alphabet_five 2).1.q.getD i 0) 0 =
      (generate_quantizer exact_ops pmf_two_symbols squared_error 256 25
        alphabet_five 2).1.q.getD i 0) :=
  ⟨squared_error_nearest _,
    generate_quantizer_idempotent_nearest pmf_two_symbols squared_error 256 25 alphabet_five 2
      (by decide) (by decide) (by decide) (by decide) (squared_error_nearest _)⟩

theorem choose_merge_byte (ql : Unit) (w s prev x : Nat) :
    (choose_merge ql w s prev).1.q.getD x 0 < 256 := by
  show ([1, 1] : List Nat).getD x 0 < 256
  rcases x with _ | _ | x <;> simp

theorem encoder_distortion_report_binary64_witness :
    (∃ enc, start_qv_compression choose_merge count_stats (fun _ => ()) 2 0 (fun _ _ _ => 0) 0
        [⟨0, [1, 0]⟩, ⟨0, [0, 0]⟩] =
      some (enc, mean_squared_error_binary64 choose_merge (fun _ => ()) 2
        [⟨0, [1, 0]⟩, ⟨0, [0, 0]⟩] 0)) ∧
    mean_squared_error_binary64 choose_merge (fun _ => ()) 2 [⟨0, [1, 0]⟩, ⟨0, [0, 0]⟩] 0 =
      3 / 4 :=
  ⟨(encoder_distortion_report_binary64 choose_merge count_stats (fun _ => ()) 2 0
    (fun _ _ _ => 0) 0
    [⟨0, [1, 0]⟩, ⟨0, [0, 0]⟩] (by decide) (by decide) (by decide)
    (by intro l hl; simp at hl; rcases hl with rfl | rfl <;> decide)
    (fun _ _ _ _ => by simp [choose_merge])
    (fun ql w s prev x _ => choose_merge_byte ql w s prev x)).1, by decide!⟩

/-- C16: for the file of one line `1, 1, 0` of three columns and the quantizer that maps both
symbols to 1, the squared differences sum to 1 and the mean of the claim is `1/3`; the value
that `start_qv_compression` stores through `dis` is the binary64 number nearest to `1/3`,
`6004799503160661 / 2^54`, which is not `1/3`. -/
theorem encoder_distortion_not_exact_mean :
    (start_qv_compression choose_merge count_stats (fun _ => ()) 3 0 (fun _ _ _ => 0) 0
      [⟨0, [1, 1, 0]⟩]).map (fun r => r.2) = some (6004799503160661 / 18014398509481984) ∧
    mean_squared_error choose_merge (fun _ => ()) 3 [⟨0, [1, 1, 0]⟩] 0 = 1 / 3 ∧
    (6004799503160661 / 18014398509481984 : ℚ) ≠ 1 / 3 ∧
    3 * 255 ^ 2 < 2 ^ 32 := by
  decide!

/-- C5: for the weights `1/6, 3/6, 0, 2/6` as stored in `double`, squared error and one state,
in binary64 `generate_quantizer` returns the constant map `2` and reports
`6755399441055743 / 2^52` (1.4999999999999998), while the sum of `pmf[i] * d(i, r)` is smaller
at `r = 1`, where it is least, than at `r = 2`: the computed cost of `r = 1` rounds up to
`3/2`. -/
theorem generate_quantizer_single_state_rounding :
    (generate_quantizer binary64_ops pmf_sixths squared_error 256 25 alphabet_four 1).1.q =
      [2, 2, 2, 2] ∧
    (generate_quantizer binary64_ops pmf_sixths squared_error 256 25 alphabet_four 1).2 =
      6755399441055743 / 4503599627370496 ∧
    (∀ r, r < 4 → ∑ i in Finset.range 4, pmf_sixths i * squared_error i 1 ≤
      ∑ i in Finset.range 4, pmf_sixths i * squared_error i r) ∧
    ∑ i in Finset.range 4, pmf_sixths i * squared_error i 1 <
      ∑ i in Finset.range 4, pmf_sixths i * squared_error i 2 ∧
    region_mse binary64_ops pmf_sixths squared_error 0 4 1 = 3 / 2 := by
  decide!

/-- C13: for the weights `1/6, 3/6, 0, 2/6` as stored in `double`, squared error and one
state, the first pass enters with the region `[0, 4)` and the point 1; in binary64 the
reconstruction update moves the point to 2 (computed costs `3/2` at 1 and
`6755399441055743 / 2^52` at 2), while the sum of `pmf[i] * d(i, r)` over the region is smaller
at 1 than at 2. -/
theorem reconstruction_update_rounding :
    initial_state 256 alphabet_four.size 1 = ⟨[0, 4], [1], true⟩ ∧
    (adjust_reconstruction binary64_ops pmf_sixths squared_error 256 1
      { initial_state 256 alphabet_four.size 1 with changed := false }).reconstruction = [2] ∧
    region_mse binary64_ops pmf_sixths squared_error 0 4 1 = 3 / 2 ∧
    region_mse binary64_ops pmf_sixths squared_error 0 4 2 =
      6755399441055743 / 4503599627370496 ∧
    region_cost pmf_sixths squared_error 0 4 1 < region_cost pmf_sixths squared_error 0 4 2 := by
  decide!

theorem generate_quantizer_single_state_computed_witness :
    ∃ r, r < alphabet_four.size ∧
      (∀ i, i < alphabet_four.size →
        (generate_quantizer binary64_ops pmf_sixths squared_error 256 25
          alphabet_four 1).1.q.getD i 0 = r) ∧
      (∀ r2, r2 < alphabet_four.size →
        binary64_ops.lt (region_mse binary64_ops pmf_sixths squared_error 0 alphabet_four.size r2)
          (region_mse binary64_ops pmf_sixths squared_error 0 alphabet_four.size r) = false) ∧
      (∀ r2, r2 < r →
        binary64_ops.lt (region_mse binary64_ops pmf_sixths squared_error 0 alphabet_four.size r)
          (region_mse binary64_ops pmf_sixths squared_error 0 alphabet_four.size r2) = true) ∧
      (generate_quantizer binary64_ops pmf_sixths squared_error 256 25 alphabet_four 1).2 =
        region_mse binary64_ops pmf_sixths squared_error 0 alphabet_four.size r :=
  generate_quantizer_single_state_computed binary64_ops pmf_sixths squared_error 256 25
    alphabet_four (by decide) (by decide) (by decide)
    (rational_order_weak binary64_ops (fun _ _ => rfl))
    (fun a b => by show round_binary64 (a * b) = round_binary64 (b * a); rw [mul_comm])
    ⟨0, by decide, by decide!⟩

theorem reconstruction_update_minimises_computed_witness :
    (∀ j, j < 1 →
      (initial_state 256 alphabet_four.size 1).bounds.getD j 0 <
        (initial_state 256 alphabet_four.size 1).bounds.getD (j + 1) 0 →
      (∃ r, in_region (initial_state 256 alphabet_four.size 1).bounds j r ∧
        binary64_ops.lt (region_mse binary64_ops pmf_sixths squared_error
          ((initial_state 256 alphabet_four.size 1).bounds.getD j 0)
          ((initial_state 256 alphabet_four.size 1).bounds.getD (j + 1) 0) r)
          binary64_ops.DBL_MAX = true) →
      in_region (initial_state 256 alphabet_four.size 1).bounds j
        ((adjust_reconstruction binary64_ops pmf_sixths squared_error 256 1
          { initial_state 256 alphabet_four.size 1 with
            changed := false }).reconstruction.getD j 0) ∧
      (∀ r, in_region (initial_state 256 alphabet_four.size 1).bounds j r →
        binary64_ops.lt (region_mse binary64_ops pmf_sixths squared_error
          ((initial_state 256 alphabet_four.size 1).bounds.getD j 0)
          ((initial_state 256 alphabet_four.size 1).bounds.getD (j + 1) 0) r)
          (region_mse binary64_ops pmf_sixths squared_error
            ((initial_state 256 alphabet_four.size 1).bounds.getD j 0)
            ((initial_state 256 alphabet_four.size 1).bounds.getD (j + 1) 0)
            ((adjust_reconstruction binary64_ops pmf_sixths squared_error 256 1
              { initial_state 256 alphabet_four.size 1 with
                changed := false }).reconstruction.getD j 0)) = false) ∧
      (∀ r, in_region (initial_state 256 alphabet_four.size 1).bounds j r →
        r < (adjust_reconstruction binary64_ops pmf_sixths squared_error 256 1
            { initial_state 256 alphabet_four.size 1 with
              changed := false }).reconstruction.getD j 0 →
        binary64_ops.lt (region_mse binary64_ops pmf_sixths squared_error
            ((initial_state 256 alphabet_four.size 1).bounds.getD j 0)
            ((initial_state 256 alphabet_four.size 1).bounds.getD (j + 1) 0)
            ((adjust_reconstruction binary64_ops pmf_sixths squared_error 256 1
              { initial_state 256 alphabet_four.size 1 with
                changed := false }).reconstruction.getD j 0))
          (region_mse binary64_ops pmf_sixths squared_error
            ((initial_state 256 alphabet_four.size 1).bounds.getD j 0)
            ((initial_state 256 alphabet_four.size 1).bounds.getD (j + 1) 0) r) = true)) ∧
    ((adjust_reconstruction binary64_ops pmf_sixths squared_error 256 1
        { initial_state 256 alphabet_four.size 1 with changed := false }).changed = true ↔
      ∃ j, j < 1 ∧
        (adjust_reconstruction binary64_ops pmf_sixths squared_error 256 1
          { initial_state 256 alphabet_four.size 1 with
            changed := false }).reconstruction.getD j 0 ≠
        (initial_state 256 alphabet_four.size 1).reconstruction.getD j 0) :=
  reconstruction_update_minimises_computed binary64_ops pmf_sixths squared_error 256
    alphabet_four 1 0 (initial_state 256 alphabet_four.size 1) (by decide) (by decide)
    (by decide) (rational_order_weak binary64_ops (fun _ _ => rfl)) rfl

/-- Known values of the rounding to binary64: `0.1`, `1/3`, a value that binary64 holds,
`DBL_MAX`, a tie that goes to the even neighbour, and the subnormal range. -/
theorem round_binary64_values :
    round_binary64 (1 / 10) = 3602879701896397 / 36028797018963968 ∧
    round_binary64 (-(1 / 10)) = -(3602879701896397 / 36028797018963968) ∧
    round_binary64 (1 / 3) = 6004799503160661 / 18014398509481984 ∧
    round_binary64 (6004799503160661 / 18014398509481984) =
      6004799503160661 / 18014398509481984 ∧
    round_binary64 DBL_MAX_exact = DBL_MAX_exact ∧
    round_binary64 (2 ^ 53 + 1) = 2 ^ 53 ∧
    round_binary64 (2 ^ 53 + 3) = 2 ^ 53 + 4 ∧
    round_binary64 (1 / 2 ^ 1075 + 1 / 2 ^ 1080) = 1 / 2 ^ 1074 ∧
    round_binary64 (1 / 2 ^ 1075) = 0 := by
  decide!

end QVZ
